import Mathlib

/-!
# The expression calculator (`src/expression_calculator.cpp`)

A shallow embedding of the class `expression_parser` and of the operation
classes it dispatches to, followed by theorems about them.

Modelling conventions.

* A text is a `List Char`.  The source works on bytes; a code point outside
  ASCII stands for its UTF-8 bytes, none of which is a digit, a letter or a
  blank in the "C" locale.
* A finite `double` is modelled by the rational number it is; `exact_double`
  tells which rational numbers are doubles.  An operation of IEEE 754 (`+`,
  `-`, `*`, `/`) and the conversion of a numeral return the exact result when
  it is a double and round it otherwise; the rounded value is read from the
  parameter record `Libm`, of which the model assumes only that it is a
  double and that rounding is monotone.  The same record gives the values of
  the C library that exact rational arithmetic does not determine (the
  transcendental functions, `fmod` by zero, and `pow` where the exact power
  is not a double, of which the model assumes that it is a double when the
  exact power lies within the range).  Infinities, NaN and the negative zero have no counterpart
  among the rational numbers: a result beyond the range of `double` is a value
  of the library like a rounded one, and the arithmetic of the model on it is
  not that of the source.
* `std::stod` throws `std::out_of_range` on a number that is too large for a
  `double`; the model does so from `overflow_bound` on.
* `expr.insert` inside the loop of `calc` leaves the iterator of the loop
  valid only while the string does not reallocate.  Whether it does depends on
  the capacity of the string, which the text does not determine; the model
  reads it from `Libm.insert_in_place` and treats a use of the invalidated
  iterator as undefined behaviour.
* `std::stack` is a list whose head is the top.
* What a call of `calc` can do besides returning a number is an `Err`: one of
  the four exceptions thrown by the source, the two exceptions of `std::stod`,
  a failed `assert`, undefined behaviour (`top`/`pop` of an empty stack, an
  iterator moved past the end or used after the string reallocated), or the
  exhaustion of the fuel that bounds the recursion of the model.
-/

namespace ExprCalc

/-- Ways in which a call ends without returning a number. -/
inductive Err where
  /-- The exception `throw std::invalid_argument("error bracket")` -/
  | bracket
  /-- The exception `throw std::invalid_argument("incorrect symbol")` -/
  | symbol
  /-- The exception `throw std::invalid_argument("ops_factory: bad key")` -/
  | badKey
  /-- The exception `throw std::invalid_argument("unknow function")` -/
  | unknownFn
  /-- The exception of `std::stod` when it finds no number to convert -/
  | stod
  /-- The exception `std::out_of_range` of `std::stod` -/
  | range
  /-- an `assert` failed -/
  | assertion
  /-- undefined behaviour: `top`/`pop` on an empty stack, iterator past the end or
  used after the string reallocated -/
  | undefined
  /-- the model ran out of fuel -/
  | fuel
  deriving DecidableEq, Repr

/-- Outcome of a call that returns an `α` in the source. -/
abbrev Res (α : Type) := Except Err α

/-- The least natural number that the conversion to `double` rounds to infinity:
`2 ^ 1024 - 2 ^ 970`, half way between the largest double and `2 ^ 1024`. -/
def overflow_bound : Nat :=
  179769313486231580793728971405303415079934132710037826936173778980444968292764750946649017977587207096330286416692887910946555547851940402630657488671505820681908902000708383676273854845817711531764475730270069855571366959622842914819860834936475292719074168444365510704342711559699508093042880177904174497792

/-- The reciprocal `2 ^ 1022` of the least positive normal double. -/
def underflow_scale : Nat :=
  44942328371557897693232629769725618340449424473557664318357520289433168951375240783177119330601884005280028469967848339414697442203604155623211857659868531094441973356216371319075554900311523529863270738021251442209537670585615720368478277635206809290837627671146574559986811484619929076208839082406056034304

/-- A natural number without its factors 2, at most `fuel` of them removed. -/
def odd_part : Nat → Nat → Nat
  | 0, n => n
  | fuel + 1, n => if n % 2 = 0 ∧ n ≠ 0 then odd_part fuel (n / 2) else n

/-- Whether a natural number is a value of the type `double`: it is below
`2 ^ 53`, or it is below `overflow_bound` and its odd part is below `2 ^ 53`. -/
def nat_double (n : Nat) : Bool :=
  decide (n < 2 ^ 53) || (decide (n < overflow_bound) && decide (odd_part 1024 n < 2 ^ 53))

/-- Whether a rational number is a finite value of the type `double` (IEEE 754
binary64): a number `m * 2 ^ e` with `|m| < 2 ^ 53` and `-1074 ≤ e ≤ 971`.
In lowest terms the denominator divides `2 ^ 1074`, and either the numerator
is below `2 ^ 53` in absolute value, or the number is an integer whose
absolute value is a double. -/
def exact_double (q : ℚ) : Bool :=
  decide (q.den ∣ underflow_scale * 2 ^ 52) &&
    (decide (q.num.natAbs < 2 ^ 53) || (decide (q.den = 1) && nat_double q.num.natAbs))

/-- Values and choices of the C and C++ libraries outside the exactly modelled
fragment. -/
structure Libm where
  sin : ℚ → ℚ
  cos : ℚ → ℚ
  tan : ℚ → ℚ
  acos : ℚ → ℚ
  log10 : ℚ → ℚ
  log : ℚ → ℚ
  logb : ℚ → ℚ
  exp : ℚ → ℚ
  sqrt : ℚ → ℚ
  /-- Value of `std::pow(x, y)` when `y` is not integral, or `x = 0` and `y < 0`, or
  the exact power is not a double -/
  powr : ℚ → ℚ → ℚ
  /-- Value of `std::fmod(x, 0)` -/
  fmodZero : ℚ → ℚ
  /-- Outcome of `std::stod` on a positive number below the least normal double, where
  the implementation chooses whether the underflow is reported -/
  stod_underflow : ℚ → Res ℚ
  /-- Whether `expr.insert` of one character into the working copy leaves the
  iterators into it valid, that is whether the string has spare capacity; the
  argument is the text from the iterator on -/
  insert_in_place : List Char → Bool
  /-- The double to which an operation of IEEE 754 or the conversion of a numeral
  rounds an exact result that is not a double -/
  round : ℚ → ℚ
  /-- An exact result within the range of `double` is rounded to a double -/
  round_double : ∀ q : ℚ, |q| < overflow_bound → exact_double (round q) = true
  /-- Rounding is monotone: the rounded value does not exceed a double that the
  exact result does not exceed; assumed for the doubles up to `2 ^ 53` in
  absolute value -/
  round_le : ∀ q d : ℚ, exact_double d = true → |d| ≤ 2 ^ 53 → q ≤ d → round q ≤ d
  /-- The value of `std::pow` is a double when the exponent is integral and the
  exact power lies within the range of `double` -/
  powr_double : ∀ x y : ℚ, y.den = 1 → (x ≠ 0 ∨ 0 ≤ y) → |x ^ y.num| < overflow_bound →
    exact_double (powr x y) = true

/-- A library whose unmodelled values are all `0`, which reports every underflow,
whose strings always have spare capacity, and which rounds a number to `0`
when it is not negative and to `-2 ^ 53` when it is; the theorems below hold
for every library, this one serves to evaluate examples. -/
def Libm.zero : Libm :=
  ⟨fun _ => 0, fun _ => 0, fun _ => 0, fun _ => 0, fun _ => 0, fun _ => 0,
   fun _ => 0, fun _ => 0, fun _ => 0, fun _ _ => 0, fun _ => 0,
   fun _ => .error .range, fun _ => true,
   fun q => if 0 ≤ q then 0 else ((-9007199254740992 : ℤ) : ℚ),
   fun q _ => by
     by_cases h : 0 ≤ q
     · dsimp only
       rw [if_pos h]
       simp [exact_double]
     · dsimp only
       rw [if_neg h]
       simp only [exact_double, Rat.num_intCast, Rat.den_intCast, one_dvd, decide_True,
         Bool.true_and]
       decide,
   fun q d _ hd hq => by
     by_cases h : 0 ≤ q
     · dsimp only
       rw [if_pos h]
       exact le_trans h hq
     · dsimp only
       rw [if_neg h]
       have h1 := (abs_le.1 hd).1
       have h2 : (((-9007199254740992 : ℤ) : ℚ)) = -(2 ^ 53) := by norm_num
       rw [h2]
       exact h1,
   fun _ _ _ _ _ => by simp [exact_double]⟩

/-- The double that an operation of IEEE 754, or the conversion of a numeral,
returns for the exact result `r`: `r` itself when it is a double, the rounded
value of the library otherwise. -/
def fl (L : Libm) (r : ℚ) : ℚ := if exact_double r then r else L.round r

/-! ## Character classes -/

/-- Models `std::isdigit` -/
def isdigit (c : Char) : Bool := c.isDigit

/-- Models `std::isalpha` in the "C" locale -/
def isalpha (c : Char) : Bool := c.isAlpha

/-- Models `std::isspace` in the "C" locale: space, `\t`, `\n`, `\v`, `\f`, `\r` -/
def isspace (c : Char) : Bool :=
  c == ' ' || c == '\t' || c == '\n' || c == '\x0b' || c == '\x0c' || c == '\r'

/-- Models `expression_parser::is_operation` -/
def is_operation (op_sign : Char) : Bool :=
  op_sign == '=' || op_sign == '+' || op_sign == '-' || op_sign == '*' ||
  op_sign == '/' || op_sign == '%' || op_sign == '^' || op_sign == '!'

/-- Models `expression_parser::open_brackets` -/
def open_brackets (symb : Char) : Bool :=
  symb == '(' || symb == '[' || symb == '\x7b'

/-- Models `expression_parser::close_brackets` -/
def close_brackets (symb : Char) : Bool :=
  symb == ')' || symb == ']' || symb == '\x7d'

/-- The map `parentheses` of the constructor, read with `operator[]`: a key
that is absent yields the default `char`. -/
def parentheses (c : Char) : Char :=
  if c = ')' then '(' else if c = ']' then '[' else if c = '\x7d' then '\x7b' else '\x00'

/-- Models `expression_parser::incorrect_symbol`: true when every character is allowed. -/
def incorrect_symbol (expr : List Char) : Bool :=
  expr.all fun ch =>
    isspace ch || isdigit ch || isalpha ch || is_operation ch ||
    open_brackets ch || close_brackets ch || ch == '.' || ch == ','

/-- The loop of `expression_parser::lays_check`, with its local stack. -/
def lays_check_loop : List Char → List Char → Bool
  | [], stack => stack.isEmpty
  | ch :: str, stack =>
    if open_brackets ch then lays_check_loop str (ch :: stack)
    else if close_brackets ch then
      match stack with
      | top :: stack' => if top = parentheses ch then lays_check_loop str stack' else false
      | [] => false
    else lays_check_loop str stack

/-- Models `expression_parser::lays_check` -/
def lays_check (str : List Char) : Bool := lays_check_loop str []

/-! ## Operator keys, precedence, operations -/

/-- The `char` under which an operator is stored on the operator stack and
registered in the factory: the glyph itself, negated for the unary forms. -/
def key (c : Char) : Int := c.toNat

/-- The map `prior` of the constructor, read with `operator[]`: a key that is
absent (an open bracket on the operator stack) yields `0`. -/
def prior (k : Int) : Nat :=
  if k = key '=' then 0
  else if k = key '+' then 1
  else if k = key '-' then 1
  else if k = key '*' then 2
  else if k = key '/' then 2
  else if k = key '%' then 2
  else if k = key '^' then 3
  else if k = key '!' then 3
  else if k = -key '+' then 4
  else if k = -key '-' then 4
  else 0

/-- Models `std::pow`: the exact power for an integral exponent when it is a
double, the library value elsewhere. -/
def pow (L : Libm) (x y : ℚ) : ℚ :=
  if y.den = 1 ∧ (x ≠ 0 ∨ 0 ≤ y) ∧ exact_double (x ^ y.num) = true then x ^ y.num
  else L.powr x y

/-- Models `std::fmod`: `x - n * y` with `n` the quotient truncated towards zero,
which for doubles `x` and `y` is a double. -/
def fmod (L : Libm) (x y : ℚ) : ℚ :=
  if y = 0 then L.fmodZero x else x - ((x / y).num.tdiv (x / y).den : ℤ) * y

/-- Models `op_fact::fact`; each recursive call uses one unit of fuel. -/
def fact (L : Libm) : Nat → ℚ → Res ℚ
  | 0, _ => .error .fuel
  | fuel + 1, val =>
    if val = 0 then .ok 1
    else do
      let r ← fact L fuel (fl L (val - 1))
      .ok (fl L (val * r))

/-- The two `top`/`pop` pairs that open every binary `exec`. -/
def pop2 : List ℚ → Res (ℚ × ℚ × List ℚ)
  | arg1 :: arg2 :: stack => .ok (arg1, arg2, stack)
  | _ => .error .undefined

/-- The `top`/`pop` pair that opens every unary `exec`. -/
def pop1 : List ℚ → Res (ℚ × List ℚ)
  | arg :: stack => .ok (arg, stack)
  | [] => .error .undefined

/-- Models `expression_parser::process_operation`: `ops_factory::create_object`
followed by the `exec` of the object registered under the key. -/
def process_operation (L : Libm) (fuel : Nat) (stack : List ℚ) (op_sign : Int) :
    Res (List ℚ) :=
  if op_sign = key '=' then do
    let (arg1, arg2, stack) ← pop2 stack
    .ok ((if arg1 = arg2 then 1 else 0) :: stack)
  else if op_sign = key '+' then do
    let (arg1, arg2, stack) ← pop2 stack
    .ok (fl L (arg2 + arg1) :: stack)
  else if op_sign = key '-' then do
    let (arg1, arg2, stack) ← pop2 stack
    .ok (fl L (arg2 - arg1) :: stack)
  else if op_sign = key '*' then do
    let (arg1, arg2, stack) ← pop2 stack
    .ok (fl L (arg2 * arg1) :: stack)
  else if op_sign = key '/' then do
    let (arg1, arg2, stack) ← pop2 stack
    if arg1 = 0 then .error .assertion else .ok (fl L (arg2 / arg1) :: stack)
  else if op_sign = key '%' then do
    let (arg1, arg2, stack) ← pop2 stack
    .ok (fmod L arg2 arg1 :: stack)
  else if op_sign = key '^' then do
    let (arg1, arg2, stack) ← pop2 stack
    .ok (pow L arg2 arg1 :: stack)
  else if op_sign = key '!' then do
    let (arg, stack) ← pop1 stack
    if arg > 0 then do
      let r ← fact L fuel arg
      .ok (r :: stack)
    else .error .assertion
  else if op_sign = -key '+' then do
    let (arg, stack) ← pop1 stack
    .ok (arg :: stack)
  else if op_sign = -key '-' then do
    let (arg, stack) ← pop1 stack
    .ok (-arg :: stack)
  else .error .badKey

/-- Whether the top of the operator stack is an open bracket. -/
def open_key (k : Int) : Bool :=
  k == key '(' || k == key '[' || k == key '\x7b'

/-- The loop `while (!open_brackets(oper.top())) process_operation(...), oper.pop();`
of the close-bracket and comma branch. -/
def reduce_to_open (L : Libm) (fuel : Nat) : List Int → List ℚ → Res (List Int × List ℚ)
  | [], _ => .error .undefined
  | top :: oper, stack =>
    if open_key top then .ok (top :: oper, stack)
    else do
      let stack ← process_operation L fuel stack top
      reduce_to_open L fuel oper stack

/-- The loop `while (!oper.empty() && prior[oper.top()] >= prior[op_sign]) ...`
of the operator branch. -/
def reduce_prior (L : Libm) (fuel : Nat) (op_sign : Int) :
    List Int → List ℚ → Res (List Int × List ℚ)
  | [], stack => .ok ([], stack)
  | top :: oper, stack =>
    if prior top ≥ prior op_sign then do
      let stack ← process_operation L fuel stack top
      reduce_prior L fuel op_sign oper stack
    else .ok (top :: oper, stack)

/-- The final loop `while (!oper.empty()) process_operation(...), oper.pop();`. -/
def reduce_all (L : Libm) (fuel : Nat) : List Int → List ℚ → Res (List ℚ)
  | [], stack => .ok stack
  | top :: oper, stack => do
    let stack ← process_operation L fuel stack top
    reduce_all L fuel oper stack

/-! ## Literals, identifiers, argument lists -/

/-- Value of a run of decimal digits. -/
def digits_value (ds : List Char) : Nat :=
  ds.foldl (fun n c => 10 * n + (c.toNat - '0'.toNat)) 0

/-- Models `std::stod` on a run of digits and dots: the longest leading piece of the
form digits, optional dot, digits is converted; with no digit in it the call
throws `std::invalid_argument`, on a number from `overflow_bound` on it throws
`std::out_of_range`, and on a positive number below the least normal double
`1 / underflow_scale` the outcome is that of the library; any other number is
converted to itself when it is a double and to its rounded value otherwise. -/
def stod (L : Libm) (s : List Char) : Res ℚ :=
  let int_part := s.takeWhile isdigit
  let frac_part :=
    match s.dropWhile isdigit with
    | '.' :: r => r.takeWhile isdigit
    | _ => []
  let scaled := digits_value int_part * 10 ^ frac_part.length + digits_value frac_part
  let val : ℚ := digits_value int_part + (digits_value frac_part : ℚ) / 10 ^ frac_part.length
  if int_part.isEmpty && frac_part.isEmpty then .error .stod
  else if overflow_bound ≤ digits_value int_part then .error .range
  else if 0 < scaled ∧ scaled * underflow_scale < 10 ^ frac_part.length then L.stod_underflow val
  else .ok (fl L val)

/-- Models `str_tolower` -/
def str_tolower (str : List Char) : List Char := str.map Char.toLower

/-- The loop of `expression_parser::find_bracket` from `first` to the end of
the text, with its local stack.  The result is the number of characters before
the bracket at which the loop breaks, `none` when the loop runs to the end. -/
def find_bracket_loop : List Char → List Char → Nat → Res (Option Nat)
  | [], _, _ => .ok none
  | ch :: str, stack, pos =>
    if open_brackets ch then find_bracket_loop str (ch :: stack) (pos + 1)
    else if close_brackets ch then
      match stack with
      | [] => .error .undefined
      | [_] => .ok (some pos)
      | _ :: stack' => find_bracket_loop str stack' (pos + 1)
    else find_bracket_loop str stack (pos + 1)

/-- Models `expression_parser::find_bracket(first, std::end(expr))` -/
def find_bracket (str : List Char) : Res (Option Nat) := find_bracket_loop str [] 0

/-- The loop of `expression_parser::find_delim(first, last, delim)`: `seen` is
the text from `first` to the iterator (reversed), the result the number of
characters before the delimiter found, the length of the range when none is. -/
def find_delim_loop (delim : Char) : List Char → List Char → Nat
  | [], seen => seen.length
  | ch :: str, seen =>
    if ch = delim ∧ lays_check seen.reverse then seen.length
    else find_delim_loop delim str (ch :: seen)

/-- Models `expression_parser::find_delim` -/
def find_delim (range : List Char) (delim : Char) : Nat := find_delim_loop delim range []

/-- Models `expression_parser::process_function` with one argument. -/
def process_function1 (L : Libm) (stack : List ℚ) (func : List Char) (arg : ℚ) :
    Res (List ℚ) :=
  if func = "sin".toList then .ok (L.sin arg :: stack)
  else if func = "cos".toList then .ok (L.cos arg :: stack)
  else if func = "tg".toList then .ok (L.tan arg :: stack)
  else if func = "сtg".toList then
    if L.tan arg = 0 then .error .assertion else .ok (fl L (1 / L.tan arg) :: stack)
  else if func = "lg".toList then
    if arg > 0 then .ok (L.log10 arg :: stack) else .error .assertion
  else if func = "ln".toList then
    if arg > 0 then .ok (L.log arg :: stack) else .error .assertion
  else if func = "log".toList then
    if arg > 0 then .ok (L.logb arg :: stack) else .error .assertion
  else if func = "exp".toList then .ok (L.exp arg :: stack)
  else if func = "abs".toList then .ok (|arg| :: stack)
  else if func = "sqrt".toList then
    if arg > 0 then .ok (L.sqrt arg :: stack) else .error .assertion
  else .error .unknownFn

/-- Models `expression_parser::process_function` with two arguments; `std::min(a, b)`
is `b < a ? b : a` and `std::max(a, b)` is `a < b ? b : a`. -/
def process_function2 (L : Libm) (stack : List ℚ) (func : List Char) (arg1 arg2 : ℚ) :
    Res (List ℚ) :=
  if func = "pow".toList then .ok (pow L arg2 arg1 :: stack)
  else if func = "min".toList then .ok ((if arg2 < arg1 then arg2 else arg1) :: stack)
  else if func = "max".toList then .ok ((if arg1 < arg2 then arg2 else arg1) :: stack)
  else .error .unknownFn

/-- The test of the operator branch that turns `+`/`-` into its unary form:
the iterator is at the start of the text, or the character before it is not a
digit, a dot, a close bracket or `!`. -/
def sign_is_unary (prev : Option Char) : Bool :=
  match prev with
  | none => true
  | some p => !isdigit p && p != '.' && !close_brackets p && p != '!'

/-! ## The evaluator -/

/-- One iteration of the `for` loop of `calc`, or the code after the loop when
the iterator has reached the end.  `prev` is the character before the iterator
(`none` at the start of the text), `text` the text from the iterator on, `oper`
and `stack` the two stacks; `calc_rec` stands for the recursive calls of
`calc`, `continue_scan` for the rest of the loop. -/
def scan_step (L : Libm) (fuel : Nat) (calc_rec : List Char → Res ℚ)
    (continue_scan : Option Char → List Char → List Int → List ℚ → Res ℚ)
    (prev : Option Char) (text : List Char) (oper : List Int) (stack : List ℚ) : Res ℚ :=
  match text with
  | [] => do
    let stack ← reduce_all L fuel oper stack
    match stack with
    | top :: _ => .ok top
    | [] => .error .undefined
  | ch :: rest =>
    if open_brackets ch then
      match rest with
      | next :: _ =>
        if next = '+' ∨ next = '-' then
          if L.insert_in_place (ch :: rest) then
            continue_scan (some ch) ('0' :: rest) (key ch :: oper) stack
          else .error .undefined
        else continue_scan (some ch) rest (key ch :: oper) stack
      | [] => continue_scan (some ch) rest (key ch :: oper) stack
    else if close_brackets ch || ch == ',' then do
      let (oper, stack) ← reduce_to_open L fuel oper stack
      continue_scan (some ch) rest (if close_brackets ch then oper.tail else oper) stack
    else if is_operation ch then do
      let op_sign : Int :=
        if (ch = '+' ∨ ch = '-') ∧ sign_is_unary prev then -key ch else key ch
      let (oper, stack) ← reduce_prior L fuel op_sign oper stack
      continue_scan (some ch) rest (op_sign :: oper) stack
    else if isalpha ch then
      let name := (ch :: rest).takeWhile isalpha
      let tail := (ch :: rest).dropWhile isalpha
      let op_fn := str_tolower name
      let last := (name.getLast?).getD ch
      if last.toLower = 'i' ∨ last.toLower = 'e' then
        if op_fn = "pi".toList then continue_scan (some last) tail oper (L.acos (-1) :: stack)
        else if op_fn = "e".toList then continue_scan (some last) tail oper (L.exp 1 :: stack)
        else .error .symbol
      else
        match find_bracket tail with
        | .error e => .error e
        | .ok none => .error .undefined
        | .ok (some pos) => do
          let op_res ← calc_rec (tail.take (pos + 1))
          let args := (tail.drop 1).take (pos - 1)
          if ',' ∉ args then do
            let stack ← process_function1 L stack op_fn op_res
            continue_scan (tail.get? pos) (tail.drop (pos + 1)) oper stack
          else do
            let comma := find_delim args ','
            let res_rhs ← calc_rec (args.take comma)
            let stack ← process_function2 L stack op_fn op_res res_rhs
            continue_scan (tail.get? pos) (tail.drop (pos + 1)) oper stack
    else do
      let run := (ch :: rest).takeWhile fun c => isdigit c || c == '.'
      let tail := (ch :: rest).dropWhile fun c => isdigit c || c == '.'
      let val ← stod L run
      continue_scan run.getLast? tail oper (val :: stack)

mutual

/-- The method `expression_parser::calc` (the word is reserved in Lean):
validation, removal of the spaces, insertion of the leading `0`, then the
scan.  Every recursive call and every iteration of the loop uses one unit of
fuel. -/
def parser_calc (L : Libm) : Nat → List Char → Res ℚ
  | 0, _ => .error .fuel
  | fuel + 1, expr =>
    if !lays_check expr then .error .bracket
    else if !incorrect_symbol expr then .error .symbol
    else scan L fuel none ('0' :: expr.filter (· != ' ')) [] []

/-- The `for` loop of `calc` and the code after it, from a given position. -/
def scan (L : Libm) : Nat → Option Char → List Char → List Int → List ℚ → Res ℚ
  | 0, _, _, _, _ => .error .fuel
  | fuel + 1, prev, text, oper, stack =>
    scan_step L fuel (parser_calc L fuel) (scan L fuel) prev text oper stack

end

/-! ## The operand stack at the moment `calc` returns -/

/-- The statement `return stack.top();` that ends `calc`. -/
def stack_top : List ℚ → Res ℚ
  | top :: _ => .ok top
  | [] => .error .undefined

/-- One iteration of the `for` loop of `calc`, or the final reduction, as in
`scan_step`, with the difference that the result is the operand stack as it
stands when `calc` reaches `return stack.top();`, not its top. -/
def stack_step (L : Libm) (fuel : Nat) (calc_rec : List Char → Res ℚ)
    (continue_scan : Option Char → List Char → List Int → List ℚ → Res (List ℚ))
    (prev : Option Char) (text : List Char) (oper : List Int) (stack : List ℚ) :
    Res (List ℚ) :=
  match text with
  | [] => reduce_all L fuel oper stack
  | ch :: rest =>
    if open_brackets ch then
      match rest with
      | next :: _ =>
        if next = '+' ∨ next = '-' then
          if L.insert_in_place (ch :: rest) then
            continue_scan (some ch) ('0' :: rest) (key ch :: oper) stack
          else .error .undefined
        else continue_scan (some ch) rest (key ch :: oper) stack
      | [] => continue_scan (some ch) rest (key ch :: oper) stack
    else if close_brackets ch || ch == ',' then do
      let (oper, stack) ← reduce_to_open L fuel oper stack
      continue_scan (some ch) rest (if close_brackets ch then oper.tail else oper) stack
    else if is_operation ch then do
      let op_sign : Int :=
        if (ch = '+' ∨ ch = '-') ∧ sign_is_unary prev then -key ch else key ch
      let (oper, stack) ← reduce_prior L fuel op_sign oper stack
      continue_scan (some ch) rest (op_sign :: oper) stack
    else if isalpha ch then
      let name := (ch :: rest).takeWhile isalpha
      let tail := (ch :: rest).dropWhile isalpha
      let op_fn := str_tolower name
      let last := (name.getLast?).getD ch
      if last.toLower = 'i' ∨ last.toLower = 'e' then
        if op_fn = "pi".toList then continue_scan (some last) tail oper (L.acos (-1) :: stack)
        else if op_fn = "e".toList then continue_scan (some last) tail oper (L.exp 1 :: stack)
        else .error .symbol
      else
        match find_bracket tail with
        | .error e => .error e
        | .ok none => .error .undefined
        | .ok (some pos) => do
          let op_res ← calc_rec (tail.take (pos + 1))
          let args := (tail.drop 1).take (pos - 1)
          if ',' ∉ args then do
            let stack ← process_function1 L stack op_fn op_res
            continue_scan (tail.get? pos) (tail.drop (pos + 1)) oper stack
          else do
            let comma := find_delim args ','
            let res_rhs ← calc_rec (args.take comma)
            let stack ← process_function2 L stack op_fn op_res res_rhs
            continue_scan (tail.get? pos) (tail.drop (pos + 1)) oper stack
    else do
      let run := (ch :: rest).takeWhile fun c => isdigit c || c == '.'
      let tail := (ch :: rest).dropWhile fun c => isdigit c || c == '.'
      let val ← stod L run
      continue_scan run.getLast? tail oper (val :: stack)

/-- The `for` loop of `calc` and the final reduction, yielding the operand
stack that the `return` statement reads. -/
def scan_stack (L : Libm) : Nat → Option Char → List Char → List Int → List ℚ → Res (List ℚ)
  | 0, _, _, _, _ => .error .fuel
  | fuel + 1, prev, text, oper, stack =>
    stack_step L fuel (parser_calc L fuel) (scan_stack L fuel) prev text oper stack

/-- The method `expression_parser::calc` up to its `return` statement: the
operand stack that the statement reads. -/
def calc_stack (L : Libm) : Nat → List Char → Res (List ℚ)
  | 0, _ => .error .fuel
  | fuel + 1, expr =>
    if !lays_check expr then .error .bracket
    else if !incorrect_symbol expr then .error .symbol
    else scan_stack L fuel none ('0' :: expr.filter (· != ' ')) [] []

/-! ## Notions of the specification -/

/-- The three bracket pairs, open glyph first. -/
def bracket_pairs : List (Char × Char) := [('(', ')'), ('[', ']'), ('\x7b', '\x7d')]

/-- A bracket glyph: a member of one of the three pairs. -/
def is_bracket (c : Char) : Bool :=
  bracket_pairs.any fun p => c == p.1 || c == p.2

/-- Well-nested words over the three bracket pairs: the empty word, a
well-nested word wrapped in a pair, the concatenation of two such words. -/
inductive WellNested : List Char → Prop
  | empty : WellNested []
  | wrap (o c : Char) (w : List Char) :
      (o, c) ∈ bracket_pairs → WellNested w → WellNested (o :: w ++ [c])
  | concat (u v : List Char) : WellNested u → WellNested v → WellNested (u ++ v)

/-- A natural-number literal: a non-empty run of decimal digits, of any length. -/
def is_digits (ds : List Char) : Bool := !ds.isEmpty && ds.all isdigit


/-- The decimal numeral of `10 ^ 309`: a run of 310 digits whose value is beyond
the range of `double`. -/
def beyond_double : List Char := '1' :: List.replicate 309 '0'

/-- The five binary operator glyphs of the precedence rule. -/
def binary_glyphs : List Char := ['+', '-', '*', '/', '^']

/-- Precedence level of a binary operator glyph as the specification lists
them: `+` and `-` are 1, `*` and `/` are 2, `^` is 3. -/
def level (op : Char) : Nat :=
  if op = '+' ∨ op = '-' then 1 else if op = '*' ∨ op = '/' then 2 else 3

/-- The exact value of `x op y` for a binary operator glyph: `none` for a
division by zero and for a power whose exponent is not a natural number. -/
def exact_value (op : Char) (x y : ℚ) : Option ℚ :=
  if op = '+' then some (x + y)
  else if op = '-' then some (x - y)
  else if op = '*' then some (x * y)
  else if op = '/' then (if y = 0 then none else some (x / y))
  else if op = '^' then (if y.den = 1 ∧ 0 ≤ y then some (x ^ y.num.toNat) else none)
  else none

/-- The value of `x op y` where the double arithmetic of the source does not
round: the exact value when it is a double, `none` otherwise, and `none` for
a product or a quotient that is zero with a negative operand, which is the
negative zero in the source. -/
def binary_value (op : Char) (x y : ℚ) : Option ℚ :=
  (exact_value op x y).bind fun v =>
    if exact_double v = true ∧ ((op = '*' ∨ op = '/') → v = 0 → 0 ≤ x ∧ 0 ≤ y) then some v
    else none

/-- The value the specification gives to `x op1 y op2 z`: `(x op1 y) op2 z`
when the level of `op2` is at most that of `op1`, `x op1 (y op2 z)` when it
is greater. -/
def grouped_value (op1 op2 : Char) (x y z : ℚ) : Option ℚ :=
  if level op2 ≤ level op1 then (binary_value op1 x y).bind fun r => binary_value op2 r z
  else (binary_value op2 y z).bind fun r => binary_value op1 x r

/-- The operand `x` under a sign glyph. -/
def signed (s : Char) (x : ℚ) : ℚ := if s = '-' then -x else x

/-- The seven binary operator glyphs of the grammar. -/
def binary_operator_glyphs : List Char := ['+', '-', '*', '/', '%', '^', '=']

/-- The eight operator glyphs of the grammar. -/
def operator_glyphs : List Char := ['=', '+', '-', '*', '/', '%', '^', '!']

/-- The characters the specification allows in a text: whitespace, digits,
ASCII letters, operator glyphs, bracket glyphs, the dot and the comma. -/
def allowed_char (c : Char) : Bool :=
  isspace c || isdigit c || isalpha c || operator_glyphs.contains c || is_bracket c ||
    c == '.' || c == ','

/-- The thirteen function names of the grammar, in ASCII letters. -/
def function_names : List (List Char) :=
  ["sin".toList, "cos".toList, "tg".toList, "ctg".toList, "lg".toList, "ln".toList,
   "log".toList, "exp".toList, "abs".toList, "sqrt".toList, "pow".toList, "min".toList,
   "max".toList]

/-- The two constant names of the grammar. -/
def constant_names : List (List Char) := ["pi".toList, "e".toList]

/-! ## Auxiliary notions of the proofs -/

/-- A natural-number literal that `std::stod` converts: a non-empty run of
decimal digits whose value is below `overflow_bound`. -/
def is_convertible (ds : List Char) : Bool :=
  is_digits ds && decide (digits_value ds < overflow_bound)

/-- A natural-number literal whose value is a double, which `std::stod` converts
without rounding. -/
def is_literal (ds : List Char) : Bool :=
  is_digits ds && nat_double (digits_value ds)

/-- Words that close the open glyphs of a stack, top first, with well-nested
words in between. -/
inductive ClosesStack : List Char → List Char → Prop
  | done (w : List Char) : WellNested w → ClosesStack [] w
  | close (o c : Char) (w stack rest : List Char) :
      WellNested w → (o, c) ∈ bracket_pairs → ClosesStack stack rest →
      ClosesStack (o :: stack) (w ++ c :: rest)

/-- Whether a text starts with a digit or a dot. -/
def starts_number : List Char → Bool
  | c :: _ => isdigit c || c == '.'
  | [] => false

/-- Whether a text starts with a sign glyph. -/
def starts_sign : List Char → Bool
  | c :: _ => c == '+' || c == '-'
  | [] => false

/-! ## The bracket validator -/

theorem pair_iff (o c : Char) :
    (o, c) ∈ bracket_pairs ↔ close_brackets c = true ∧ o = parentheses c := by
  simp only [bracket_pairs, List.mem_cons, Prod.mk.injEq, List.mem_singleton, List.mem_nil_iff,
    or_false, close_brackets, parentheses, Bool.or_eq_true, beq_iff_eq]
  constructor
  · rintro (⟨rfl, rfl⟩ | ⟨rfl, rfl⟩ | ⟨rfl, rfl⟩) <;> simp
  · rintro ⟨(h | h) | h, rfl⟩ <;> subst h <;> simp

theorem close_not_open (c : Char) (h : close_brackets c = true) : open_brackets c = false := by
  simp only [close_brackets, Bool.or_eq_true, beq_iff_eq] at h
  rcases h with (h | h) | h <;> subst h <;> decide

theorem is_bracket_eq (c : Char) : is_bracket c = (open_brackets c || close_brackets c) := by
  simp only [is_bracket, bracket_pairs, List.any_cons, List.any_nil, open_brackets, close_brackets,
    Bool.or_false]
  cases (c == '(') <;> cases (c == ')') <;> cases (c == '[') <;> cases (c == ']') <;>
    cases (c == '\x7b') <;> cases (c == '\x7d') <;> rfl

theorem lays_check_loop_open (ch : Char) (str stack : List Char) (h : open_brackets ch = true) :
    lays_check_loop (ch :: str) stack = lays_check_loop str (ch :: stack) := by
  simp only [lays_check_loop, h, if_true]

theorem lays_check_loop_close (ch : Char) (str stack : List Char)
    (h : close_brackets ch = true) :
    lays_check_loop (ch :: str) stack =
      match stack with
      | top :: stack' => if top = parentheses ch then lays_check_loop str stack' else false
      | [] => false := by
  simp only [lays_check_loop, close_not_open ch h, h, if_true]
  simp

theorem lays_check_loop_other (ch : Char) (str stack : List Char)
    (ho : open_brackets ch = false) (hc : close_brackets ch = false) :
    lays_check_loop (ch :: str) stack = lays_check_loop str stack := by
  simp only [lays_check_loop, ho, hc]
  simp

theorem lays_check_loop_filter (s stack : List Char) :
    lays_check_loop (s.filter is_bracket) stack = lays_check_loop s stack := by
  induction s generalizing stack with
  | nil => rfl
  | cons ch s ih =>
    by_cases ho : open_brackets ch = true
    · have hb : is_bracket ch = true := by rw [is_bracket_eq, ho]; rfl
      rw [List.filter_cons, if_pos hb, lays_check_loop_open _ _ _ ho,
        lays_check_loop_open _ _ _ ho, ih]
    · by_cases hc : close_brackets ch = true
      · have hb : is_bracket ch = true := by rw [is_bracket_eq, hc]; simp
        rw [List.filter_cons, if_pos hb, lays_check_loop_close _ _ _ hc,
          lays_check_loop_close _ _ _ hc]
        cases stack with
        | nil => rfl
        | cons top stack => simp only [ih]
      · simp only [Bool.not_eq_true] at ho hc
        have hb : is_bracket ch = false := by rw [is_bracket_eq, ho, hc]; rfl
        rw [List.filter_cons, hb, lays_check_loop_other _ _ _ ho hc]
        exact ih stack

theorem lays_check_loop_skip (w : List Char) (h : WellNested w) :
    ∀ rest stack, lays_check_loop (w ++ rest) stack = lays_check_loop rest stack := by
  induction h with
  | empty => intro rest stack; rfl
  | wrap o c w hp _ ih =>
    intro rest stack
    obtain ⟨hc, ho⟩ := (pair_iff o c).1 hp
    have hoo : open_brackets o = true := by
      subst ho
      simp only [close_brackets, Bool.or_eq_true, beq_iff_eq] at hc
      rcases hc with (h | h) | h <;> subst h <;> decide
    have e : (o :: w ++ [c]) ++ rest = o :: (w ++ (c :: rest)) := by simp
    rw [e, lays_check_loop_open _ _ _ hoo, ih, lays_check_loop_close _ _ _ hc]
    simp [ho]
  | concat u v _ _ ihu ihv =>
    intro rest stack
    rw [List.append_assoc, ihu, ihv]

theorem closesStack_append (u : List Char) (hu : WellNested u) (stack rest : List Char)
    (h : ClosesStack stack rest) : ClosesStack stack (u ++ rest) := by
  cases h with
  | done _ hw => exact .done _ (.concat u _ hu hw)
  | close o c w stack rest hw hp hr =>
    rw [← List.append_assoc]
    exact .close o c (u ++ w) stack rest (.concat u w hu hw) hp hr

theorem lays_check_loop_closes (s : List Char) :
    ∀ stack, lays_check_loop s stack = true → ClosesStack stack (s.filter is_bracket) := by
  induction s with
  | nil =>
    intro stack h
    cases stack with
    | nil => exact .done [] .empty
    | cons a t => simp [lays_check_loop] at h
  | cons ch s ih =>
    intro stack h
    by_cases ho : open_brackets ch = true
    · have hb : is_bracket ch = true := by rw [is_bracket_eq, ho]; rfl
      rw [lays_check_loop_open _ _ _ ho] at h
      have h1 := ih _ h
      rw [List.filter_cons, if_pos hb]
      generalize s.filter is_bracket = t at h1
      cases h1 with
      | close o c w stack rest hw hp hr =>
        have e : ch :: (w ++ c :: rest) = (ch :: w ++ [c]) ++ rest := by simp
        rw [e]
        exact closesStack_append _ (.wrap ch c w hp hw) _ _ hr
    · by_cases hc : close_brackets ch = true
      · have hb : is_bracket ch = true := by rw [is_bracket_eq, hc]; simp
        rw [lays_check_loop_close _ _ _ hc] at h
        rw [List.filter_cons, if_pos hb]
        cases stack with
        | nil => simp at h
        | cons top stack =>
          by_cases ht : top = parentheses ch
          · simp only [ht, if_true] at h
            exact .close top ch [] stack _ .empty ((pair_iff top ch).2 ⟨hc, ht⟩) (ih _ h)
          · simp [ht] at h
      · simp only [Bool.not_eq_true] at ho hc
        have hb : is_bracket ch = false := by rw [is_bracket_eq, ho, hc]; rfl
        rw [lays_check_loop_other _ _ _ ho hc] at h
        rw [List.filter_cons, hb]
        exact ih _ h


/-! ## Decimal numerals of natural numbers are literals -/

theorem digitChar_isdigit (k : Nat) (h : k < 10) :
    isdigit (Nat.digitChar k) = true ∧ (Nat.digitChar k).toNat - '0'.toNat = k := by
  interval_cases k <;> exact ⟨by decide, by decide⟩

theorem digits_value_append (xs ys : List Char) :
    digits_value (xs ++ ys) = digits_value xs * 10 ^ ys.length + digits_value ys := by
  induction ys using List.reverseRecOn generalizing xs with
  | nil => simp [digits_value]
  | append_singleton ys y ih =>
    rw [← List.append_assoc]
    simp only [digits_value, List.foldl_append, List.foldl_cons, List.foldl_nil,
      List.length_append, List.length_singleton] at ih ⊢
    rw [ih xs, pow_succ]
    ring

theorem toDigitsCore_spec (fuel n : Nat) (ds : List Char) (hf : n < fuel)
    (hds : ∀ c ∈ ds, isdigit c = true) :
    (∀ c ∈ Nat.toDigitsCore 10 fuel n ds, isdigit c = true) ∧
      Nat.toDigitsCore 10 fuel n ds ≠ [] ∧
      digits_value (Nat.toDigitsCore 10 fuel n ds) = n * 10 ^ ds.length + digits_value ds := by
  induction fuel generalizing n ds with
  | zero => omega
  | succ fuel ih =>
    obtain ⟨hd, hv⟩ := digitChar_isdigit (n % 10) (Nat.mod_lt _ (by decide))
    have hds' : ∀ c ∈ Nat.digitChar (n % 10) :: ds, isdigit c = true := by
      intro c hc
      rcases List.mem_cons.1 hc with h | h
      · rw [h]; exact hd
      · exact hds c h
    have hval : digits_value (Nat.digitChar (n % 10) :: ds) =
        (n % 10) * 10 ^ ds.length + digits_value ds := by
      have := digits_value_append [Nat.digitChar (n % 10)] ds
      rw [List.singleton_append] at this
      rw [this]
      have e1 : digits_value [Nat.digitChar (n % 10)] = n % 10 := by
        simp only [digits_value, List.foldl_cons, List.foldl_nil, Nat.mul_zero, Nat.zero_add]
        exact hv
      rw [e1]
    rw [Nat.toDigitsCore]
    by_cases h0 : n / 10 = 0
    · simp only [h0, if_true]
      refine ⟨hds', by simp, ?_⟩
      rw [hval, Nat.mod_eq_of_lt (by omega : n < 10)]
    · simp only [h0, if_false]
      obtain ⟨a1, a2, a3⟩ := ih (n / 10) (Nat.digitChar (n % 10) :: ds) (by omega) hds'
      refine ⟨a1, a2, ?_⟩
      rw [a3, hval, List.length_cons, pow_succ]
      have h10 : n = 10 * (n / 10) + n % 10 := (Nat.div_add_mod n 10).symm
      generalize n / 10 = q at h10 ⊢
      generalize n % 10 = r at h10 ⊢
      rw [h10]
      ring

theorem repr_is_digits (n : Nat) :
    is_digits (Nat.repr n).toList = true ∧ digits_value (Nat.repr n).toList = n := by
  obtain ⟨a1, a2, a3⟩ := toDigitsCore_spec (n + 1) n [] (by omega) (by simp)
  have e : (Nat.repr n).toList = Nat.toDigitsCore 10 (n + 1) n [] := rfl
  rw [e]
  refine ⟨?_, by simpa [digits_value] using a3⟩
  simp only [is_digits, Bool.and_eq_true, List.all_eq_true, Bool.not_eq_true',
    List.isEmpty_eq_false]
  exact ⟨a2, a1⟩

theorem repr_is_literal (n : Nat) (h : nat_double n = true) :
    is_literal (Nat.repr n).toList = true ∧ digits_value (Nat.repr n).toList = n := by
  obtain ⟨a1, a2⟩ := repr_is_digits n
  refine ⟨?_, a2⟩
  simp only [is_literal, Bool.and_eq_true]
  exact ⟨a1, by rw [a2]; exact h⟩

/-! ## Characters and literals -/

@[simp] theorem ok_bind {α β : Type} (x : α) (f : α → Res β) :
    (Except.ok x >>= f) = f x := rfl

@[simp] theorem error_bind {α β : Type} (e : Err) (f : α → Res β) :
    ((Except.error e : Res α) >>= f) = Except.error e := rfl

theorem isdigit_bounds (c : Char) : isdigit c = true ↔ 48 ≤ c.toNat ∧ c.toNat ≤ 57 := by
  simp only [isdigit, Char.isDigit, Bool.and_eq_true, decide_eq_true_eq, Char.toNat]
  rfl

theorem isalpha_bounds (c : Char) :
    isalpha c = true ↔ (65 ≤ c.toNat ∧ c.toNat ≤ 90) ∨ (97 ≤ c.toNat ∧ c.toNat ≤ 122) := by
  simp only [isalpha, Char.isAlpha, Char.isUpper, Char.isLower, Bool.or_eq_true,
    Bool.and_eq_true, decide_eq_true_eq, Char.toNat]
  rfl

theorem isdigit_ne (c d : Char) (h : isdigit c = true) (hd : isdigit d = false) : c ≠ d := by
  rintro rfl; rw [h] at hd; cases hd

theorem isdigit_not_alpha (c : Char) (h : isdigit c = true) : isalpha c = false := by
  rw [isdigit_bounds] at h
  rw [Bool.eq_false_iff, Ne, isalpha_bounds]
  omega

theorem isdigit_not_open (c : Char) (h : isdigit c = true) : open_brackets c = false := by
  simp [open_brackets, isdigit_ne c _ h (by decide : isdigit '(' = false),
    isdigit_ne c _ h (by decide : isdigit '[' = false),
    isdigit_ne c _ h (by decide : isdigit '\x7b' = false)]

theorem isdigit_not_close (c : Char) (h : isdigit c = true) : close_brackets c = false := by
  simp [close_brackets, isdigit_ne c _ h (by decide : isdigit ')' = false),
    isdigit_ne c _ h (by decide : isdigit ']' = false),
    isdigit_ne c _ h (by decide : isdigit '\x7d' = false)]

theorem isdigit_not_operation (c : Char) (h : isdigit c = true) : is_operation c = false := by
  simp [is_operation, isdigit_ne c _ h (by decide : isdigit '=' = false),
    isdigit_ne c _ h (by decide : isdigit '+' = false),
    isdigit_ne c _ h (by decide : isdigit '-' = false),
    isdigit_ne c _ h (by decide : isdigit '*' = false),
    isdigit_ne c _ h (by decide : isdigit '/' = false),
    isdigit_ne c _ h (by decide : isdigit '%' = false),
    isdigit_ne c _ h (by decide : isdigit '^' = false),
    isdigit_ne c _ h (by decide : isdigit '!' = false)]

theorem is_literal_digits (ds : List Char) (h : is_literal ds = true) : is_digits ds = true := by
  simp only [is_literal, Bool.and_eq_true] at h
  exact h.1

theorem nat_double_range (n : Nat) (h : nat_double n = true) : n < overflow_bound := by
  simp only [nat_double, Bool.or_eq_true, Bool.and_eq_true, decide_eq_true_eq] at h
  rcases h with h | h
  · exact lt_trans h (by decide)
  · exact h.1

theorem nat_double_small (n : Nat) (h : n < 2 ^ 53) : nat_double n = true := by
  rw [nat_double, decide_eq_true h, Bool.true_or]

theorem exact_double_intCast_eq (k : ℤ) : exact_double (k : ℚ) = nat_double k.natAbs := by
  simp only [exact_double, Rat.num_intCast, Rat.den_intCast, one_dvd, decide_True,
    Bool.true_and, nat_double]
  cases decide (k.natAbs < 2 ^ 53) <;> rfl

theorem exact_double_natCast_eq (n : Nat) : exact_double (n : ℚ) = nat_double n := by
  have := exact_double_intCast_eq (n : ℤ)
  simpa using this

theorem exact_double_intCast (k : ℤ) (h : k.natAbs < 2 ^ 53) : exact_double (k : ℚ) = true := by
  rw [exact_double_intCast_eq, nat_double_small _ h]

theorem exact_double_natCast (n : Nat) (h : n < 2 ^ 53) : exact_double (n : ℚ) = true := by
  rw [exact_double_natCast_eq, nat_double_small _ h]

theorem exact_double_neg (q : ℚ) : exact_double (-q) = exact_double q := by
  simp [exact_double]

theorem fl_exact (L : Libm) (r : ℚ) (h : exact_double r = true) : fl L r = r := by
  rw [fl, if_pos h]

theorem fl_inexact (L : Libm) (r : ℚ) (h : exact_double r = false) : fl L r = L.round r := by
  rw [fl, if_neg (by rw [h]; decide)]

theorem fl_natCast (L : Libm) (n : Nat) (h : n < 2 ^ 53) : fl L (n : ℚ) = n :=
  fl_exact L _ (exact_double_natCast n h)

theorem fl_intCast (L : Libm) (k : ℤ) (h : k.natAbs < 2 ^ 53) : fl L (k : ℚ) = k :=
  fl_exact L _ (exact_double_intCast k h)

theorem is_literal_double (ds : List Char) (h : is_literal ds = true) :
    nat_double (digits_value ds) = true := by
  simp only [is_literal, Bool.and_eq_true] at h
  exact h.2

theorem is_literal_range (ds : List Char) (h : is_literal ds = true) :
    digits_value ds < overflow_bound :=
  nat_double_range _ (is_literal_double ds h)

theorem is_literal_exact (ds : List Char) (h : is_literal ds = true) :
    exact_double (digits_value ds : ℚ) = true := by
  rw [exact_double_natCast_eq, is_literal_double ds h]

theorem double_is_literal (ds : List Char) (h : is_digits ds = true)
    (hb : exact_double (digits_value ds : ℚ) = true) : is_literal ds = true := by
  rw [exact_double_natCast_eq] at hb
  simp only [is_literal, h, hb, Bool.true_and]

theorem small_is_literal (ds : List Char) (h : is_digits ds = true)
    (hb : digits_value ds < 2 ^ 53) : is_literal ds = true := by
  simp only [is_literal, h, nat_double_small _ hb, Bool.true_and]

theorem is_convertible_digits (ds : List Char) (h : is_convertible ds = true) :
    is_digits ds = true := by
  simp only [is_convertible, Bool.and_eq_true] at h
  exact h.1

theorem is_convertible_range (ds : List Char) (h : is_convertible ds = true) :
    digits_value ds < overflow_bound := by
  simp only [is_convertible, Bool.and_eq_true, decide_eq_true_eq] at h
  exact h.2

theorem is_literal_convertible (ds : List Char) (h : is_literal ds = true) :
    is_convertible ds = true := by
  simp only [is_convertible, is_literal_digits ds h, Bool.true_and, decide_eq_true_eq]
  exact is_literal_range ds h

theorem is_digits_cons (ds : List Char) (h : is_digits ds = true) :
    ∃ d ds', ds = d :: ds' ∧ isdigit d = true ∧ ds'.all isdigit = true := by
  cases ds with
  | nil => simp [is_digits] at h
  | cons d ds' =>
    simp only [is_digits, List.isEmpty_cons, Bool.not_false, List.all_cons, Bool.true_and,
      Bool.and_eq_true] at h
    exact ⟨d, ds', rfl, h.1, h.2⟩

theorem is_digits_all (ds : List Char) (h : is_digits ds = true) :
    ∀ c ∈ ds, isdigit c = true := by
  simp only [is_digits, Bool.and_eq_true, List.all_eq_true] at h
  exact h.2

theorem is_literal_cons (ds : List Char) (h : is_literal ds = true) :
    ∃ d ds', ds = d :: ds' ∧ isdigit d = true ∧ ds'.all isdigit = true :=
  is_digits_cons ds (is_literal_digits ds h)

theorem is_literal_all (ds : List Char) (h : is_literal ds = true) :
    ∀ c ∈ ds, isdigit c = true :=
  is_digits_all ds (is_literal_digits ds h)

theorem digits_value_zero_cons (ds : List Char) : digits_value ('0' :: ds) = digits_value ds := by
  simp [digits_value]

theorem is_literal_zero_cons (ds : List Char) (h : is_literal ds = true) :
    is_literal ('0' :: ds) = true := by
  have h1 := is_literal_all ds h
  have h2 := is_literal_double ds h
  simp only [is_literal, is_digits, List.isEmpty_cons, Bool.not_false, List.all_cons,
    Bool.true_and, Bool.and_eq_true, digits_value_zero_cons, List.all_eq_true]
  exact ⟨⟨by decide, h1⟩, h2⟩

theorem getLast_digits (ds : List Char) (h : is_digits ds = true) :
    ∃ d, ds.getLast? = some d ∧ isdigit d = true := by
  obtain ⟨d, ds', rfl, -, -⟩ := is_digits_cons ds h
  refine ⟨(d :: ds').getLast (by simp), List.getLast?_eq_getLast _ _, ?_⟩
  exact is_digits_all _ h _ (List.getLast_mem _)

theorem sign_is_unary_digits (ds : List Char) (h : is_digits ds = true) :
    sign_is_unary ds.getLast? = false := by
  obtain ⟨d, hd, hdig⟩ := getLast_digits ds h
  simp [hd, sign_is_unary, hdig]

theorem getLast_literal (ds : List Char) (h : is_literal ds = true) :
    ∃ d, ds.getLast? = some d ∧ isdigit d = true :=
  getLast_digits ds (is_literal_digits ds h)

theorem sign_is_unary_literal (ds : List Char) (h : is_literal ds = true) :
    sign_is_unary ds.getLast? = false :=
  sign_is_unary_digits ds (is_literal_digits ds h)

theorem is_digits_zero_cons (ds : List Char) (h : is_digits ds = true) :
    is_digits ('0' :: ds) = true := by
  have h1 := is_digits_all ds h
  simp only [is_digits, List.isEmpty_cons, Bool.not_false, List.all_cons, Bool.true_and,
    Bool.and_eq_true, List.all_eq_true]
  exact ⟨by decide, h1⟩

theorem is_convertible_zero_cons (ds : List Char) (h : is_convertible ds = true) :
    is_convertible ('0' :: ds) = true := by
  simp only [is_convertible, is_digits_zero_cons ds (is_convertible_digits ds h), Bool.true_and,
    decide_eq_true_eq, digits_value_zero_cons]
  exact is_convertible_range ds h

theorem takeWhile_run (p : Char → Bool) (ds rest : List Char) (h : ∀ c ∈ ds, p c = true)
    (hr : ∀ c ∈ rest.head?, p c = false) : (ds ++ rest).takeWhile p = ds := by
  induction ds with
  | nil =>
    cases rest with
    | nil => rfl
    | cons c r => simp [List.takeWhile, hr c (by simp)]
  | cons d ds ih =>
    rw [List.cons_append, List.takeWhile_cons, h d (by simp), ih (fun c hc => h c (by simp [hc]))]
    rfl

theorem dropWhile_run (p : Char → Bool) (ds rest : List Char) (h : ∀ c ∈ ds, p c = true)
    (hr : ∀ c ∈ rest.head?, p c = false) : (ds ++ rest).dropWhile p = rest := by
  induction ds with
  | nil =>
    cases rest with
    | nil => rfl
    | cons c r => simp [List.dropWhile, hr c (by simp)]
  | cons d ds ih =>
    rw [List.cons_append, List.dropWhile_cons, h d (by simp)]
    exact ih (fun c hc => h c (by simp [hc]))

theorem overflow_bound_eq : overflow_bound = 2 ^ 1024 - 2 ^ 970 := by
  norm_num [overflow_bound]

theorem underflow_scale_eq : underflow_scale = 2 ^ 1022 := by
  norm_num [underflow_scale]

theorem underflow_scale_pos : 1 ≤ underflow_scale := by decide

theorem stod_digits (L : Libm) (ds : List Char) (h : is_digits ds = true) :
    stod L ds =
      if overflow_bound ≤ digits_value ds then .error .range
      else .ok (fl L (digits_value ds : ℚ)) := by
  have h1 : ds.takeWhile isdigit = ds := by
    have := takeWhile_run isdigit ds [] (is_digits_all ds h) (by simp)
    simpa using this
  have h2 : ds.dropWhile isdigit = [] := by
    have := dropWhile_run isdigit ds [] (is_digits_all ds h) (by simp)
    simpa using this
  obtain ⟨d, ds', rfl, -, -⟩ := is_digits_cons ds h
  simp only [stod, h1, h2]
  have e0 : digits_value ([] : List Char) = 0 := rfl
  simp only [List.isEmpty_cons, List.isEmpty_nil, Bool.false_and, List.length_nil, pow_zero,
    Nat.mul_one, Nat.add_zero, e0, Nat.cast_zero, zero_div, add_zero]
  have hk : 1 ≤ underflow_scale := underflow_scale_pos
  generalize overflow_bound = bound
  generalize underflow_scale = scale at hk ⊢
  rw [if_neg (by decide : ¬ (false = true))]
  by_cases hb : bound ≤ digits_value (d :: ds')
  · rw [if_pos hb, if_pos hb]
  · rw [if_neg hb, if_neg hb]
    apply if_neg
    rintro ⟨h3, h4⟩
    have := Nat.mul_le_mul h3 hk
    omega

theorem stod_convertible (L : Libm) (ds : List Char) (h : is_convertible ds = true) :
    stod L ds = .ok (fl L (digits_value ds : ℚ)) := by
  rw [stod_digits L ds (is_convertible_digits ds h),
    if_neg (Nat.not_le.2 (is_convertible_range ds h))]

theorem stod_literal (L : Libm) (ds : List Char) (h : is_literal ds = true) :
    stod L ds = .ok (digits_value ds : ℚ) := by
  rw [stod_convertible L ds (is_literal_convertible ds h), fl_exact L _ (is_literal_exact ds h)]

theorem stod_out_of_range (L : Libm) (ds : List Char) (h : is_digits ds = true)
    (hb : overflow_bound ≤ digits_value ds) : stod L ds = .error .range := by
  rw [stod_digits L ds h, if_pos hb]

theorem starts_number_head (rest : List Char) (h : starts_number rest = false) :
    ∀ c ∈ rest.head?, (isdigit c || c == '.') = false := by
  cases rest with
  | nil => simp
  | cons c r => simpa [starts_number] using h

/-! ## Steps of the scan -/

theorem scan_succ (L : Libm) (fuel : Nat) (prev : Option Char) (text : List Char)
    (oper : List Int) (stack : List ℚ) :
    scan L (fuel + 1) prev text oper stack =
      scan_step L fuel (parser_calc L fuel) (scan L fuel) prev text oper stack := rfl

theorem scan_convertible (L : Libm) (fuel : Nat) (prev : Option Char) (ds rest : List Char)
    (oper : List Int) (stack : List ℚ) (h : is_convertible ds = true)
    (hr : starts_number rest = false) :
    scan L (fuel + 1) prev (ds ++ rest) oper stack =
      scan L fuel ds.getLast? rest oper (fl L (digits_value ds : ℚ) :: stack) := by
  have hd := is_convertible_digits ds h
  have hall : ∀ c ∈ ds, (isdigit c || c == '.') = true := fun c hc => by
    simp [is_digits_all ds hd c hc]
  have h1 := takeWhile_run (fun c => isdigit c || c == '.') ds rest hall (starts_number_head rest hr)
  have h2 := dropWhile_run (fun c => isdigit c || c == '.') ds rest hall (starts_number_head rest hr)
  have h3 := stod_convertible L ds h
  obtain ⟨d, ds', rfl, hd, -⟩ := is_digits_cons ds hd
  rw [List.cons_append] at h1 h2 ⊢
  have hc : (d == ',') = false := by simpa using isdigit_ne d ',' hd (by decide)
  rw [scan_succ]
  simp only [scan_step, isdigit_not_open d hd, isdigit_not_close d hd, isdigit_not_operation d hd,
    isdigit_not_alpha d hd, h1, h2, h3, hc]
  simp

theorem scan_literal (L : Libm) (fuel : Nat) (prev : Option Char) (ds rest : List Char)
    (oper : List Int) (stack : List ℚ) (h : is_literal ds = true)
    (hr : starts_number rest = false) :
    scan L (fuel + 1) prev (ds ++ rest) oper stack =
      scan L fuel ds.getLast? rest oper ((digits_value ds : ℚ) :: stack) := by
  rw [scan_convertible L fuel prev ds rest oper stack (is_literal_convertible ds h) hr,
    fl_exact L _ (is_literal_exact ds h)]

/-! ## Validation of texts built from literals -/

theorem lays_check_loop_literal (ds rest stack : List Char) (h : is_literal ds = true) :
    lays_check_loop (ds ++ rest) stack = lays_check_loop rest stack := by
  have hall := is_literal_all ds h
  clear h
  induction ds with
  | nil => rfl
  | cons d ds ih =>
    have hd := hall d (by simp)
    rw [List.cons_append, lays_check_loop_other _ _ _ (isdigit_not_open d hd)
      (isdigit_not_close d hd)]
    exact ih (fun c hc => hall c (by simp [hc]))

theorem incorrect_symbol_append (s t : List Char) :
    incorrect_symbol (s ++ t) = (incorrect_symbol s && incorrect_symbol t) := by
  simp [incorrect_symbol, List.all_append]

theorem incorrect_symbol_literal (ds : List Char) (h : is_literal ds = true) :
    incorrect_symbol ds = true := by
  simp only [incorrect_symbol, List.all_eq_true]
  intro c hc
  simp [is_literal_all ds h c hc]

theorem filter_space_literal (ds : List Char) (h : is_literal ds = true) :
    ds.filter (· != ' ') = ds := by
  rw [List.filter_eq_self]
  intro c hc
  simpa using isdigit_ne c ' ' (is_literal_all ds h c hc) (by decide)

theorem incorrect_symbol_cons (c : Char) (s : List Char) (h : incorrect_symbol [c] = true) :
    incorrect_symbol (c :: s) = incorrect_symbol s := by
  have := incorrect_symbol_append [c] s
  rw [h] at this
  simpa using this

theorem filter_space_cons (c : Char) (s : List Char) (h : (c != ' ') = true) :
    (c :: s).filter (· != ' ') = c :: s.filter (· != ' ') := by
  rw [List.filter_cons, if_pos h]

theorem incorrect_symbol_digits (ds : List Char) (h : is_digits ds = true) :
    incorrect_symbol ds = true := by
  simp only [incorrect_symbol, List.all_eq_true]
  intro c hc
  simp [is_digits_all ds h c hc]

theorem filter_space_digits (ds : List Char) (h : is_digits ds = true) :
    ds.filter (· != ' ') = ds := by
  rw [List.filter_eq_self]
  intro c hc
  simpa using isdigit_ne c ' ' (is_digits_all ds h c hc) (by decide)


theorem starts_sign_literal_append (ds rest : List Char) (h : is_literal ds = true) :
    starts_sign (ds ++ rest) = false := by
  obtain ⟨d, ds', rfl, hd, -⟩ := is_literal_cons ds h
  simp [starts_sign, isdigit_ne d _ hd (by decide : isdigit '+' = false),
    isdigit_ne d _ hd (by decide : isdigit '-' = false)]

theorem starts_sign_digits_append (ds rest : List Char) (h : is_digits ds = true) :
    starts_sign (ds ++ rest) = false := by
  obtain ⟨d, ds', rfl, hd, -⟩ := is_digits_cons ds h
  simp [starts_sign, isdigit_ne d _ hd (by decide : isdigit '+' = false),
    isdigit_ne d _ hd (by decide : isdigit '-' = false)]

theorem scan_end (L : Libm) (fuel : Nat) (prev : Option Char) (oper : List Int)
    (stack : List ℚ) :
    scan L (fuel + 1) prev [] oper stack =
      (reduce_all L fuel oper stack >>= fun stack =>
        match stack with
        | top :: _ => .ok top
        | [] => .error .undefined) := rfl

theorem scan_open (L : Libm) (fuel : Nat) (prev : Option Char) (ch : Char) (rest : List Char)
    (oper : List Int) (stack : List ℚ) (ho : open_brackets ch = true)
    (hn : starts_sign rest = false) :
    scan L (fuel + 1) prev (ch :: rest) oper stack =
      scan L fuel (some ch) rest (key ch :: oper) stack := by
  rw [scan_succ]
  cases rest with
  | nil => simp only [scan_step, ho, if_true]
  | cons c r =>
    have h : ¬ (c = '+' ∨ c = '-') := by simpa [starts_sign] using hn
    simp only [scan_step, ho, if_true, h, if_false]

theorem scan_open_sign (L : Libm) (fuel : Nat) (prev : Option Char) (ch : Char)
    (rest : List Char) (oper : List Int) (stack : List ℚ) (ho : open_brackets ch = true)
    (hn : starts_sign rest = true) (hi : L.insert_in_place (ch :: rest) = true) :
    scan L (fuel + 1) prev (ch :: rest) oper stack =
      scan L fuel (some ch) ('0' :: rest) (key ch :: oper) stack := by
  rw [scan_succ]
  cases rest with
  | nil => simp [starts_sign] at hn
  | cons c r =>
    have h : c = '+' ∨ c = '-' := by simpa [starts_sign] using hn
    simp only [scan_step, ho, if_true, h, hi]

theorem scan_open_sign_reallocated (L : Libm) (fuel : Nat) (prev : Option Char) (ch : Char)
    (rest : List Char) (oper : List Int) (stack : List ℚ) (ho : open_brackets ch = true)
    (hn : starts_sign rest = true) (hi : L.insert_in_place (ch :: rest) = false) :
    scan L (fuel + 1) prev (ch :: rest) oper stack = .error .undefined := by
  rw [scan_succ]
  cases rest with
  | nil => simp [starts_sign] at hn
  | cons c r =>
    have h : c = '+' ∨ c = '-' := by simpa [starts_sign] using hn
    simp only [scan_step, ho, if_true, h, hi, Bool.false_eq_true, if_false]

theorem scan_close (L : Libm) (fuel : Nat) (prev : Option Char) (ch : Char) (rest : List Char)
    (oper : List Int) (stack : List ℚ) (hc : close_brackets ch = true) :
    scan L (fuel + 1) prev (ch :: rest) oper stack =
      (reduce_to_open L fuel oper stack >>= fun p =>
        scan L fuel (some ch) rest p.1.tail p.2) := by
  rw [scan_succ]
  simp only [scan_step, close_not_open ch hc, hc, Bool.true_or, if_true, Bool.false_eq_true,
    if_false]

theorem scan_comma (L : Libm) (fuel : Nat) (prev : Option Char) (rest : List Char)
    (oper : List Int) (stack : List ℚ) :
    scan L (fuel + 1) prev (',' :: rest) oper stack =
      (reduce_to_open L fuel oper stack >>= fun p =>
        scan L fuel (some ',') rest p.1 p.2) := by
  rw [scan_succ]
  simp only [scan_step, (by decide : open_brackets ',' = false),
    (by decide : close_brackets ',' = false), Bool.false_eq_true, if_false, beq_self_eq_true,
    Bool.or_true, if_true]

theorem is_operation_not_bracket (ch : Char) (h : is_operation ch = true) :
    open_brackets ch = false ∧ close_brackets ch = false ∧ (ch == ',') = false := by
  simp only [is_operation, Bool.or_eq_true, beq_iff_eq] at h
  rcases h with ((((((h | h) | h) | h) | h) | h) | h) | h <;> subst h <;> decide

theorem scan_binary (L : Libm) (fuel : Nat) (prev : Option Char) (ch : Char) (rest : List Char)
    (oper : List Int) (stack : List ℚ) (hop : is_operation ch = true)
    (hb : ((ch == '+' || ch == '-') && sign_is_unary prev) = false) :
    scan L (fuel + 1) prev (ch :: rest) oper stack =
      (reduce_prior L fuel (key ch) oper stack >>= fun p =>
        scan L fuel (some ch) rest (key ch :: p.1) p.2) := by
  obtain ⟨h1, h2, h3⟩ := is_operation_not_bracket ch hop
  have h : ¬ ((ch = '+' ∨ ch = '-') ∧ sign_is_unary prev = true) := by
    simpa using hb
  rw [scan_succ]
  simp only [scan_step, h1, h2, h3, hop, h, Bool.or_self, Bool.false_eq_true, if_false, if_true]

theorem scan_unary (L : Libm) (fuel : Nat) (prev : Option Char) (ch : Char) (rest : List Char)
    (oper : List Int) (stack : List ℚ) (hop : is_operation ch = true)
    (hb : ((ch == '+' || ch == '-') && sign_is_unary prev) = true) :
    scan L (fuel + 1) prev (ch :: rest) oper stack =
      (reduce_prior L fuel (-key ch) oper stack >>= fun p =>
        scan L fuel (some ch) rest (-key ch :: p.1) p.2) := by
  obtain ⟨h1, h2, h3⟩ := is_operation_not_bracket ch hop
  have h : (ch = '+' ∨ ch = '-') ∧ sign_is_unary prev = true := by
    simpa using hb
  rw [scan_succ]
  simp only [scan_step, h1, h2, h3, hop, h, Bool.or_self, Bool.false_eq_true, if_false, if_true,
    and_self]

theorem binary_after_digits (ch : Char) (ds : List Char) (h : is_digits ds = true) :
    ((ch == '+' || ch == '-') && sign_is_unary ds.getLast?) = false := by
  rw [sign_is_unary_digits ds h, Bool.and_false]

theorem binary_after_literal (ch : Char) (ds : List Char) (h : is_literal ds = true) :
    ((ch == '+' || ch == '-') && sign_is_unary ds.getLast?) = false :=
  binary_after_digits ch ds (is_literal_digits ds h)

/-! ## Reductions -/

theorem reduce_to_open_stop (L : Libm) (fuel : Nat) (top : Int) (oper : List Int)
    (stack : List ℚ) (h : open_key top = true) :
    reduce_to_open L fuel (top :: oper) stack = .ok (top :: oper, stack) := by
  simp only [reduce_to_open, h, if_true]

theorem reduce_to_open_apply (L : Libm) (fuel : Nat) (top : Int) (oper : List Int)
    (stack : List ℚ) (h : open_key top = false) :
    reduce_to_open L fuel (top :: oper) stack =
      (process_operation L fuel stack top >>= fun stack => reduce_to_open L fuel oper stack) := by
  simp only [reduce_to_open, h, Bool.false_eq_true, if_false]

theorem reduce_prior_nil (L : Libm) (fuel : Nat) (op_sign : Int) (stack : List ℚ) :
    reduce_prior L fuel op_sign [] stack = .ok ([], stack) := rfl

theorem reduce_prior_stop (L : Libm) (fuel : Nat) (op_sign top : Int) (oper : List Int)
    (stack : List ℚ) (h : prior top < prior op_sign) :
    reduce_prior L fuel op_sign (top :: oper) stack = .ok (top :: oper, stack) := by
  simp only [reduce_prior, ge_iff_le, Nat.not_le.2 h, if_false]

theorem reduce_prior_apply (L : Libm) (fuel : Nat) (op_sign top : Int) (oper : List Int)
    (stack : List ℚ) (h : prior op_sign ≤ prior top) :
    reduce_prior L fuel op_sign (top :: oper) stack =
      (process_operation L fuel stack top >>= fun stack =>
        reduce_prior L fuel op_sign oper stack) := by
  simp only [reduce_prior, ge_iff_le, h, if_true]

theorem reduce_all_nil (L : Libm) (fuel : Nat) (stack : List ℚ) :
    reduce_all L fuel [] stack = .ok stack := rfl

theorem reduce_all_cons (L : Libm) (fuel : Nat) (top : Int) (oper : List Int)
    (stack : List ℚ) :
    reduce_all L fuel (top :: oper) stack =
      (process_operation L fuel stack top >>= fun stack => reduce_all L fuel oper stack) := rfl

theorem exec_assign (L : Libm) (fuel : Nat) (arg1 arg2 : ℚ) (stack : List ℚ) :
    process_operation L fuel (arg1 :: arg2 :: stack) (key '=') =
      .ok ((if arg1 = arg2 then 1 else 0) :: stack) := rfl

theorem exec_add (L : Libm) (fuel : Nat) (arg1 arg2 : ℚ) (stack : List ℚ) :
    process_operation L fuel (arg1 :: arg2 :: stack) (key '+') =
      .ok (fl L (arg2 + arg1) :: stack) := rfl

theorem exec_subtract (L : Libm) (fuel : Nat) (arg1 arg2 : ℚ) (stack : List ℚ) :
    process_operation L fuel (arg1 :: arg2 :: stack) (key '-') =
      .ok (fl L (arg2 - arg1) :: stack) := rfl

theorem exec_multiply (L : Libm) (fuel : Nat) (arg1 arg2 : ℚ) (stack : List ℚ) :
    process_operation L fuel (arg1 :: arg2 :: stack) (key '*') =
      .ok (fl L (arg2 * arg1) :: stack) := rfl

theorem exec_divide (L : Libm) (fuel : Nat) (arg1 arg2 : ℚ) (stack : List ℚ) :
    process_operation L fuel (arg1 :: arg2 :: stack) (key '/') =
      if arg1 = 0 then .error .assertion else .ok (fl L (arg2 / arg1) :: stack) := rfl

theorem exec_mod (L : Libm) (fuel : Nat) (arg1 arg2 : ℚ) (stack : List ℚ) :
    process_operation L fuel (arg1 :: arg2 :: stack) (key '%') =
      .ok (fmod L arg2 arg1 :: stack) := rfl

theorem exec_pow (L : Libm) (fuel : Nat) (arg1 arg2 : ℚ) (stack : List ℚ) :
    process_operation L fuel (arg1 :: arg2 :: stack) (key '^') =
      .ok (pow L arg2 arg1 :: stack) := rfl

theorem exec_fact (L : Libm) (fuel : Nat) (arg : ℚ) (stack : List ℚ) :
    process_operation L fuel (arg :: stack) (key '!') =
      if arg > 0 then (fact L fuel arg >>= fun r => .ok (r :: stack)) else .error .assertion := rfl

theorem exec_unary_plus (L : Libm) (fuel : Nat) (arg : ℚ) (stack : List ℚ) :
    process_operation L fuel (arg :: stack) (-key '+') = .ok (arg :: stack) := rfl

theorem exec_unary_minus (L : Libm) (fuel : Nat) (arg : ℚ) (stack : List ℚ) :
    process_operation L fuel (arg :: stack) (-key '-') = .ok (-arg :: stack) := rfl

/-! ## Entering `calc` -/

theorem calc_enter (L : Libm) (fuel : Nat) (expr : List Char) (h1 : lays_check expr = true)
    (h2 : incorrect_symbol expr = true) (h3 : expr.filter (· != ' ') = expr) :
    parser_calc L (fuel + 1) expr = scan L fuel none ('0' :: expr) [] [] := by
  rw [parser_calc, h1, h2, h3]
  rfl

theorem calc_bracket_error (L : Libm) (fuel : Nat) (expr : List Char)
    (h1 : lays_check expr = false) : parser_calc L (fuel + 1) expr = .error .bracket := by
  rw [parser_calc, h1]
  rfl

theorem scan_zero_convertible (L : Libm) (fuel : Nat) (ds rest : List Char)
    (h : is_convertible ds = true) (hr : starts_number rest = false) :
    scan L (fuel + 1) none ('0' :: (ds ++ rest)) [] [] =
      scan L fuel ds.getLast? rest [] [fl L (digits_value ds : ℚ)] := by
  have e : '0' :: (ds ++ rest) = ('0' :: ds) ++ rest := rfl
  rw [e, scan_convertible L fuel none _ rest [] [] (is_convertible_zero_cons ds h) hr,
    digits_value_zero_cons]
  obtain ⟨d, ds', rfl, -, -⟩ := is_digits_cons ds (is_convertible_digits ds h)
  rfl

theorem scan_zero_literal (L : Libm) (fuel : Nat) (ds rest : List Char) (h : is_literal ds = true)
    (hr : starts_number rest = false) :
    scan L (fuel + 1) none ('0' :: (ds ++ rest)) [] [] =
      scan L fuel ds.getLast? rest [] [(digits_value ds : ℚ)] := by
  rw [scan_zero_convertible L fuel ds rest (is_literal_convertible ds h) hr,
    fl_exact L _ (is_literal_exact ds h)]

theorem scan_zero_other (L : Libm) (fuel : Nat) (rest : List Char)
    (hr : starts_number rest = false) :
    scan L (fuel + 1) none ('0' :: rest) [] [] = scan L fuel (some '0') rest [] [0] := by
  have e : '0' :: rest = ['0'] ++ rest := rfl
  rw [e, scan_literal L fuel none _ rest [] [] (by decide) hr]
  simp [digits_value]

theorem open_key_key (c : Char) (h : open_brackets c = true) : open_key (key c) = true := by
  simp only [open_brackets, Bool.or_eq_true, beq_iff_eq] at h
  rcases h with (h | h) | h <;> subst h <;> decide

theorem prior_open (c : Char) (h : open_brackets c = true) : prior (key c) = 0 := by
  simp only [open_brackets, Bool.or_eq_true, beq_iff_eq] at h
  rcases h with (h | h) | h <;> subst h <;> decide

theorem open_not_close (c : Char) (h : open_brackets c = true) : close_brackets c = false := by
  simp only [open_brackets, Bool.or_eq_true, beq_iff_eq] at h
  rcases h with (h | h) | h <;> subst h <;> decide

theorem open_allowed (c : Char) (h : open_brackets c = true) :
    incorrect_symbol [c] = true ∧ (c != ' ') = true ∧ ∀ r, starts_number (c :: r) = false := by
  simp only [open_brackets, Bool.or_eq_true, beq_iff_eq] at h
  rcases h with (h | h) | h <;> subst h <;> exact ⟨by decide, by decide, fun _ => rfl⟩

theorem close_allowed (c : Char) (h : close_brackets c = true) :
    incorrect_symbol [c] = true ∧ (c != ' ') = true ∧ ∀ r, starts_number (c :: r) = false := by
  simp only [close_brackets, Bool.or_eq_true, beq_iff_eq] at h
  rcases h with (h | h) | h <;> subst h <;> exact ⟨by decide, by decide, fun _ => rfl⟩

theorem operation_allowed (c : Char) (h : is_operation c = true) :
    incorrect_symbol [c] = true ∧ (c != ' ') = true ∧ ∀ r, starts_number (c :: r) = false := by
  simp only [is_operation, Bool.or_eq_true, beq_iff_eq] at h
  rcases h with ((((((h | h) | h) | h) | h) | h) | h) | h <;> subst h <;>
    exact ⟨by decide, by decide, fun _ => rfl⟩

/-! ## A sum in brackets -/

theorem lays_check_loop_run (ds rest stack : List Char) (h : is_digits ds = true) :
    lays_check_loop (ds ++ rest) stack = lays_check_loop rest stack := by
  have hall := is_digits_all ds h
  clear h
  induction ds with
  | nil => rfl
  | cons d ds ih =>
    have hd := hall d (by simp)
    rw [List.cons_append, lays_check_loop_other _ _ _ (isdigit_not_open d hd)
      (isdigit_not_close d hd)]
    exact ih (fun c hc => hall c (by simp [hc]))

theorem lays_check_bracketed_sum (o c : Char) (a b : List Char) (ha : is_digits a = true)
    (hb : is_digits b = true) (ho : open_brackets o = true) (hc : close_brackets c = true) :
    lays_check (o :: (a ++ '+' :: (b ++ [c]))) = decide (o = parentheses c) := by
  rw [lays_check, lays_check_loop_open _ _ _ ho, lays_check_loop_run _ _ _ ha,
    lays_check_loop_other _ _ _ (by decide) (by decide), lays_check_loop_run _ _ _ hb,
    lays_check_loop_close _ _ _ hc]
  by_cases h : o = parentheses c <;> simp [h, lays_check_loop]

theorem calc_bracketed_sum (L : Libm) (fuel : Nat) (o c : Char) (a b : List Char)
    (ha : is_literal a = true) (hb : is_literal b = true) (hp : (o, c) ∈ bracket_pairs)
    (hs : exact_double ((digits_value a : ℚ) + digits_value b) = true) :
    parser_calc L (fuel + 8) (o :: (a ++ '+' :: (b ++ [c]))) =
      .ok ((digits_value a : ℚ) + digits_value b) := by
  obtain ⟨hc, ho⟩ := (pair_iff o c).1 hp
  have hoo : open_brackets o = true := by
    subst ho
    simp only [close_brackets, Bool.or_eq_true, beq_iff_eq] at hc
    rcases hc with (h | h) | h <;> subst h <;> decide
  have h1 : lays_check (o :: (a ++ '+' :: (b ++ [c]))) = true := by
    rw [lays_check_bracketed_sum o c a b (is_literal_digits a ha) (is_literal_digits b hb) hoo hc]
    simp [ho]
  have h2 : incorrect_symbol (o :: (a ++ '+' :: (b ++ [c]))) = true := by
    simp (disch := first | decide | assumption | exact (open_allowed _ hoo).1 |
      exact (close_allowed _ hc).1) only [incorrect_symbol_append,
      incorrect_symbol_literal, incorrect_symbol_cons]
    rfl
  have h3 : (o :: (a ++ '+' :: (b ++ [c]))).filter (· != ' ') = o :: (a ++ '+' :: (b ++ [c])) := by
    simp (disch := first | decide | assumption | exact (open_allowed _ hoo).2.1 |
      exact (close_allowed _ hc).2.1) only [filter_space_literal, List.filter_append,
      filter_space_cons, List.filter_nil]
  rw [calc_enter L _ _ h1 h2 h3, scan_zero_other _ _ _ ((open_allowed _ hoo).2.2 _),
    scan_open _ _ _ _ _ _ _ hoo (starts_sign_literal_append _ _ ha),
    scan_literal _ _ _ _ _ _ _ ha (by rfl),
    scan_binary _ _ _ _ _ _ _ (by decide) (binary_after_literal _ _ ha),
    reduce_prior_stop _ _ _ _ _ _ (by rw [prior_open o hoo]; decide), ok_bind,
    scan_literal _ _ _ _ _ _ _ hb ((close_allowed _ hc).2.2 _),
    scan_close _ _ _ _ _ _ _ hc,
    reduce_to_open_apply _ _ _ _ _ (by decide), exec_add, fl_exact L _ hs, ok_bind,
    reduce_to_open_stop _ _ _ _ _ (open_key_key o hoo), ok_bind, scan_end]
  rfl

/-! ## Function calls -/

theorem isalpha_ne (c d : Char) (h : isalpha c = true) (hd : isalpha d = false) : c ≠ d := by
  rintro rfl; rw [h] at hd; cases hd

theorem isalpha_class (c : Char) (h : isalpha c = true) :
    open_brackets c = false ∧ close_brackets c = false ∧ is_operation c = false ∧
      (c == ',') = false := by
  refine ⟨?_, ?_, ?_, ?_⟩
  · simp [open_brackets, isalpha_ne c _ h (by decide : isalpha '(' = false),
      isalpha_ne c _ h (by decide : isalpha '[' = false),
      isalpha_ne c _ h (by decide : isalpha '\x7b' = false)]
  · simp [close_brackets, isalpha_ne c _ h (by decide : isalpha ')' = false),
      isalpha_ne c _ h (by decide : isalpha ']' = false),
      isalpha_ne c _ h (by decide : isalpha '\x7d' = false)]
  · simp [is_operation, isalpha_ne c _ h (by decide : isalpha '=' = false),
      isalpha_ne c _ h (by decide : isalpha '+' = false),
      isalpha_ne c _ h (by decide : isalpha '-' = false),
      isalpha_ne c _ h (by decide : isalpha '*' = false),
      isalpha_ne c _ h (by decide : isalpha '/' = false),
      isalpha_ne c _ h (by decide : isalpha '%' = false),
      isalpha_ne c _ h (by decide : isalpha '^' = false),
      isalpha_ne c _ h (by decide : isalpha '!' = false)]
  · simpa using isalpha_ne c ',' h (by decide)

theorem scan_call (L : Libm) (fuel : Nat) (prev : Option Char) (name tail : List Char)
    (oper : List Int) (stack : List ℚ) (pos : Nat) (last : Char)
    (hname : ∀ ch ∈ name, isalpha ch = true) (hlast : name.getLast? = some last)
    (hcase : last.toLower ≠ 'i' ∧ last.toLower ≠ 'e')
    (htail : ∀ ch ∈ tail.head?, isalpha ch = false)
    (hpos : find_bracket tail = .ok (some pos)) :
    scan L (fuel + 1) prev (name ++ tail) oper stack =
      (parser_calc L fuel (tail.take (pos + 1)) >>= fun op_res =>
        if ',' ∉ (tail.drop 1).take (pos - 1) then
          process_function1 L stack (str_tolower name) op_res >>= fun stack =>
            scan L fuel (tail.get? pos) (tail.drop (pos + 1)) oper stack
        else
          parser_calc L fuel
              (((tail.drop 1).take (pos - 1)).take (find_delim ((tail.drop 1).take (pos - 1)) ','))
            >>= fun res_rhs =>
          process_function2 L stack (str_tolower name) op_res res_rhs >>= fun stack =>
            scan L fuel (tail.get? pos) (tail.drop (pos + 1)) oper stack) := by
  have h1 := takeWhile_run isalpha name tail hname htail
  have h2 := dropWhile_run isalpha name tail hname htail
  cases name with
  | nil => simp at hlast
  | cons ch name' =>
    have hch : isalpha ch = true := hname ch (by simp)
    obtain ⟨hno, hnc, hnop, hcomma⟩ := isalpha_class ch hch
    rw [List.cons_append] at h1 h2 ⊢
    rw [scan_succ]
    simp only [scan_step, hno, hnc, hnop, hcomma, hch, h1, h2, hlast, hpos, Option.getD_some]
    simp only [Bool.or_self, Bool.false_eq_true, if_false, if_true, hcase.1, hcase.2, or_self]

theorem lays_check_loop_digits (ds rest stack : List Char) (hall : ∀ c ∈ ds, isdigit c = true) :
    lays_check_loop (ds ++ rest) stack = lays_check_loop rest stack := by
  induction ds with
  | nil => rfl
  | cons d ds ih =>
    have hd := hall d (by simp)
    rw [List.cons_append, lays_check_loop_other _ _ _ (isdigit_not_open d hd)
      (isdigit_not_close d hd)]
    exact ih (fun c hc => hall c (by simp [hc]))

theorem lays_check_digits (ds : List Char) (hall : ∀ c ∈ ds, isdigit c = true) :
    lays_check ds = true := by
  have := lays_check_loop_digits ds [] [] hall
  rw [List.append_nil] at this
  rw [lays_check, this]
  rfl

theorem find_bracket_loop_open (ch : Char) (str stack : List Char) (pos : Nat)
    (h : open_brackets ch = true) :
    find_bracket_loop (ch :: str) stack pos = find_bracket_loop str (ch :: stack) (pos + 1) := by
  simp only [find_bracket_loop, h, if_true]

theorem find_bracket_loop_other (ch : Char) (str stack : List Char) (pos : Nat)
    (ho : open_brackets ch = false) (hc : close_brackets ch = false) :
    find_bracket_loop (ch :: str) stack pos = find_bracket_loop str stack (pos + 1) := by
  simp only [find_bracket_loop, ho, hc, Bool.false_eq_true, if_false]

theorem find_bracket_loop_last (ch top : Char) (str : List Char) (pos : Nat)
    (hc : close_brackets ch = true) :
    find_bracket_loop (ch :: str) [top] pos = .ok (some pos) := by
  simp only [find_bracket_loop, close_not_open ch hc, hc, Bool.false_eq_true, if_false, if_true]

theorem find_bracket_loop_digits (ds rest stack : List Char) (pos : Nat)
    (hall : ∀ c ∈ ds, isdigit c = true) :
    find_bracket_loop (ds ++ rest) stack pos = find_bracket_loop rest stack (pos + ds.length) := by
  induction ds generalizing pos with
  | nil => rfl
  | cons d ds ih =>
    have hd := hall d (by simp)
    rw [List.cons_append, find_bracket_loop_other _ _ _ _ (isdigit_not_open d hd)
      (isdigit_not_close d hd), ih _ (fun c hc => hall c (by simp [hc])), List.length_cons]
    congr 1
    omega

theorem find_delim_loop_digits (ds rest seen : List Char) (hs : ∀ c ∈ seen, isdigit c = true)
    (hall : ∀ c ∈ ds, isdigit c = true) :
    find_delim_loop ',' (ds ++ ',' :: rest) seen = seen.length + ds.length := by
  induction ds generalizing seen with
  | nil =>
    have : lays_check seen.reverse = true :=
      lays_check_digits _ (fun c hc => hs c (by simpa using hc))
    simp [find_delim_loop, this]
  | cons d ds ih =>
    have hd := hall d (by simp)
    rw [List.cons_append, find_delim_loop]
    simp only [isdigit_ne d ',' hd (by decide), false_and, if_false]
    rw [ih (d :: seen) (fun c hc => by
      rcases List.mem_cons.1 hc with h | h
      · rw [h]; exact hd
      · exact hs c h) (fun c hc => hall c (by simp [hc]))]
    simp only [List.length_cons]
    omega

theorem find_bracket_pair (o c : Char) (a b rest : List Char) (ha : is_literal a = true)
    (hb : is_literal b = true) (ho : open_brackets o = true) (hc : close_brackets c = true) :
    find_bracket (o :: (a ++ ',' :: (b ++ c :: rest))) =
      .ok (some (a.length + b.length + 2)) := by
  rw [find_bracket, find_bracket_loop_open _ _ _ _ ho,
    find_bracket_loop_digits _ _ _ _ (is_literal_all a ha),
    find_bracket_loop_other _ _ _ _ (by decide) (by decide),
    find_bracket_loop_digits _ _ _ _ (is_literal_all b hb),
    find_bracket_loop_last _ _ _ _ hc]
  congr 2
  omega

theorem pair_shape (o c : Char) (a b rest : List Char) :
    (o :: (a ++ ',' :: (b ++ c :: rest))).take (a.length + b.length + 2 + 1) =
        o :: (a ++ ',' :: (b ++ [c])) ∧
      ((o :: (a ++ ',' :: (b ++ c :: rest))).drop 1).take (a.length + b.length + 2 - 1) =
        a ++ ',' :: b ∧
      (o :: (a ++ ',' :: (b ++ c :: rest))).get? (a.length + b.length + 2) = some c ∧
      (o :: (a ++ ',' :: (b ++ c :: rest))).drop (a.length + b.length + 2 + 1) = rest := by
  have e1 : o :: (a ++ ',' :: (b ++ c :: rest)) = (o :: (a ++ ',' :: (b ++ [c]))) ++ rest := by
    simp
  have l1 : (o :: (a ++ ',' :: (b ++ [c]))).length = a.length + b.length + 2 + 1 := by
    simp; omega
  have e2 : a ++ ',' :: (b ++ c :: rest) = (a ++ ',' :: b) ++ (c :: rest) := by simp
  have l2 : (a ++ ',' :: b).length = a.length + b.length + 2 - 1 := by
    simp; omega
  have e3 : o :: (a ++ ',' :: (b ++ c :: rest)) = (o :: (a ++ ',' :: b)) ++ (c :: rest) := by
    simp
  have l3 : (o :: (a ++ ',' :: b)).length = a.length + b.length + 2 := by
    simp; omega
  refine ⟨?_, ?_, ?_, ?_⟩
  · rw [e1, List.take_left' l1]
  · rw [List.drop_one, List.tail_cons, e2, List.take_left' l2]
  · rw [e3, ← l3, List.get?_eq_getElem?, List.getElem?_append_right (le_refl _)]
    simp
  · rw [e1, List.drop_left' l1]

theorem scan_literal_end (L : Libm) (fuel : Nat) (prev : Option Char) (ds : List Char)
    (oper : List Int) (stack : List ℚ) (h : is_literal ds = true) :
    scan L (fuel + 1) prev ds oper stack =
      scan L fuel ds.getLast? [] oper ((digits_value ds : ℚ) :: stack) := by
  have := scan_literal L fuel prev ds [] oper stack h rfl
  rwa [List.append_nil] at this

theorem calc_literal (L : Libm) (fuel : Nat) (a : List Char) (ha : is_literal a = true) :
    parser_calc L (fuel + 3) a = .ok (digits_value a : ℚ) := by
  have e : '0' :: a = '0' :: (a ++ []) := by rw [List.append_nil]
  rw [calc_enter L _ _ (lays_check_digits a (is_literal_all a ha))
    (incorrect_symbol_literal a ha) (filter_space_literal a ha), e,
    scan_zero_literal _ _ _ [] ha rfl, scan_end, reduce_all_nil]
  rfl

theorem calc_pair (L : Libm) (fuel : Nat) (o c : Char) (a b : List Char)
    (ha : is_literal a = true) (hb : is_literal b = true) (hp : (o, c) ∈ bracket_pairs) :
    parser_calc L (fuel + 8) (o :: (a ++ ',' :: (b ++ [c]))) = .ok (digits_value b : ℚ) := by
  obtain ⟨hc, ho⟩ := (pair_iff o c).1 hp
  have hoo : open_brackets o = true := by
    subst ho
    simp only [close_brackets, Bool.or_eq_true, beq_iff_eq] at hc
    rcases hc with (h | h) | h <;> subst h <;> decide
  have h1 : lays_check (o :: (a ++ ',' :: (b ++ [c]))) = true := by
    rw [lays_check, lays_check_loop_open _ _ _ hoo, lays_check_loop_literal _ _ _ ha,
      lays_check_loop_other _ _ _ (by decide) (by decide), lays_check_loop_literal _ _ _ hb,
      lays_check_loop_close _ _ _ hc]
    simp [ho, lays_check_loop]
  have h2 : incorrect_symbol (o :: (a ++ ',' :: (b ++ [c]))) = true := by
    simp (disch := first | decide | assumption | exact (open_allowed _ hoo).1 |
      exact (close_allowed _ hc).1) only [incorrect_symbol_append,
      incorrect_symbol_literal, incorrect_symbol_cons]
    rfl
  have h3 : (o :: (a ++ ',' :: (b ++ [c]))).filter (· != ' ') = o :: (a ++ ',' :: (b ++ [c])) := by
    simp (disch := first | decide | assumption | exact (open_allowed _ hoo).2.1 |
      exact (close_allowed _ hc).2.1) only [filter_space_literal, List.filter_append,
      filter_space_cons, List.filter_nil]
  rw [calc_enter L _ _ h1 h2 h3, scan_zero_other _ _ _ ((open_allowed _ hoo).2.2 _),
    scan_open _ _ _ _ _ _ _ hoo (starts_sign_literal_append _ _ ha),
    scan_literal _ _ _ _ _ _ _ ha (by rfl), scan_comma,
    reduce_to_open_stop _ _ _ _ _ (open_key_key o hoo), ok_bind,
    scan_literal _ _ _ _ _ _ _ hb ((close_allowed _ hc).2.2 _),
    scan_close _ _ _ _ _ _ _ hc,
    reduce_to_open_stop _ _ _ _ _ (open_key_key o hoo), ok_bind, scan_end]
  rfl

theorem scan_call2_literals (L : Libm) (fuel : Nat) (prev : Option Char)
    (name a b rest : List Char) (o c last : Char) (oper : List Int) (stack : List ℚ)
    (hname : ∀ ch ∈ name, isalpha ch = true) (hlast : name.getLast? = some last)
    (hcase : last.toLower ≠ 'i' ∧ last.toLower ≠ 'e')
    (ha : is_literal a = true) (hb : is_literal b = true) (hp : (o, c) ∈ bracket_pairs) :
    scan L (fuel + 8 + 1) prev (name ++ o :: (a ++ ',' :: (b ++ c :: rest))) oper stack =
      (process_function2 L stack (str_tolower name) (digits_value b) (digits_value a) >>=
        fun stack => scan L (fuel + 8) (some c) rest oper stack) := by
  obtain ⟨hc, ho⟩ := (pair_iff o c).1 hp
  have hoo : open_brackets o = true := by
    subst ho
    simp only [close_brackets, Bool.or_eq_true, beq_iff_eq] at hc
    rcases hc with (h | h) | h <;> subst h <;> decide
  have hoa : isalpha o = false := by
    simp only [open_brackets, Bool.or_eq_true, beq_iff_eq] at hoo
    rcases hoo with (h | h) | h <;> subst h <;> decide
  obtain ⟨s1, s2, s3, s4⟩ := pair_shape o c a b rest
  have hd : find_delim (a ++ ',' :: b) ',' = a.length := by
    rw [find_delim, find_delim_loop_digits a b [] (by simp) (is_literal_all a ha)]
    simp
  have hmem : ',' ∈ a ++ ',' :: b := by simp
  rw [scan_call L (fuel + 8) prev name _ oper stack _ last hname hlast hcase
    (by simpa using hoa) (find_bracket_pair o c a b rest ha hb hoo hc), s1, s2, s3, s4, hd,
    List.take_left' rfl, calc_pair L fuel o c a b ha hb hp, ok_bind,
    if_neg (not_not.2 hmem)]
  have := calc_literal L (fuel + 5) a ha
  rw [this, ok_bind]

/-! ## Arithmetic on naturals -/

theorem pow_natCast (L : Libm) (x : ℚ) (n : ℕ) (hx : exact_double (x ^ n) = true) :
    pow L x (n : ℚ) = x ^ n := by
  have e : x ^ ((n : ℚ)).num = x ^ n := by rw [Rat.num_natCast, zpow_natCast]
  have h : ((n : ℚ)).den = 1 ∧ (x ≠ 0 ∨ (0 : ℚ) ≤ (n : ℚ)) ∧
      exact_double (x ^ ((n : ℚ)).num) = true :=
    ⟨Rat.den_natCast n, Or.inr (Nat.cast_nonneg n), by rw [e]; exact hx⟩
  rw [pow, if_pos h, e]

theorem factorial_double (k : ℕ) (h : k ≤ 22) : exact_double (k.factorial : ℚ) = true := by
  rw [exact_double_natCast_eq]
  interval_cases k <;> decide

theorem fact_natCast (L : Libm) (k m : ℕ) (h : k ≤ 22) :
    fact L (k + 1 + m) (k : ℚ) = .ok (k.factorial : ℚ) := by
  induction k with
  | zero =>
    have e : 0 + 1 + m = m + 1 := by omega
    rw [e, fact]
    simp
  | succ k ih =>
    have e : k + 1 + 1 + m = (k + 1 + m) + 1 := by omega
    have hne : ((k + 1 : ℕ) : ℚ) ≠ 0 := by exact_mod_cast Nat.succ_ne_zero k
    have hsub : ((k + 1 : ℕ) : ℚ) - 1 = (k : ℚ) := by push_cast; ring
    have hmul : ((k + 1 : ℕ) : ℚ) * (k.factorial : ℚ) = ((k + 1).factorial : ℚ) := by
      rw [Nat.factorial_succ]; push_cast; rfl
    rw [e, fact, if_neg hne, hsub, fl_natCast L k (by omega), ih (by omega), ok_bind, hmul,
      fl_exact L _ (factorial_double (k + 1) h)]

theorem fact_of_le (L : Libm) (n fuel : ℕ) (h22 : n ≤ 22) (h : n + 1 ≤ fuel) :
    fact L fuel (n : ℚ) = .ok (n.factorial : ℚ) := by
  obtain ⟨m, rfl⟩ := Nat.exists_eq_add_of_le h
  exact fact_natCast L n m h22
/-! ## Two binary operators -/

theorem binary_glyph_operation (op : Char) (h : op ∈ binary_glyphs) :
    is_operation op = true ∧ prior (key op) = level op := by
  simp only [binary_glyphs, List.mem_cons, List.mem_singleton, List.mem_nil_iff, or_false] at h
  rcases h with h | h | h | h | h <;> subst h <;> exact ⟨by decide, by decide⟩

theorem pow_natural (L : Libm) (x y : ℚ) (h : y.den = 1 ∧ 0 ≤ y)
    (hx : exact_double (x ^ y.num.toNat) = true) : pow L x y = x ^ y.num.toNat := by
  have hn : 0 ≤ y.num := Rat.num_nonneg.2 h.2
  have e : x ^ y.num = x ^ y.num.toNat := by
    conv_lhs => rw [← Int.toNat_of_nonneg hn]
    exact zpow_natCast x _
  rw [pow, if_pos ⟨h.1, Or.inr h.2, by rw [e]; exact hx⟩, e]

theorem exec_exact_value (L : Libm) (fuel : Nat) (op : Char) (x y r : ℚ) (stack : List ℚ)
    (h : op ∈ binary_glyphs) (hv : exact_value op x y = some r)
    (hr : exact_double r = true) :
    process_operation L fuel (y :: x :: stack) (key op) = .ok (r :: stack) := by
  simp only [binary_glyphs, List.mem_cons, List.mem_singleton, List.mem_nil_iff, or_false] at h
  rcases h with h | h | h | h | h <;> subst h
  · simp only [exact_value, if_true, Option.some.injEq] at hv
    rw [exec_add, hv, fl_exact L r hr]
  · simp only [exact_value, (by decide : ¬ '-' = '+'), if_true, if_false,
      Option.some.injEq] at hv
    rw [exec_subtract, hv, fl_exact L r hr]
  · simp only [exact_value, (by decide : ¬ '*' = '+'), (by decide : ¬ '*' = '-'), if_true,
      if_false, Option.some.injEq] at hv
    rw [exec_multiply, hv, fl_exact L r hr]
  · simp only [exact_value, (by decide : ¬ '/' = '+'), (by decide : ¬ '/' = '-'),
      (by decide : ¬ '/' = '*'), if_true, if_false] at hv
    by_cases hy : y = 0
    · rw [if_pos hy] at hv; cases hv
    · rw [if_neg hy, Option.some.injEq] at hv
      rw [exec_divide, if_neg hy, hv, fl_exact L r hr]
  · simp only [exact_value, (by decide : ¬ '^' = '+'), (by decide : ¬ '^' = '-'),
      (by decide : ¬ '^' = '*'), (by decide : ¬ '^' = '/'), if_true, if_false] at hv
    by_cases hy : y.den = 1 ∧ 0 ≤ y
    · rw [if_pos hy, Option.some.injEq] at hv
      rw [exec_pow, pow_natural L x y hy (by rw [hv]; exact hr), hv]
    · rw [if_neg hy] at hv; cases hv

theorem binary_value_exact (op : Char) (x y r : ℚ) (hv : binary_value op x y = some r) :
    exact_value op x y = some r ∧ exact_double r = true := by
  cases h : exact_value op x y with
  | none => rw [binary_value, h] at hv; cases hv
  | some v =>
    rw [binary_value, h, Option.some_bind] at hv
    split at hv
    · rename_i hc
      cases hv
      exact ⟨rfl, hc.1⟩
    · cases hv

theorem exec_binary (L : Libm) (fuel : Nat) (op : Char) (x y r : ℚ) (stack : List ℚ)
    (h : op ∈ binary_glyphs) (hv : binary_value op x y = some r) :
    process_operation L fuel (y :: x :: stack) (key op) = .ok (r :: stack) :=
  exec_exact_value L fuel op x y r stack h (binary_value_exact op x y r hv).1
    (binary_value_exact op x y r hv).2

/-! ## Doubles -/

theorem binary_value_eq (op : Char) (x y v : ℚ) (he : exact_value op x y = some v)
    (hx : exact_double v = true) (hz : v ≠ 0) : binary_value op x y = some v := by
  rw [binary_value, he, Option.some_bind, if_pos ⟨hx, fun _ h => absurd h hz⟩]

theorem exact_value_pow_natCast (x : ℚ) (n : Nat) : exact_value '^' x (n : ℚ) = some (x ^ n) := by
  have h : ((n : ℚ)).den = 1 ∧ (0 : ℚ) ≤ (n : ℚ) := ⟨Rat.den_natCast n, Nat.cast_nonneg n⟩
  have e : exact_value '^' x (n : ℚ) =
      if ((n : ℚ)).den = 1 ∧ (0 : ℚ) ≤ (n : ℚ) then some (x ^ ((n : ℚ)).num.toNat) else none := rfl
  rw [e, if_pos h, Rat.num_natCast, Int.toNat_ofNat]

/-! ## Signs -/

theorem sign_class (s : Char) (hs : s = '+' ∨ s = '-') :
    is_operation s = true ∧ prior (key s) = 1 ∧ prior (-key s) = 4 ∧
      open_key (key s) = false ∧ open_key (-key s) = false ∧
      (∀ r, starts_sign (s :: r) = true) ∧ (s == '+' || s == '-') = true := by
  rcases hs with h | h <;> subst h <;>
    exact ⟨by decide, by decide, by decide, by decide, by decide, fun _ => rfl, by decide⟩

theorem exec_sign_binary (L : Libm) (fuel : Nat) (s : Char) (hs : s = '+' ∨ s = '-')
    (x y : ℚ) (stack : List ℚ) :
    process_operation L fuel (y :: x :: stack) (key s) =
      .ok (fl L (x + signed s y) :: stack) := by
  rcases hs with h | h <;> subst h
  · rfl
  · rw [exec_subtract, sub_eq_add_neg]; rfl

theorem exact_double_signed (s : Char) (x : ℚ) :
    exact_double (signed s x) = exact_double x := by
  by_cases h : s = '-'
  · rw [signed, if_pos h, exact_double_neg]
  · rw [signed, if_neg h]

theorem mul_signed (s : Char) (x y : ℚ) : x * signed s y = signed s (x * y) := by
  by_cases h : s = '-'
  · rw [signed, signed, if_pos h, if_pos h, mul_neg]
  · rw [signed, signed, if_neg h, if_neg h]

theorem exec_sign_unary (L : Libm) (fuel : Nat) (s : Char) (hs : s = '+' ∨ s = '-')
    (y : ℚ) (stack : List ℚ) :
    process_operation L fuel (y :: stack) (-key s) = .ok (signed s y :: stack) := by
  rcases hs with h | h <;> subst h <;> rfl

/-! ## A call with two literal arguments -/

theorem calc_call2_literals (L : Libm) (fuel : Nat) (a b : List Char) (o c : Char)
    (ha : is_literal a = true) (hb : is_literal b = true) (hp : (o, c) ∈ bracket_pairs)
    (x y z : Char) (hx : isalpha x = true) (hy : isalpha y = true) (hz : isalpha z = true)
    (hcase : z.toLower ≠ 'i' ∧ z.toLower ≠ 'e') :
    parser_calc L (fuel + 11) ([x, y, z] ++ o :: (a ++ ',' :: (b ++ [c]))) =
      (process_function2 L [0] (str_tolower [x, y, z]) (digits_value b) (digits_value a) >>=
        fun stack => scan L (fuel + 8) (some c) [] [] stack) := by
  obtain ⟨hc, ho⟩ := (pair_iff o c).1 hp
  have hoo : open_brackets o = true := by
    subst ho
    simp only [close_brackets, Bool.or_eq_true, beq_iff_eq] at hc
    rcases hc with (h | h) | h <;> subst h <;> decide
  obtain ⟨xo, xc, -, -⟩ := isalpha_class x hx
  obtain ⟨yo, yc, -, -⟩ := isalpha_class y hy
  obtain ⟨zo, zc, -, -⟩ := isalpha_class z hz
  have al : ∀ ch, isalpha ch = true → incorrect_symbol [ch] = true ∧ (ch != ' ') = true := by
    intro ch h
    refine ⟨by simp [incorrect_symbol, h], ?_⟩
    simpa using isalpha_ne ch ' ' h (by decide)
  have v1 : lays_check ([x, y, z] ++ o :: (a ++ ',' :: (b ++ [c]))) = true := by
    rw [List.cons_append, List.cons_append, List.cons_append, List.nil_append, lays_check,
      lays_check_loop_other _ _ _ xo xc, lays_check_loop_other _ _ _ yo yc,
      lays_check_loop_other _ _ _ zo zc, lays_check_loop_open _ _ _ hoo,
      lays_check_loop_literal _ _ _ ha, lays_check_loop_other _ _ _ (by decide) (by decide),
      lays_check_loop_literal _ _ _ hb, lays_check_loop_close _ _ _ hc]
    simp [ho, lays_check_loop]
  have v2 : incorrect_symbol ([x, y, z] ++ o :: (a ++ ',' :: (b ++ [c]))) = true := by
    rw [List.cons_append, List.cons_append, List.cons_append, List.nil_append,
      incorrect_symbol_cons _ _ (al x hx).1, incorrect_symbol_cons _ _ (al y hy).1,
      incorrect_symbol_cons _ _ (al z hz).1, incorrect_symbol_cons _ _ (open_allowed o hoo).1,
      incorrect_symbol_append, incorrect_symbol_literal _ ha,
      incorrect_symbol_cons _ _ (by decide), incorrect_symbol_append,
      incorrect_symbol_literal _ hb, (close_allowed c hc).1]
    rfl
  have v3 : ([x, y, z] ++ o :: (a ++ ',' :: (b ++ [c]))).filter (· != ' ') =
      [x, y, z] ++ o :: (a ++ ',' :: (b ++ [c])) := by
    rw [List.cons_append, List.cons_append, List.cons_append, List.nil_append,
      filter_space_cons _ _ (al x hx).2, filter_space_cons _ _ (al y hy).2,
      filter_space_cons _ _ (al z hz).2, filter_space_cons _ _ (open_allowed o hoo).2.1,
      List.filter_append, filter_space_literal _ ha, filter_space_cons _ _ (by decide),
      List.filter_append, filter_space_literal _ hb,
      filter_space_cons _ _ (close_allowed c hc).2.1, List.filter_nil]
  have sn : starts_number ([x, y, z] ++ o :: (a ++ ',' :: (b ++ [c]))) = false := by
    have h1 : isdigit x = false := by
      cases h : isdigit x
      · rfl
      · rw [isdigit_not_alpha x h] at hx; cases hx
    have h2 : (x == '.') = false := by simpa using isalpha_ne x '.' hx (by decide)
    simp [starts_number, h1, h2]
  rw [calc_enter L _ _ v1 v2 v3, scan_zero_other _ _ _ sn,
    scan_call2_literals L fuel _ [x, y, z] a b [] o c z [] [0] (by
      intro ch hch
      simp only [List.mem_cons, List.mem_singleton, List.mem_nil_iff, or_false] at hch
      rcases hch with h | h | h <;> rw [h] <;> assumption) rfl hcase ha hb hp]

/-! ## A call with a nested two-argument call -/

theorem calc_bracketed_call2 (L : Libm) (fuel : Nat) (a b : List Char)
    (ha : is_literal a = true) (hb : is_literal b = true)
    (x y z : Char) (hx : isalpha x = true) (hy : isalpha y = true) (hz : isalpha z = true)
    (hcase : z.toLower ≠ 'i' ∧ z.toLower ≠ 'e') :
    parser_calc L (fuel + 12) ('(' :: ([x, y, z] ++ '(' :: (a ++ ',' :: (b ++ ')' :: [')'])))) =
      (process_function2 L [0] (str_tolower [x, y, z]) (digits_value b) (digits_value a) >>=
        fun stack => scan L (fuel + 8) (some ')') [')'] [key '('] stack) := by
  obtain ⟨xo, xc, -, -⟩ := isalpha_class x hx
  obtain ⟨yo, yc, -, -⟩ := isalpha_class y hy
  obtain ⟨zo, zc, -, -⟩ := isalpha_class z hz
  have al : ∀ ch, isalpha ch = true → incorrect_symbol [ch] = true ∧ (ch != ' ') = true := by
    intro ch h
    refine ⟨by simp [incorrect_symbol, h], ?_⟩
    simpa using isalpha_ne ch ' ' h (by decide)
  have v1 : lays_check ('(' :: ([x, y, z] ++ '(' :: (a ++ ',' :: (b ++ ')' :: [')'])))) =
      true := by
    rw [List.cons_append, List.cons_append, List.cons_append, List.nil_append, lays_check,
      lays_check_loop_open _ _ _ (by decide),
      lays_check_loop_other _ _ _ xo xc, lays_check_loop_other _ _ _ yo yc,
      lays_check_loop_other _ _ _ zo zc, lays_check_loop_open _ _ _ (by decide),
      lays_check_loop_literal _ _ _ ha, lays_check_loop_other _ _ _ (by decide) (by decide),
      lays_check_loop_literal _ _ _ hb, lays_check_loop_close _ _ _ (by decide)]
    rfl
  have v2 : incorrect_symbol ('(' :: ([x, y, z] ++ '(' :: (a ++ ',' :: (b ++ ')' :: [')'])))) =
      true := by
    rw [List.cons_append, List.cons_append, List.cons_append, List.nil_append,
      incorrect_symbol_cons _ _ (by decide),
      incorrect_symbol_cons _ _ (al x hx).1, incorrect_symbol_cons _ _ (al y hy).1,
      incorrect_symbol_cons _ _ (al z hz).1, incorrect_symbol_cons _ _ (by decide),
      incorrect_symbol_append, incorrect_symbol_literal _ ha,
      incorrect_symbol_cons _ _ (by decide), incorrect_symbol_append,
      incorrect_symbol_literal _ hb]
    rfl
  have v3 : ('(' :: ([x, y, z] ++ '(' :: (a ++ ',' :: (b ++ ')' :: [')'])))).filter (· != ' ') =
      '(' :: ([x, y, z] ++ '(' :: (a ++ ',' :: (b ++ ')' :: [')']))) := by
    rw [List.cons_append, List.cons_append, List.cons_append, List.nil_append,
      filter_space_cons _ _ (by decide),
      filter_space_cons _ _ (al x hx).2, filter_space_cons _ _ (al y hy).2,
      filter_space_cons _ _ (al z hz).2, filter_space_cons _ _ (by decide),
      List.filter_append, filter_space_literal _ ha, filter_space_cons _ _ (by decide),
      List.filter_append, filter_space_literal _ hb]
    rfl
  have ss : starts_sign ([x, y, z] ++ '(' :: (a ++ ',' :: (b ++ ')' :: [')']))) = false := by
    have h1 : (x == '+') = false := by simpa using isalpha_ne x '+' hx (by decide)
    have h2 : (x == '-') = false := by simpa using isalpha_ne x '-' hx (by decide)
    simp [starts_sign, h1, h2]
  rw [calc_enter L _ _ v1 v2 v3, scan_zero_other _ _ _ (by rfl),
    scan_open _ _ _ _ _ _ _ (by decide) ss,
    scan_call2_literals L fuel _ [x, y, z] a b [')'] '(' ')' z _ [0] (by
      intro ch hch
      simp only [List.mem_cons, List.mem_singleton, List.mem_nil_iff, or_false] at hch
      rcases hch with h | h | h <;> rw [h] <;> assumption) rfl hcase ha hb (by decide)]

theorem calc_abs_of_call2 (L : Libm) (fuel : Nat) (x y z : Char) (a b : List Char)
    (text : List Char) (m : ℚ)
    (ha : is_literal a = true) (hb : is_literal b = true)
    (hx : isalpha x = true) (hy : isalpha y = true) (hz : isalpha z = true)
    (hcase : z.toLower ≠ 'i' ∧ z.toLower ≠ 'e')
    (hm : ∀ stack, process_function2 L stack (str_tolower [x, y, z]) (digits_value b)
      (digits_value a) = .ok (m :: stack))
    (htext : text = '(' :: ([x, y, z] ++ '(' :: (a ++ ',' :: (b ++ ')' :: [')']))))
    (v1 : lays_check ("abs".toList ++ text) = true)
    (v2 : incorrect_symbol ("abs".toList ++ text) = true)
    (v3 : ("abs".toList ++ text).filter (· != ' ') = "abs".toList ++ text)
    (pos : Nat) (hpos : find_bracket text = .ok (some pos))
    (t1 : text.take (pos + 1) = text)
    (t2 : (text.drop 1).take (pos - 1) = [x, y, z] ++ '(' :: (a ++ ',' :: (b ++ [')'])))
    (t3 : find_delim ([x, y, z] ++ '(' :: (a ++ ',' :: (b ++ [')']))) ',' =
      ([x, y, z] ++ '(' :: (a ++ ',' :: (b ++ [')']))).length) :
    parser_calc L (fuel + 15) ("abs".toList ++ text) = .error .unknownFn := by
  have hmem : ',' ∈ [x, y, z] ++ '(' :: (a ++ ',' :: (b ++ [')'])) := by simp
  have inner1 := calc_bracketed_call2 L fuel a b ha hb x y z hx hy hz hcase
  rw [hm, ok_bind, scan_close _ _ _ _ _ _ _ (by decide),
    reduce_to_open_stop _ _ _ _ _ (by decide), ok_bind, scan_end] at inner1
  simp only [List.tail_cons, reduce_all_nil, ok_bind] at inner1
  rw [← htext] at inner1
  have inner2 : parser_calc L (fuel + 12) ([x, y, z] ++ '(' :: (a ++ ',' :: (b ++ [')']))) = _ :=
    calc_call2_literals L (fuel + 1) a b '(' ')' ha hb (by decide) x y z hx hy hz hcase
  rw [hm, ok_bind, scan_end, reduce_all_nil, ok_bind] at inner2
  rw [calc_enter L _ _ v1 v2 v3, scan_zero_other _ _ _ (by rfl),
    scan_call L (fuel + 12) _ "abs".toList text [] [0] pos 's' (by decide) (by decide)
      (by decide) (by rw [htext]; simp; decide) hpos, t1, t2, t3, List.take_length,
    inner1, ok_bind, if_neg (not_not.2 hmem), inner2, ok_bind]
  rfl

/-! ## A leading minus before a factorial -/

theorem calc_minus_factorial_steps (L : Libm) (n : List Char) (fuel : Nat)
    (hn : is_literal n = true) (h1 : 1 ≤ digits_value n) :
    parser_calc L (fuel + 6) ('-' :: (n ++ ['!'])) =
      (fact L fuel (digits_value n) >>= fun r => .ok (fl L (0 - r))) := by
  have v1 : lays_check ('-' :: (n ++ ['!'])) = true := by
    rw [lays_check, lays_check_loop_other _ _ _ (by decide) (by decide),
      lays_check_loop_literal _ _ _ hn]
    rfl
  have v2 : incorrect_symbol ('-' :: (n ++ ['!'])) = true := by
    rw [incorrect_symbol_cons _ _ (by decide), incorrect_symbol_append,
      incorrect_symbol_literal _ hn]
    rfl
  have v3 : ('-' :: (n ++ ['!'])).filter (· != ' ') = '-' :: (n ++ ['!']) := by
    rw [filter_space_cons _ _ (by decide), List.filter_append, filter_space_literal _ hn]
    rfl
  have pos : (digits_value n : ℚ) > 0 := by
    have : 0 < digits_value n := h1
    exact_mod_cast this
  rw [calc_enter L _ _ v1 v2 v3, scan_zero_other _ _ _ (by rfl),
    scan_binary _ _ _ _ _ _ _ (by decide) (by rfl), reduce_prior_nil, ok_bind,
    scan_literal _ _ _ _ _ _ _ hn (by rfl),
    scan_binary _ _ _ _ _ _ _ (by decide) (by rfl),
    reduce_prior_stop _ _ _ _ _ _ (by decide), ok_bind, scan_end,
    reduce_all_cons, exec_fact, if_pos pos]
  cases h : fact L fuel (digits_value n) with
  | error e => rfl
  | ok r =>
    rw [ok_bind, ok_bind, ok_bind, reduce_all_cons, exec_subtract, ok_bind, reduce_all_nil,
      ok_bind]

theorem calc_minus_factorial (L : Libm) (n : List Char) (fuel : Nat) (hn : is_literal n = true)
    (h1 : 1 ≤ digits_value n) (h22 : digits_value n ≤ 22) (hf : digits_value n + 7 ≤ fuel) :
    parser_calc L fuel ('-' :: (n ++ ['!'])) = .ok (-((digits_value n).factorial : ℚ)) := by
  obtain ⟨m, rfl⟩ := Nat.exists_eq_add_of_le hf
  have e : digits_value n + 7 + m = (digits_value n + 1 + m) + 6 := by omega
  rw [e, calc_minus_factorial_steps L n _ hn h1, fact_natCast L _ _ h22, ok_bind, zero_sub,
    fl_exact L _ (by rw [exact_double_neg]; exact factorial_double _ h22)]

/-! ## The character-class validator -/

theorem is_operation_eq (c : Char) : is_operation c = operator_glyphs.contains c := by
  simp only [is_operation, operator_glyphs, List.contains, List.elem]
  cases (c == '=') <;> cases (c == '+') <;> cases (c == '-') <;> cases (c == '*') <;>
    cases (c == '/') <;> cases (c == '%') <;> cases (c == '^') <;> cases (c == '!') <;> rfl

theorem allowed_char_eq (c : Char) :
    allowed_char c =
      (isspace c || isdigit c || isalpha c || is_operation c || open_brackets c ||
        close_brackets c || c == '.' || c == ',') := by
  rw [allowed_char, is_operation_eq, is_bracket_eq]
  simp only [Bool.or_assoc]

theorem incorrect_symbol_false_iff (text : List Char) :
    incorrect_symbol text = false ↔ ∃ c ∈ text, allowed_char c = false := by
  rw [incorrect_symbol, List.all_eq_false]
  constructor
  · rintro ⟨c, hc, h⟩
    exact ⟨c, hc, by rw [allowed_char_eq]; simpa using h⟩
  · rintro ⟨c, hc, h⟩
    refine ⟨c, hc, ?_⟩
    rw [allowed_char_eq] at h
    simp [h]

/-! ## Identifiers -/

theorem isalpha_cases (c : Char) (h : isalpha c = true) :
    isalpha c.toLower = true ∧ isdigit c = false ∧ (c != ' ') = true ∧
      incorrect_symbol [c] = true ∧ (c == '.') = false ∧ (c == '+') = false ∧
      (c == '-') = false := by
  have e : c = Char.ofNat c.toNat := (Char.ofNat_toNat c).symm
  rw [isalpha_bounds] at h
  generalize c.toNat = k at e h
  subst e
  rcases h with ⟨h1, h2⟩ | ⟨h1, h2⟩ <;> interval_cases k <;> decide

theorem lays_check_loop_letters (name rest stack : List Char)
    (hall : ∀ c ∈ name, isalpha c = true) :
    lays_check_loop (name ++ rest) stack = lays_check_loop rest stack := by
  induction name with
  | nil => rfl
  | cons d ds ih =>
    obtain ⟨ho, hc, -, -⟩ := isalpha_class d (hall d (by simp))
    rw [List.cons_append, lays_check_loop_other _ _ _ ho hc]
    exact ih (fun c hc => hall c (by simp [hc]))

theorem incorrect_symbol_letters (name : List Char) (hall : ∀ c ∈ name, isalpha c = true) :
    incorrect_symbol name = true := by
  simp only [incorrect_symbol, List.all_eq_true]
  intro c hc
  simp [hall c hc]

theorem filter_space_letters (name : List Char) (hall : ∀ c ∈ name, isalpha c = true) :
    name.filter (· != ' ') = name := by
  rw [List.filter_eq_self]
  intro c hc
  exact (isalpha_cases c (hall c hc)).2.2.1

theorem starts_number_letters (name rest : List Char) (last : Char)
    (hall : ∀ c ∈ name, isalpha c = true) (hlast : name.getLast? = some last) :
    starts_number (name ++ rest) = false ∧ starts_sign (name ++ rest) = false := by
  cases name with
  | nil => simp at hlast
  | cons d ds =>
    obtain ⟨-, h1, -, -, h2, h3, h4⟩ := isalpha_cases d (hall d (by simp))
    simp [starts_number, starts_sign, h1, h2, h3, h4]

theorem str_tolower_ne_cyrillic (name : List Char) (hall : ∀ c ∈ name, isalpha c = true) :
    str_tolower name ≠ "сtg".toList := by
  cases name with
  | nil => simp [str_tolower]
  | cons d ds =>
    intro h
    have h1 : d.toLower = 'с' := by
      simp only [str_tolower, List.map_cons] at h
      exact (List.cons.inj h).1
    have h2 := (isalpha_cases d (hall d (by simp))).1
    rw [h1] at h2
    exact absurd h2 (by decide)

theorem process_function1_unknown (L : Libm) (stack : List ℚ) (func : List Char) (arg : ℚ)
    (h : func ∉ function_names) (hc : func ≠ "сtg".toList) :
    process_function1 L stack func arg = .error .unknownFn := by
  simp only [function_names, List.mem_cons, List.mem_singleton, List.mem_nil_iff, or_false,
    not_or] at h
  obtain ⟨h1, h2, h3, -, h5, h6, h7, h8, h9, h10, -, -, -⟩ := h
  simp only [process_function1, h1, h2, h3, hc, h5, h6, h7, h8, h9, h10, if_false]

/-! ## A call with one literal argument -/

theorem calc_bracketed_convertible (L : Libm) (fuel : Nat) (o c : Char) (n : List Char)
    (hv : is_convertible n = true) (hp : (o, c) ∈ bracket_pairs) :
    parser_calc L (fuel + 6) (o :: (n ++ [c])) = .ok (fl L (digits_value n : ℚ)) := by
  have hn := is_convertible_digits n hv
  obtain ⟨hc, ho⟩ := (pair_iff o c).1 hp
  have hoo : open_brackets o = true := by
    subst ho
    simp only [close_brackets, Bool.or_eq_true, beq_iff_eq] at hc
    rcases hc with (h | h) | h <;> subst h <;> decide
  have v1 : lays_check (o :: (n ++ [c])) = true := by
    rw [lays_check, lays_check_loop_open _ _ _ hoo, lays_check_loop_digits _ _ _ (is_digits_all n hn),
      lays_check_loop_close _ _ _ hc]
    simp [ho, lays_check_loop]
  have v2 : incorrect_symbol (o :: (n ++ [c])) = true := by
    rw [incorrect_symbol_cons _ _ (open_allowed o hoo).1, incorrect_symbol_append,
      incorrect_symbol_digits _ hn, (close_allowed c hc).1]
    rfl
  have v3 : (o :: (n ++ [c])).filter (· != ' ') = o :: (n ++ [c]) := by
    rw [filter_space_cons _ _ (open_allowed o hoo).2.1, List.filter_append,
      filter_space_digits _ hn, filter_space_cons _ _ (close_allowed c hc).2.1,
      List.filter_nil]
  rw [calc_enter L _ _ v1 v2 v3, scan_zero_other _ _ _ ((open_allowed _ hoo).2.2 _),
    scan_open _ _ _ _ _ _ _ hoo (starts_sign_digits_append _ _ hn),
    scan_convertible _ _ _ _ _ _ _ hv ((close_allowed _ hc).2.2 _),
    scan_close _ _ _ _ _ _ _ hc,
    reduce_to_open_stop _ _ _ _ _ (open_key_key o hoo), ok_bind, scan_end]
  rfl

theorem calc_bracketed_literal (L : Libm) (fuel : Nat) (o c : Char) (n : List Char)
    (hn : is_literal n = true) (hp : (o, c) ∈ bracket_pairs) :
    parser_calc L (fuel + 6) (o :: (n ++ [c])) = .ok (digits_value n : ℚ) := by
  rw [calc_bracketed_convertible L fuel o c n (is_literal_convertible n hn) hp,
    fl_exact L _ (is_literal_exact n hn)]

theorem single_shape (o c : Char) (n rest : List Char) :
    (o :: (n ++ c :: rest)).take (n.length + 1 + 1) = o :: (n ++ [c]) ∧
      ((o :: (n ++ c :: rest)).drop 1).take (n.length + 1 - 1) = n ∧
      (o :: (n ++ c :: rest)).get? (n.length + 1) = some c ∧
      (o :: (n ++ c :: rest)).drop (n.length + 1 + 1) = rest := by
  have e1 : o :: (n ++ c :: rest) = (o :: (n ++ [c])) ++ rest := by simp
  have l1 : (o :: (n ++ [c])).length = n.length + 1 + 1 := by simp
  have e3 : o :: (n ++ c :: rest) = (o :: n) ++ (c :: rest) := by simp
  have l3 : (o :: n).length = n.length + 1 := by simp
  refine ⟨?_, ?_, ?_, ?_⟩
  · rw [e1, List.take_left' l1]
  · rw [List.drop_one, List.tail_cons, Nat.add_sub_cancel, List.take_left' rfl]
  · rw [e3, ← l3, List.get?_eq_getElem?, List.getElem?_append_right (le_refl _)]
    simp
  · rw [e1, List.drop_left' l1]

theorem find_bracket_single (o c : Char) (n rest : List Char) (hn : is_digits n = true)
    (ho : open_brackets o = true) (hc : close_brackets c = true) :
    find_bracket (o :: (n ++ c :: rest)) = .ok (some (n.length + 1)) := by
  rw [find_bracket, find_bracket_loop_open _ _ _ _ ho,
    find_bracket_loop_digits _ _ _ _ (is_digits_all n hn),
    find_bracket_loop_last _ _ _ _ hc]
  congr 2
  omega

theorem scan_call1_convertible (L : Libm) (fuel : Nat) (prev : Option Char)
    (name n rest : List Char) (o c last : Char) (oper : List Int) (stack : List ℚ)
    (hname : ∀ ch ∈ name, isalpha ch = true) (hlast : name.getLast? = some last)
    (hcase : last.toLower ≠ 'i' ∧ last.toLower ≠ 'e')
    (hv : is_convertible n = true) (hp : (o, c) ∈ bracket_pairs) :
    scan L (fuel + 6 + 1) prev (name ++ o :: (n ++ c :: rest)) oper stack =
      (process_function1 L stack (str_tolower name) (fl L (digits_value n)) >>=
        fun stack => scan L (fuel + 6) (some c) rest oper stack) := by
  have hn := is_convertible_digits n hv
  obtain ⟨hc, ho⟩ := (pair_iff o c).1 hp
  have hoo : open_brackets o = true := by
    subst ho
    simp only [close_brackets, Bool.or_eq_true, beq_iff_eq] at hc
    rcases hc with (h | h) | h <;> subst h <;> decide
  have hoa : isalpha o = false := by
    simp only [open_brackets, Bool.or_eq_true, beq_iff_eq] at hoo
    rcases hoo with (h | h) | h <;> subst h <;> decide
  obtain ⟨s1, s2, s3, s4⟩ := single_shape o c n rest
  have hmem : ',' ∉ n := fun h => isdigit_ne ',' ',' (is_digits_all n hn _ h) (by decide) rfl
  rw [scan_call L (fuel + 6) prev name _ oper stack _ last hname hlast hcase
    (by simpa using hoa) (find_bracket_single o c n rest hn hoo hc), s1, s2, s3, s4,
    calc_bracketed_convertible L fuel o c n hv hp, ok_bind, if_pos hmem]

theorem calc_call1_convertible (L : Libm) (fuel : Nat) (name n : List Char) (o c last : Char)
    (hname : ∀ ch ∈ name, isalpha ch = true) (hlast : name.getLast? = some last)
    (hcase : last.toLower ≠ 'i' ∧ last.toLower ≠ 'e')
    (hv : is_convertible n = true) (hp : (o, c) ∈ bracket_pairs) :
    parser_calc L (fuel + 9) (name ++ o :: (n ++ [c])) =
      (process_function1 L [0] (str_tolower name) (fl L (digits_value n)) >>=
        fun stack => scan L (fuel + 6) (some c) [] [] stack) := by
  have hn := is_convertible_digits n hv
  obtain ⟨hc, ho⟩ := (pair_iff o c).1 hp
  have hoo : open_brackets o = true := by
    subst ho
    simp only [close_brackets, Bool.or_eq_true, beq_iff_eq] at hc
    rcases hc with (h | h) | h <;> subst h <;> decide
  have v1 : lays_check (name ++ o :: (n ++ [c])) = true := by
    rw [lays_check, lays_check_loop_letters _ _ _ hname, lays_check_loop_open _ _ _ hoo,
      lays_check_loop_digits _ _ _ (is_digits_all n hn), lays_check_loop_close _ _ _ hc]
    simp [ho, lays_check_loop]
  have v2 : incorrect_symbol (name ++ o :: (n ++ [c])) = true := by
    rw [incorrect_symbol_append, incorrect_symbol_letters _ hname,
      incorrect_symbol_cons _ _ (open_allowed o hoo).1, incorrect_symbol_append,
      incorrect_symbol_digits _ hn, (close_allowed c hc).1]
    rfl
  have v3 : (name ++ o :: (n ++ [c])).filter (· != ' ') = name ++ o :: (n ++ [c]) := by
    rw [List.filter_append, filter_space_letters _ hname,
      filter_space_cons _ _ (open_allowed o hoo).2.1, List.filter_append,
      filter_space_digits _ hn, filter_space_cons _ _ (close_allowed c hc).2.1,
      List.filter_nil]
  rw [calc_enter L _ _ v1 v2 v3,
    scan_zero_other _ _ _ (starts_number_letters name _ last hname hlast).1,
    scan_call1_convertible L fuel _ name n [] o c last [] [0] hname hlast hcase hv hp]

theorem calc_call1_literal (L : Libm) (fuel : Nat) (name n : List Char) (o c last : Char)
    (hname : ∀ ch ∈ name, isalpha ch = true) (hlast : name.getLast? = some last)
    (hcase : last.toLower ≠ 'i' ∧ last.toLower ≠ 'e')
    (hn : is_literal n = true) (hp : (o, c) ∈ bracket_pairs) :
    parser_calc L (fuel + 9) (name ++ o :: (n ++ [c])) =
      (process_function1 L [0] (str_tolower name) (digits_value n) >>=
        fun stack => scan L (fuel + 6) (some c) [] [] stack) := by
  rw [calc_call1_convertible L fuel name n o c last hname hlast hcase
    (is_literal_convertible n hn) hp, fl_exact L _ (is_literal_exact n hn)]

theorem scan_identifier_not_constant (L : Libm) (fuel : Nat) (prev : Option Char)
    (name tail : List Char) (oper : List Int) (stack : List ℚ) (last : Char)
    (hname : ∀ ch ∈ name, isalpha ch = true) (hlast : name.getLast? = some last)
    (hcase : last.toLower = 'i' ∨ last.toLower = 'e')
    (htail : ∀ ch ∈ tail.head?, isalpha ch = false)
    (hnot : str_tolower name ∉ constant_names) :
    scan L (fuel + 1) prev (name ++ tail) oper stack = .error .symbol := by
  have h1 := takeWhile_run isalpha name tail hname htail
  have h2 := dropWhile_run isalpha name tail hname htail
  simp only [constant_names, List.mem_cons, List.mem_singleton, List.mem_nil_iff, or_false,
    not_or] at hnot
  cases name with
  | nil => simp at hlast
  | cons ch name' =>
    have hch : isalpha ch = true := hname ch (by simp)
    obtain ⟨hno, hnc, hnop, hcomma⟩ := isalpha_class ch hch
    rw [List.cons_append] at h1 h2 ⊢
    rw [scan_succ]
    simp only [scan_step, hno, hnc, hnop, hcomma, hch, h1, h2, hlast, Option.getD_some]
    simp only [Bool.or_self, Bool.false_eq_true, if_false, if_true, hcase, hnot.1, hnot.2]

/-! ## Operand-stack underflow -/

theorem exec_binary_underflow (L : Libm) (fuel : Nat) (op : Char) (x : ℚ)
    (h : op ∈ binary_operator_glyphs) :
    is_operation op = true ∧ process_operation L fuel [x] (key op) = .error .undefined := by
  simp only [binary_operator_glyphs, List.mem_cons, List.mem_singleton, List.mem_nil_iff,
    or_false] at h
  rcases h with h | h | h | h | h | h | h <;> subst h <;> exact ⟨by decide, rfl⟩

theorem calc_operator_at_end (L : Libm) (fuel : Nat) (n : List Char) (op : Char)
    (hc : is_convertible n = true) (hop : op ∈ binary_operator_glyphs) :
    parser_calc L (fuel + 4) (n ++ [op]) = .error .undefined := by
  have hn := is_convertible_digits n hc
  obtain ⟨o1, hex⟩ := exec_binary_underflow L fuel op (fl L (digits_value n)) hop
  obtain ⟨n1, c1, -⟩ := is_operation_not_bracket op o1
  have v1 : lays_check (n ++ [op]) = true := by
    rw [lays_check, lays_check_loop_digits _ _ _ (is_digits_all n hn),
      lays_check_loop_other _ _ _ n1 c1]
    rfl
  have v2 : incorrect_symbol (n ++ [op]) = true := by
    rw [incorrect_symbol_append, incorrect_symbol_digits _ hn, (operation_allowed op o1).1]
    rfl
  have v3 : (n ++ [op]).filter (· != ' ') = n ++ [op] := by
    rw [List.filter_append, filter_space_digits _ hn,
      filter_space_cons _ _ (operation_allowed op o1).2.1, List.filter_nil]
  rw [calc_enter L _ _ v1 v2 v3,
    scan_zero_convertible _ _ _ _ hc ((operation_allowed op o1).2.2 _),
    scan_binary _ _ _ _ _ _ _ o1 (binary_after_digits _ _ hn), reduce_prior_nil, ok_bind,
    scan_end, reduce_all_cons, hex, error_bind, error_bind]

/-! ## Removal of the spaces -/

theorem scan_number (L : Libm) (fuel : Nat) (prev : Option Char) (run rest : List Char)
    (oper : List Int) (stack : List ℚ) (v : ℚ)
    (hrun : ∀ c ∈ run, (isdigit c || c == '.') = true) (hne : run ≠ [])
    (hr : starts_number rest = false) (hv : stod L run = .ok v) :
    scan L (fuel + 1) prev (run ++ rest) oper stack =
      scan L fuel run.getLast? rest oper (v :: stack) := by
  have h1 := takeWhile_run (fun c => isdigit c || c == '.') run rest hrun
    (starts_number_head rest hr)
  have h2 := dropWhile_run (fun c => isdigit c || c == '.') run rest hrun
    (starts_number_head rest hr)
  cases run with
  | nil => exact absurd rfl hne
  | cons d ds =>
    have hd : (isdigit d || d == '.') = true := hrun d (by simp)
    have hclass : open_brackets d = false ∧ close_brackets d = false ∧
        is_operation d = false ∧ isalpha d = false ∧ (d == ',') = false := by
      rcases Bool.or_eq_true_iff.1 hd with h | h
      · exact ⟨isdigit_not_open d h, isdigit_not_close d h, isdigit_not_operation d h,
          isdigit_not_alpha d h, by simpa using isdigit_ne d ',' h (by decide)⟩
      · have e : d = '.' := by simpa using h
        subst e
        exact ⟨by decide, by decide, by decide, by decide, by decide⟩
    obtain ⟨c1, c2, c3, c4, c5⟩ := hclass
    rw [List.cons_append] at h1 h2 ⊢
    rw [scan_succ]
    simp only [scan_step, c1, c2, c3, c4, c5, h1, h2, hv]
    simp

theorem exact_double_neg_one : exact_double (-1 : ℚ) = true := by
  have := exact_double_intCast (-1) (by decide)
  simpa using this

theorem fl_negative (L : Libm) (q : ℚ) (h : q < 0) : fl L (q - 1) < 0 := by
  by_cases he : exact_double (q - 1) = true
  · rw [fl_exact L _ he]
    linarith
  · rw [fl, if_neg he]
    have := L.round_le (q - 1) (-1) exact_double_neg_one (by norm_num) (by linarith)
    linarith

theorem fact_negative (L : Libm) (fuel : Nat) (q : ℚ) (h : q < 0) :
    fact L fuel q = .error .fuel := by
  induction fuel generalizing q with
  | zero => rfl
  | succ fuel ih =>
    rw [fact, if_neg (ne_of_lt h), ih _ (fl_negative L q h)]
    rfl

theorem exact_double_half : exact_double (1 / 2 : ℚ) = true := by
  have hn : (1 / 2 : ℚ).num = 1 := by norm_num
  have hd : (1 / 2 : ℚ).den = 2 := by norm_num
  rw [exact_double, hn, hd]
  decide

theorem fact_half (L : Libm) (fuel : Nat) : fact L fuel (1 / 2 : ℚ) = .error .fuel := by
  cases fuel with
  | zero => rfl
  | succ fuel =>
    have h0 : (1 / 2 : ℚ) ≠ 0 := by norm_num
    have e : (1 / 2 : ℚ) - 1 = -(1 / 2) := by norm_num
    rw [fact, if_neg h0, e, fl_exact L _ (by rw [exact_double_neg]; exact exact_double_half),
      fact_negative L fuel _ (by norm_num)]
    rfl

/-! ## The value returned is the top of the final operand stack -/

theorem scan_step_top (L : Libm) (fuel : Nat) (calc_rec : List Char → Res ℚ)
    (k : Option Char → List Char → List Int → List ℚ → Res (List ℚ))
    (prev : Option Char) (text : List Char) (oper : List Int) (stack : List ℚ) :
    scan_step L fuel calc_rec (fun p t o s => k p t o s >>= stack_top) prev text oper stack =
      (stack_step L fuel calc_rec k prev text oper stack >>= stack_top) := by
  cases text with
  | nil =>
    simp only [scan_step, stack_step]
    cases reduce_all L fuel oper stack with
    | error e => rfl
    | ok st => cases st <;> rfl
  | cons ch rest =>
    simp only [scan_step, stack_step]
    repeat' split
    all_goals first | rfl | simp only [bind_assoc]

theorem scan_eq_top (L : Libm) (fuel : Nat) :
    ∀ (prev : Option Char) (text : List Char) (oper : List Int) (stack : List ℚ),
      scan L fuel prev text oper stack =
        (scan_stack L fuel prev text oper stack >>= stack_top) := by
  induction fuel with
  | zero => intro prev text oper stack; rfl
  | succ fuel ih =>
    intro prev text oper stack
    have e : scan L fuel = fun p t o s => scan_stack L fuel p t o s >>= stack_top := by
      funext p t o s
      exact ih p t o s
    rw [scan_succ, e, scan_step_top]
    rfl

theorem calc_eq_top (L : Libm) (fuel : Nat) (expr : List Char) :
    parser_calc L fuel expr = (calc_stack L fuel expr >>= stack_top) := by
  cases fuel with
  | zero => rfl
  | succ fuel =>
    rw [parser_calc, calc_stack]
    split
    · rfl
    · split
      · rfl
      · exact scan_eq_top L fuel _ _ _ _

/-! ## Steps of the scan that keeps the operand stack -/

theorem scan_stack_succ (L : Libm) (fuel : Nat) (prev : Option Char) (text : List Char)
    (oper : List Int) (stack : List ℚ) :
    scan_stack L (fuel + 1) prev text oper stack =
      stack_step L fuel (parser_calc L fuel) (scan_stack L fuel) prev text oper stack := rfl

theorem scan_stack_literal (L : Libm) (fuel : Nat) (prev : Option Char) (ds rest : List Char)
    (oper : List Int) (stack : List ℚ) (h : is_literal ds = true)
    (hr : starts_number rest = false) :
    scan_stack L (fuel + 1) prev (ds ++ rest) oper stack =
      scan_stack L fuel ds.getLast? rest oper ((digits_value ds : ℚ) :: stack) := by
  have hall : ∀ c ∈ ds, (isdigit c || c == '.') = true := fun c hc => by
    simp [is_literal_all ds h c hc]
  have h1 := takeWhile_run (fun c => isdigit c || c == '.') ds rest hall
    (starts_number_head rest hr)
  have h2 := dropWhile_run (fun c => isdigit c || c == '.') ds rest hall
    (starts_number_head rest hr)
  have h3 := stod_literal L ds h
  obtain ⟨d, ds', rfl, hd, -⟩ := is_literal_cons ds h
  rw [List.cons_append] at h1 h2 ⊢
  have hc : (d == ',') = false := by simpa using isdigit_ne d ',' hd (by decide)
  rw [scan_stack_succ]
  simp only [stack_step, isdigit_not_open d hd, isdigit_not_close d hd,
    isdigit_not_operation d hd, isdigit_not_alpha d hd, h1, h2, h3, hc]
  simp

theorem scan_stack_end (L : Libm) (fuel : Nat) (prev : Option Char) (oper : List Int)
    (stack : List ℚ) :
    scan_stack L (fuel + 1) prev [] oper stack = reduce_all L fuel oper stack := rfl

theorem scan_stack_open (L : Libm) (fuel : Nat) (prev : Option Char) (ch : Char)
    (rest : List Char)
    (oper : List Int) (stack : List ℚ) (ho : open_brackets ch = true)
    (hn : starts_sign rest = false) :
    scan_stack L (fuel + 1) prev (ch :: rest) oper stack =
      scan_stack L fuel (some ch) rest (key ch :: oper) stack := by
  rw [scan_stack_succ]
  cases rest with
  | nil => simp only [stack_step, ho, if_true]
  | cons c r =>
    have h : ¬ (c = '+' ∨ c = '-') := by simpa [starts_sign] using hn
    simp only [stack_step, ho, if_true, h, if_false]

theorem scan_stack_close (L : Libm) (fuel : Nat) (prev : Option Char) (ch : Char)
    (rest : List Char)
    (oper : List Int) (stack : List ℚ) (hc : close_brackets ch = true) :
    scan_stack L (fuel + 1) prev (ch :: rest) oper stack =
      (reduce_to_open L fuel oper stack >>= fun p =>
        scan_stack L fuel (some ch) rest p.1.tail p.2) := by
  rw [scan_stack_succ]
  simp only [stack_step, close_not_open ch hc, hc, Bool.true_or, if_true, Bool.false_eq_true,
    if_false]

theorem scan_stack_binary (L : Libm) (fuel : Nat) (prev : Option Char) (ch : Char)
    (rest : List Char)
    (oper : List Int) (stack : List ℚ) (hop : is_operation ch = true)
    (hb : ((ch == '+' || ch == '-') && sign_is_unary prev) = false) :
    scan_stack L (fuel + 1) prev (ch :: rest) oper stack =
      (reduce_prior L fuel (key ch) oper stack >>= fun p =>
        scan_stack L fuel (some ch) rest (key ch :: p.1) p.2) := by
  obtain ⟨h1, h2, h3⟩ := is_operation_not_bracket ch hop
  have h : ¬ ((ch = '+' ∨ ch = '-') ∧ sign_is_unary prev = true) := by
    simpa using hb
  rw [scan_stack_succ]
  simp only [stack_step, h1, h2, h3, hop, h, Bool.or_self, Bool.false_eq_true, if_false, if_true]

theorem calc_stack_enter (L : Libm) (fuel : Nat) (expr : List Char) (h1 : lays_check expr = true)
    (h2 : incorrect_symbol expr = true) (h3 : expr.filter (· != ' ') = expr) :
    calc_stack L (fuel + 1) expr = scan_stack L fuel none ('0' :: expr) [] [] := by
  rw [calc_stack, h1, h2, h3]
  rfl


/-! ## Two stacked prefix signs -/

theorem calc_stacked_signs (L : Libm) (fuel : Nat) (a b : List Char) (s1 s2 s3 : Char)
    (ha : is_literal a = true) (hb : is_literal b = true)
    (h1 : s1 = '+' ∨ s1 = '-') (h2 : s2 = '+' ∨ s2 = '-') (h3 : s3 = '+' ∨ s3 = '-') :
    parser_calc L (fuel + 7) (a ++ s1 :: s2 :: s3 :: b) =
      .ok (fl L (signed s2 (digits_value a) + signed s1 (signed s3 (digits_value b)))) := by
  obtain ⟨o1, p1, -, -, -, -, -⟩ := sign_class s1 h1
  obtain ⟨o2, -, u2, -, -, -, b2⟩ := sign_class s2 h2
  obtain ⟨o3, -, u3, -, -, -, b3⟩ := sign_class s3 h3
  obtain ⟨n1, c1, -⟩ := is_operation_not_bracket s1 o1
  obtain ⟨n2, c2, -⟩ := is_operation_not_bracket s2 o2
  obtain ⟨n3, c3, -⟩ := is_operation_not_bracket s3 o3
  have v1 : lays_check (a ++ s1 :: s2 :: s3 :: b) = true := by
    have e : a ++ s1 :: s2 :: s3 :: b = a ++ s1 :: s2 :: s3 :: (b ++ []) := by simp
    rw [e, lays_check, lays_check_loop_literal _ _ _ ha, lays_check_loop_other _ _ _ n1 c1,
      lays_check_loop_other _ _ _ n2 c2, lays_check_loop_other _ _ _ n3 c3,
      lays_check_loop_literal _ _ _ hb]
    rfl
  have v2 : incorrect_symbol (a ++ s1 :: s2 :: s3 :: b) = true := by
    rw [incorrect_symbol_append, incorrect_symbol_literal _ ha,
      incorrect_symbol_cons _ _ (operation_allowed s1 o1).1,
      incorrect_symbol_cons _ _ (operation_allowed s2 o2).1,
      incorrect_symbol_cons _ _ (operation_allowed s3 o3).1, incorrect_symbol_literal _ hb]
    rfl
  have v3 : (a ++ s1 :: s2 :: s3 :: b).filter (· != ' ') = a ++ s1 :: s2 :: s3 :: b := by
    rw [List.filter_append, filter_space_literal _ ha,
      filter_space_cons _ _ (operation_allowed s1 o1).2.1,
      filter_space_cons _ _ (operation_allowed s2 o2).2.1,
      filter_space_cons _ _ (operation_allowed s3 o3).2.1, filter_space_literal _ hb]
  have un : ∀ s : Char, s = '+' ∨ s = '-' → sign_is_unary (some s) = true := by
    intro s hs
    rcases hs with h | h <;> subst h <;> decide
  rw [calc_enter L _ _ v1 v2 v3,
    scan_zero_literal _ _ _ _ ha ((operation_allowed s1 o1).2.2 _),
    scan_binary _ _ _ _ _ _ _ o1 (binary_after_literal _ _ ha), reduce_prior_nil, ok_bind,
    scan_unary _ _ _ _ _ _ _ o2 (by rw [b2, un s1 h1]; rfl),
    reduce_prior_stop _ _ _ _ _ _ (by rw [p1, u2]; decide), ok_bind,
    scan_unary _ _ _ _ _ _ _ o3 (by rw [b3, un s2 h2]; rfl),
    reduce_prior_apply _ _ _ _ _ _ (by rw [u2, u3]), exec_sign_unary _ _ _ h2, ok_bind,
    reduce_prior_stop _ _ _ _ _ _ (by rw [p1, u3]; decide), ok_bind,
    scan_literal_end _ _ _ _ _ _ hb, scan_end, reduce_all_cons, exec_sign_unary _ _ _ h3,
    ok_bind, reduce_all_cons, exec_sign_binary _ _ _ h1, ok_bind, reduce_all_nil, ok_bind]

/-! ## Numbers beyond the range of `double` -/

theorem scan_out_of_range (L : Libm) (fuel : Nat) (prev : Option Char) (ds rest : List Char)
    (oper : List Int) (stack : List ℚ) (h : is_digits ds = true)
    (hb : overflow_bound ≤ digits_value ds) (hr : starts_number rest = false) :
    scan L (fuel + 1) prev (ds ++ rest) oper stack = .error .range := by
  have hall : ∀ c ∈ ds, (isdigit c || c == '.') = true := fun c hc => by
    simp [is_digits_all ds h c hc]
  have h1 := takeWhile_run (fun c => isdigit c || c == '.') ds rest hall (starts_number_head rest hr)
  have h2 := dropWhile_run (fun c => isdigit c || c == '.') ds rest hall (starts_number_head rest hr)
  have h3 := stod_out_of_range L ds h hb
  obtain ⟨d, ds', rfl, hd, -⟩ := is_digits_cons ds h
  rw [List.cons_append] at h1 h2 ⊢
  have hc : (d == ',') = false := by simpa using isdigit_ne d ',' hd (by decide)
  rw [scan_succ]
  simp only [scan_step, isdigit_not_open d hd, isdigit_not_close d hd, isdigit_not_operation d hd,
    isdigit_not_alpha d hd, h1, h2, h3, hc]
  simp

theorem scan_zero_out_of_range (L : Libm) (fuel : Nat) (ds rest : List Char)
    (h : is_digits ds = true) (hb : overflow_bound ≤ digits_value ds)
    (hr : starts_number rest = false) :
    scan L (fuel + 1) none ('0' :: (ds ++ rest)) [] [] = .error .range := by
  have e : '0' :: (ds ++ rest) = ('0' :: ds) ++ rest := rfl
  rw [e, scan_out_of_range L fuel none _ rest [] [] (is_digits_zero_cons ds h)
    (by rw [digits_value_zero_cons]; exact hb) hr]

theorem calc_bracketed_out_of_range (L : Libm) (fuel : Nat) (o c : Char) (n : List Char)
    (hn : is_digits n = true) (hb : overflow_bound ≤ digits_value n)
    (hp : (o, c) ∈ bracket_pairs) :
    parser_calc L (fuel + 4) (o :: (n ++ [c])) = .error .range := by
  obtain ⟨hc, ho⟩ := (pair_iff o c).1 hp
  have hoo : open_brackets o = true := by
    subst ho
    simp only [close_brackets, Bool.or_eq_true, beq_iff_eq] at hc
    rcases hc with (h | h) | h <;> subst h <;> decide
  have v1 : lays_check (o :: (n ++ [c])) = true := by
    rw [lays_check, lays_check_loop_open _ _ _ hoo,
      lays_check_loop_digits _ _ _ (is_digits_all n hn), lays_check_loop_close _ _ _ hc]
    simp [ho, lays_check_loop]
  have v2 : incorrect_symbol (o :: (n ++ [c])) = true := by
    rw [incorrect_symbol_cons _ _ (open_allowed o hoo).1, incorrect_symbol_append,
      incorrect_symbol_digits _ hn, (close_allowed c hc).1]
    rfl
  have v3 : (o :: (n ++ [c])).filter (· != ' ') = o :: (n ++ [c]) := by
    rw [filter_space_cons _ _ (open_allowed o hoo).2.1, List.filter_append,
      filter_space_digits _ hn, filter_space_cons _ _ (close_allowed c hc).2.1,
      List.filter_nil]
  rw [calc_enter L _ _ v1 v2 v3, scan_zero_other _ _ _ ((open_allowed _ hoo).2.2 _),
    scan_open _ _ _ _ _ _ _ hoo (starts_sign_digits_append _ _ hn),
    scan_out_of_range _ _ _ _ _ _ _ hn hb ((close_allowed _ hc).2.2 _)]

theorem calc_call1_out_of_range (L : Libm) (fuel : Nat) (name n : List Char) (o c last : Char)
    (hname : ∀ ch ∈ name, isalpha ch = true) (hlast : name.getLast? = some last)
    (hcase : last.toLower ≠ 'i' ∧ last.toLower ≠ 'e')
    (hn : is_digits n = true) (hb : overflow_bound ≤ digits_value n)
    (hp : (o, c) ∈ bracket_pairs) :
    parser_calc L (fuel + 7) (name ++ o :: (n ++ [c])) = .error .range := by
  obtain ⟨hc, ho⟩ := (pair_iff o c).1 hp
  have hoo : open_brackets o = true := by
    subst ho
    simp only [close_brackets, Bool.or_eq_true, beq_iff_eq] at hc
    rcases hc with (h | h) | h <;> subst h <;> decide
  have hoa : isalpha o = false := by
    simp only [open_brackets, Bool.or_eq_true, beq_iff_eq] at hoo
    rcases hoo with (h | h) | h <;> subst h <;> decide
  have v1 : lays_check (name ++ o :: (n ++ [c])) = true := by
    rw [lays_check, lays_check_loop_letters _ _ _ hname, lays_check_loop_open _ _ _ hoo,
      lays_check_loop_digits _ _ _ (is_digits_all n hn), lays_check_loop_close _ _ _ hc]
    simp [ho, lays_check_loop]
  have v2 : incorrect_symbol (name ++ o :: (n ++ [c])) = true := by
    rw [incorrect_symbol_append, incorrect_symbol_letters _ hname,
      incorrect_symbol_cons _ _ (open_allowed o hoo).1, incorrect_symbol_append,
      incorrect_symbol_digits _ hn, (close_allowed c hc).1]
    rfl
  have v3 : (name ++ o :: (n ++ [c])).filter (· != ' ') = name ++ o :: (n ++ [c]) := by
    rw [List.filter_append, filter_space_letters _ hname,
      filter_space_cons _ _ (open_allowed o hoo).2.1, List.filter_append,
      filter_space_digits _ hn, filter_space_cons _ _ (close_allowed c hc).2.1,
      List.filter_nil]
  obtain ⟨s1, -, -, -⟩ := single_shape o c n []
  rw [calc_enter L _ _ v1 v2 v3,
    scan_zero_other _ _ _ (starts_number_letters name _ last hname hlast).1,
    scan_call L (fuel + 4) _ name _ [] [0] _ last hname hlast hcase
      (by simpa using hoa) (find_bracket_single o c n [] hn hoo hc), s1,
    calc_bracketed_out_of_range L fuel o c n hn hb hp, error_bind]

theorem calc_out_of_range (L : Libm) (fuel : Nat) (n rest : List Char)
    (hn : is_digits n = true) (hb : overflow_bound ≤ digits_value n)
    (hr : starts_number rest = false) (v1 : lays_check rest = true)
    (v2 : incorrect_symbol rest = true) (v3 : rest.filter (· != ' ') = rest) :
    parser_calc L (fuel + 2) (n ++ rest) = .error .range := by
  have w1 : lays_check (n ++ rest) = true := by
    rw [lays_check, lays_check_loop_digits _ _ _ (is_digits_all n hn)]
    exact v1
  have w2 : incorrect_symbol (n ++ rest) = true := by
    rw [incorrect_symbol_append, incorrect_symbol_digits _ hn, v2]
    rfl
  have w3 : (n ++ rest).filter (· != ' ') = n ++ rest := by
    rw [List.filter_append, filter_space_digits _ hn, v3]
  rw [calc_enter L _ _ w1 w2 w3, scan_zero_out_of_range _ _ _ _ hn hb hr]

theorem calc_out_of_range_never (L : Libm) (fuel : Nat) (n rest : List Char) (v : ℚ)
    (hn : is_digits n = true) (hb : overflow_bound ≤ digits_value n)
    (hr : starts_number rest = false) (v1 : lays_check rest = true)
    (v2 : incorrect_symbol rest = true) (v3 : rest.filter (· != ' ') = rest) :
    parser_calc L fuel (n ++ rest) ≠ .ok v := by
  have w1 : lays_check (n ++ rest) = true := by
    rw [lays_check, lays_check_loop_digits _ _ _ (is_digits_all n hn)]
    exact v1
  have w2 : incorrect_symbol (n ++ rest) = true := by
    rw [incorrect_symbol_append, incorrect_symbol_digits _ hn, v2]
    rfl
  have w3 : (n ++ rest).filter (· != ' ') = n ++ rest := by
    rw [List.filter_append, filter_space_digits _ hn, v3]
  intro h
  match fuel, h with
  | 0, h => cases h
  | 1, h =>
    rw [calc_enter L 0 _ w1 w2 w3] at h
    cases h
  | fuel + 2, h =>
    rw [calc_out_of_range L fuel n rest hn hb hr v1 v2 v3] at h
    cases h

set_option maxRecDepth 100000 in
theorem beyond_double_digits :
    is_digits beyond_double = true ∧ overflow_bound ≤ digits_value beyond_double := by
  decide

/-! ## Results that are rounded -/

theorem fl_double (L : Libm) (r : ℚ) (h : |r| < overflow_bound) :
    exact_double (fl L r) = true := by
  by_cases he : exact_double r = true
  · rw [fl_exact L r he]
    exact he
  · rw [fl, if_neg he]
    exact L.round_double r h

theorem fl_ne (L : Libm) (r : ℚ) (h : |r| < overflow_bound) (hx : exact_double r = false) :
    fl L r ≠ r := by
  intro e
  have hd := fl_double L r h
  rw [e, hx] at hd
  cases hd

theorem abs_natCast_lt (n : ℕ) (h : n < overflow_bound) : |(n : ℚ)| < overflow_bound := by
  rw [abs_of_nonneg (Nat.cast_nonneg n)]
  exact_mod_cast h

theorem fl_fl (L : Libm) (r : ℚ) (h : |r| < overflow_bound) : fl L (fl L r) = fl L r :=
  fl_exact L _ (fl_double L r h)

theorem exact_ne (r v : ℚ) (hr : exact_double r = true) (hv : exact_double v = false) :
    r ≠ v := by
  intro e
  rw [e, hv] at hr
  cases hr

theorem fl_natCast_double (L : Libm) (n : ℕ) (h : n < overflow_bound) :
    exact_double (fl L (n : ℚ)) = true :=
  fl_double L _ (abs_natCast_lt n h)

theorem fl_natCast_ne (L : Libm) (n : ℕ) (h : n < overflow_bound) (hx : nat_double n = false) :
    fl L (n : ℚ) ≠ n :=
  fl_ne L _ (abs_natCast_lt n h) (by rw [exact_double_natCast_eq, hx])

theorem fact_short (L : Libm) (m k : ℕ) (hk : k ≤ 22) (hm : m ≤ k) :
    fact L m (k : ℚ) = .error .fuel := by
  induction m generalizing k with
  | zero => rfl
  | succ m ih =>
    obtain ⟨j, rfl⟩ : ∃ j, k = j + 1 := ⟨k - 1, by omega⟩
    have hne : ((j + 1 : ℕ) : ℚ) ≠ 0 := by exact_mod_cast Nat.succ_ne_zero j
    have hsub : ((j + 1 : ℕ) : ℚ) - 1 = (j : ℚ) := by push_cast; ring
    rw [fact, if_neg hne, hsub, fl_natCast L j (by omega), ih j (by omega) (by omega)]
    rfl

theorem fact_rounded (L : Libm) (m : ℕ) :
    fact L m 23 = if 24 ≤ m then .ok (fl L ((Nat.factorial 23 : ℕ) : ℚ)) else .error .fuel := by
  cases m with
  | zero => rfl
  | succ m =>
    have hne : (23 : ℚ) ≠ 0 := by norm_num
    have hsub : (23 : ℚ) - 1 = ((22 : ℕ) : ℚ) := by norm_num
    have hmul : (23 : ℚ) * ((Nat.factorial 22 : ℕ) : ℚ) = ((Nat.factorial 23 : ℕ) : ℚ) := by
      rw [Nat.factorial_succ 22]; push_cast; rfl
    rw [fact, if_neg hne, hsub, fl_natCast L 22 (by decide)]
    by_cases h : 24 ≤ m + 1
    · rw [if_pos h, fact_of_le L 22 m (le_refl _) (by omega), ok_bind, hmul]
    · rw [if_neg h, fact_short L m 22 (le_refl _) (by omega)]
      rfl

theorem factorial_rounded (L : Libm) :
    exact_double (fl L ((Nat.factorial 23 : ℕ) : ℚ)) = true ∧
      fl L ((Nat.factorial 23 : ℕ) : ℚ) ≠ ((Nat.factorial 23 : ℕ) : ℚ) :=
  ⟨fl_natCast_double L _ (by decide), fl_natCast_ne L _ (by decide) (by decide)⟩

theorem pow_rounded (L : Libm) :
    pow L 3 40 = L.powr 3 40 ∧ exact_double (L.powr 3 40) = true ∧
      exact_double ((3 : ℚ) ^ 40) = false := by
  have hn : ((40 : ℚ)).num = 40 := rfl
  have hd : ((40 : ℚ)).den = 1 := rfl
  have hv : (3 : ℚ) ^ (40 : ℤ) = ((12157665459056928801 : ℕ) : ℚ) := by norm_num
  have hx : exact_double ((3 : ℚ) ^ (40 : ℤ)) = false := by
    rw [hv, exact_double_natCast_eq]
    decide
  refine ⟨?_, ?_, ?_⟩
  · rw [pow, if_neg]
    rw [hn, hx]
    simp
  · apply L.powr_double 3 40 hd (Or.inl (by norm_num))
    rw [hn, hv]
    exact abs_natCast_lt _ (by decide)
  · have e : (3 : ℚ) ^ 40 = (3 : ℚ) ^ (40 : ℤ) := by norm_num
    rw [e, hx]

/-! ## The claims -/

/-- C1: `lays_check` accepts a text exactly when its bracket glyphs, read left
to right with every other character ignored, form a well-nested word over the
three pairs `()`, `[]` and the curly pair. -/
theorem lays_check_iff_well_nested (s : List Char) :
    lays_check s = true ↔ WellNested (s.filter is_bracket) := by
  constructor
  · intro h
    have := lays_check_loop_closes s [] h
    generalize s.filter is_bracket = t at this
    cases this with
    | done w hw => exact hw
  · intro h
    have := lays_check_loop_skip _ h [] []
    rw [List.append_nil, lays_check_loop_filter] at this
    rw [lays_check, this]; rfl

/-- C2, as the code has it: for natural-number literals `a`, `b`, `c` whose
values are doubles and binary operators `op1`, `op2` among `+ - * / ^`, when
the grouped value is defined (no division by zero, and the exact result of
either operation a double, so that the operation reaches it without
rounding), `calc` on the text `a op1 b op2 c` returns `(a op1 b) op2 c` if the
level of `op2` is at most that of `op1` and `a op1 (b op2 c)` if it is
greater, with the levels 1 for `+ -`, 2 for `* /`, 3 for `^`. -/
theorem calc_precedence_grouping (L : Libm) (a b c : List Char) (op1 op2 : Char) (v : ℚ)
    (fuel : Nat) (da : is_digits a = true) (db : is_digits b = true)
    (dc : is_digits c = true) (ea : exact_double (digits_value a : ℚ) = true)
    (eb : exact_double (digits_value b : ℚ) = true)
    (ec : exact_double (digits_value c : ℚ) = true)
    (h1 : op1 ∈ binary_glyphs) (h2 : op2 ∈ binary_glyphs)
    (hv : grouped_value op1 op2 (digits_value a) (digits_value b) (digits_value c) = some v)
    (hf : 7 ≤ fuel) :
    parser_calc L fuel (a ++ op1 :: (b ++ op2 :: c)) = .ok v := by
  have ha := double_is_literal a da ea
  have hb := double_is_literal b db eb
  have hc := double_is_literal c dc ec
  obtain ⟨fuel, rfl⟩ := Nat.exists_eq_add_of_le hf
  rw [Nat.add_comm 7 fuel]
  obtain ⟨o1, p1⟩ := binary_glyph_operation op1 h1
  obtain ⟨o2, p2⟩ := binary_glyph_operation op2 h2
  obtain ⟨n1, -, -⟩ := is_operation_not_bracket op1 o1
  obtain ⟨n2, -, -⟩ := is_operation_not_bracket op2 o2
  have c1 : close_brackets op1 = false := (is_operation_not_bracket op1 o1).2.1
  have c2 : close_brackets op2 = false := (is_operation_not_bracket op2 o2).2.1
  have v1 : lays_check (a ++ op1 :: (b ++ op2 :: c)) = true := by
    have e : a ++ op1 :: (b ++ op2 :: c) = a ++ op1 :: (b ++ op2 :: (c ++ [])) := by simp
    rw [e, lays_check, lays_check_loop_literal _ _ _ ha, lays_check_loop_other _ _ _ n1 c1,
      lays_check_loop_literal _ _ _ hb, lays_check_loop_other _ _ _ n2 c2,
      lays_check_loop_literal _ _ _ hc]
    rfl
  have v2 : incorrect_symbol (a ++ op1 :: (b ++ op2 :: c)) = true := by
    simp (disch := first | decide | assumption | exact (operation_allowed _ o1).1 |
      exact (operation_allowed _ o2).1) only [incorrect_symbol_append,
      incorrect_symbol_literal, incorrect_symbol_cons]
    rfl
  have v3 : (a ++ op1 :: (b ++ op2 :: c)).filter (· != ' ') = a ++ op1 :: (b ++ op2 :: c) := by
    simp (disch := first | decide | assumption | exact (operation_allowed _ o1).2.1 |
      exact (operation_allowed _ o2).2.1) only [filter_space_literal, List.filter_append,
      filter_space_cons, List.filter_nil]
  rw [calc_enter L _ _ v1 v2 v3, scan_zero_literal _ _ _ _ ha ((operation_allowed _ o1).2.2 _),
    scan_binary _ _ _ _ _ _ _ o1 (binary_after_literal _ _ ha), reduce_prior_nil, ok_bind,
    scan_literal _ _ _ _ _ _ _ hb ((operation_allowed _ o2).2.2 _),
    scan_binary _ _ _ _ _ _ _ o2 (binary_after_literal _ _ hb)]
  by_cases hp : level op2 ≤ level op1
  · rw [grouped_value, if_pos hp] at hv
    cases h3 : binary_value op1 (digits_value a) (digits_value b) with
    | none => rw [h3] at hv; cases hv
    | some r =>
      rw [h3, Option.some_bind] at hv
      rw [reduce_prior_apply _ _ _ _ _ _ (by rw [p1, p2]; exact hp),
        exec_binary _ _ _ _ _ _ _ h1 h3]
      simp only [ok_bind]
      rw [reduce_prior_nil, ok_bind, scan_literal_end _ _ _ _ _ _ hc, scan_end, reduce_all_cons,
        exec_binary _ _ _ _ _ _ _ h2 hv]
      rfl
  · rw [grouped_value, if_neg hp] at hv
    cases h3 : binary_value op2 (digits_value b) (digits_value c) with
    | none => rw [h3] at hv; cases hv
    | some r =>
      rw [h3, Option.some_bind] at hv
      rw [reduce_prior_stop _ _ _ _ _ _ (by rw [p1, p2]; exact Nat.not_le.1 hp), ok_bind,
        scan_literal_end _ _ _ _ _ _ hc, scan_end, reduce_all_cons,
        exec_binary _ _ _ _ _ _ _ h2 h3]
      simp only [ok_bind]
      rw [reduce_all_cons, exec_binary _ _ _ _ _ _ _ h1 hv]
      rfl

/-- The texts `2+3*4`, `2-3-4` and `2^3^2` evaluate to 14, -5 and 64. -/
theorem calc_precedence_grouping_witness :
    parser_calc Libm.zero 7 "2+3*4".toList = .ok 14 ∧
    parser_calc Libm.zero 7 "2-3-4".toList = .ok (-5) ∧
    parser_calc Libm.zero 7 "2^3^2".toList = .ok 64 :=
  have d2 : ((digits_value "2".toList : ℕ) : ℚ) = 2 := by
    rw [(by decide : digits_value "2".toList = 2)]; rfl
  have d3 : ((digits_value "3".toList : ℕ) : ℚ) = 3 := by
    rw [(by decide : digits_value "3".toList = 3)]; rfl
  have d4 : ((digits_value "4".toList : ℕ) : ℚ) = 4 := by
    rw [(by decide : digits_value "4".toList = 4)]; rfl
  have n2 : ((2 : ℕ) : ℚ) = 2 := rfl
  have n3 : ((3 : ℕ) : ℚ) = 3 := rfl
  have x12 : exact_double (12 : ℚ) = true := by
    simpa using exact_double_natCast 12 (by decide)
  have x14 : exact_double (14 : ℚ) = true := by
    simpa using exact_double_natCast 14 (by decide)
  have x8 : exact_double (8 : ℚ) = true := by
    simpa using exact_double_natCast 8 (by decide)
  have x64 : exact_double (64 : ℚ) = true := by
    simpa using exact_double_natCast 64 (by decide)
  have y1 : exact_double (-1 : ℚ) = true := by
    simpa using exact_double_intCast (-1) (by decide)
  have y5 : exact_double (-5 : ℚ) = true := by
    simpa using exact_double_intCast (-5) (by decide)
  have g1 : grouped_value '+' '*' 2 3 4 = some 14 := by
    have e1 : binary_value '*' 3 4 = some 12 :=
      binary_value_eq '*' 3 4 12 (by rw [show exact_value '*' 3 4 = some (3 * 4) from rfl]; norm_num)
        x12 (by norm_num)
    have e2 : binary_value '+' 2 12 = some 14 :=
      binary_value_eq '+' 2 12 14 (by rw [show exact_value '+' 2 12 = some (2 + 12) from rfl]; norm_num)
        x14 (by norm_num)
    rw [grouped_value, if_neg (by decide), e1, Option.some_bind, e2]
  have g2 : grouped_value '-' '-' 2 3 4 = some (-5) := by
    have e1 : binary_value '-' 2 3 = some (-1) :=
      binary_value_eq '-' 2 3 (-1) (by rw [show exact_value '-' 2 3 = some (2 - 3) from rfl]; norm_num)
        y1 (by norm_num)
    have e2 : binary_value '-' (-1) 4 = some (-5) :=
      binary_value_eq '-' (-1) 4 (-5)
        (by rw [show exact_value '-' (-1) 4 = some (-1 - 4) from rfl]; norm_num) y5 (by norm_num)
    rw [grouped_value, if_pos (by decide), e1, Option.some_bind, e2]
  have g3 : grouped_value '^' '^' 2 3 2 = some 64 := by
    have e1 : binary_value '^' 2 3 = some 8 :=
      binary_value_eq '^' 2 3 8 (by rw [← n3, exact_value_pow_natCast]; norm_num) x8 (by norm_num)
    have e2 : binary_value '^' 8 2 = some 64 :=
      binary_value_eq '^' 8 2 64 (by rw [← n2, exact_value_pow_natCast]; norm_num) x64
        (by norm_num)
    rw [grouped_value, if_pos (by decide), e1, Option.some_bind, e2]
  ⟨calc_precedence_grouping Libm.zero "2".toList "3".toList "4".toList '+' '*' 14 7 (by decide)
      (by decide) (by decide) (exact_double_natCast _ (by decide))
      (exact_double_natCast _ (by decide)) (exact_double_natCast _ (by decide)) (by decide)
      (by decide)
      (by rw [d2, d3, d4]; exact g1) (le_refl _),
   calc_precedence_grouping Libm.zero "2".toList "3".toList "4".toList '-' '-' (-5) 7 (by decide)
      (by decide) (by decide) (exact_double_natCast _ (by decide))
      (exact_double_natCast _ (by decide)) (exact_double_natCast _ (by decide)) (by decide)
      (by decide)
      (by rw [d2, d3, d4]; exact g2) (le_refl _),
   calc_precedence_grouping Libm.zero "2".toList "3".toList "2".toList '^' '^' 64 7 (by decide)
      (by decide) (by decide) (exact_double_natCast _ (by decide))
      (exact_double_natCast _ (by decide)) (exact_double_natCast _ (by decide)) (by decide)
      (by decide)
      (by rw [d2, d3]; exact g3) (le_refl _)⟩

/-- C2 as stated fails.  The run of 310 digits `beyond_double` is a
natural-number literal, yet on the text made of it and `+1+1` the conversion
`std::stod` throws `std::out_of_range`, and with no amount of fuel does `calc`
return a value.  And on the text `9007199254740993+0+0`, where the claim
promises 9007199254740993, `calc` returns a double, which that number, `2 ^ 53
+ 1`, is not: the conversion of the first literal rounds it. -/
theorem calc_grouping_beyond_double :
    is_digits beyond_double = true ∧
    (∀ (L : Libm) (fuel : Nat),
      parser_calc L (fuel + 2) (beyond_double ++ "+1+1".toList) = .error .range) ∧
    (∀ (L : Libm) (fuel : Nat) (v : ℚ),
      parser_calc L fuel (beyond_double ++ "+1+1".toList) ≠ .ok v) ∧
    (∀ (L : Libm) (fuel : Nat), ∃ r : ℚ,
      parser_calc L (fuel + 7) "9007199254740993+0+0".toList = .ok r ∧
        exact_double r = true) ∧
    (∀ (L : Libm) (fuel : Nat),
      parser_calc L fuel "9007199254740993+0+0".toList ≠ .ok 9007199254740993) ∧
    exact_double (9007199254740993 : ℚ) = false ∧
    grouped_value '+' '+' (digits_value "9007199254740993".toList) (digits_value "0".toList)
      (digits_value "0".toList) = none := by
  have hd : ((digits_value "9007199254740993".toList : ℕ) : ℚ) = 9007199254740993 := by
    rw [(by decide : digits_value "9007199254740993".toList = 9007199254740993)]; rfl
  have d0 : ((digits_value "0".toList : ℕ) : ℚ) = 0 := by
    rw [(by decide : digits_value "0".toList = 0)]; rfl
  have hx : exact_double (9007199254740993 : ℚ) = false := by
    have e : (9007199254740993 : ℚ) = ((9007199254740993 : ℕ) : ℚ) := rfl
    rw [e, exact_double_natCast_eq]
    decide
  have hb : |(9007199254740993 : ℚ)| < overflow_bound := by
    have := abs_natCast_lt 9007199254740993 (by decide)
    simpa using this
  have run : ∀ (L : Libm) (fuel : Nat),
      parser_calc L (fuel + 7) "9007199254740993+0+0".toList =
        .ok (fl L 9007199254740993) := by
    intro L fuel
    rw [show "9007199254740993+0+0".toList =
        "9007199254740993".toList ++ '+' :: ("0".toList ++ '+' :: "0".toList) from rfl,
      calc_enter L _ _ (by decide) (by decide) (by decide),
      scan_zero_convertible _ _ _ _ (by decide) (by rfl),
      scan_binary _ _ _ _ _ _ _ (by decide) (by rfl), reduce_prior_nil, ok_bind,
      scan_literal _ _ _ _ _ _ _ (by decide) (by rfl),
      scan_binary _ _ _ _ _ _ _ (by decide) (by rfl),
      reduce_prior_apply _ _ _ _ _ _ (by decide), exec_add]
    simp only [ok_bind]
    rw [reduce_prior_nil, ok_bind, scan_literal_end _ _ _ _ _ _ (by decide), scan_end,
      reduce_all_cons, exec_add, ok_bind, reduce_all_nil, ok_bind, hd, d0, add_zero, add_zero,
      fl_fl L _ hb, fl_fl L _ hb]
  have small : ∀ (L : Libm) (fuel : Nat), fuel < 7 →
      parser_calc L fuel "9007199254740993+0+0".toList = .error .fuel := by
    intro L fuel hlt
    interval_cases fuel <;> rfl
  refine ⟨beyond_double_digits.1,
    fun L fuel => calc_out_of_range L fuel _ _ beyond_double_digits.1 beyond_double_digits.2
      (by decide) (by decide) (by decide) (by decide),
    fun L fuel v => calc_out_of_range_never L fuel _ _ v beyond_double_digits.1
      beyond_double_digits.2 (by decide) (by decide) (by decide) (by decide),
    fun L fuel => ⟨_, run L fuel, fl_double L _ hb⟩, fun L fuel h => ?_, hx, ?_⟩
  · rcases Nat.lt_or_ge fuel 7 with hlt | hge
    · rw [small L fuel hlt] at h
      cases h
    · obtain ⟨m, rfl⟩ := Nat.exists_eq_add_of_le hge
      rw [Nat.add_comm 7 m, run L m] at h
      exact fl_ne L _ hb hx (Except.ok.inj h)
  · have ev : ∀ x y : ℚ, exact_value '+' x y = some (x + y) := fun _ _ => rfl
    rw [grouped_value, if_pos (by decide), binary_value, ev, Option.some_bind, hd, d0, add_zero,
      hx]
    rfl
/-- C3, as the code has it: for natural-number literals `a` and `b`, `calc` on
`a+b` wrapped in a matching pair of any of the three families returns `a+b`
when the values of `a`, of `b` and of the sum are doubles, so that the
conversions and the addition reach them without rounding; opened with a glyph
of one family and closed with the closing glyph of another, or left unclosed,
the text fails with the exception "error bracket" whatever the digits. -/
theorem calc_bracket_families (L : Libm) (a b : List Char) (fuel : Nat)
    (ha : is_digits a = true) (hb : is_digits b = true) (hf : 8 ≤ fuel) :
    (exact_double (digits_value a : ℚ) = true → exact_double (digits_value b : ℚ) = true →
      exact_double ((digits_value a : ℚ) + digits_value b) = true →
      ∀ o c, (o, c) ∈ bracket_pairs →
        parser_calc L fuel (o :: (a ++ '+' :: (b ++ [c]))) =
          .ok ((digits_value a : ℚ) + digits_value b)) ∧
    (∀ o c, open_brackets o = true → close_brackets c = true → (o, c) ∉ bracket_pairs →
      parser_calc L fuel (o :: (a ++ '+' :: (b ++ [c]))) = .error .bracket) ∧
    (∀ o, open_brackets o = true →
      parser_calc L fuel (o :: (a ++ '+' :: b)) = .error .bracket) := by
  obtain ⟨n, rfl⟩ := Nat.exists_eq_add_of_le hf
  rw [Nat.add_comm 8 n]
  refine ⟨fun ea eb es o c hp => calc_bracketed_sum L n o c a b (double_is_literal a ha ea)
      (double_is_literal b hb eb) hp es,
    fun o c ho hc hp => ?_, fun o ho => ?_⟩
  · apply calc_bracket_error
    rw [lays_check_bracketed_sum o c a b ha hb ho hc]
    have : o ≠ parentheses c := fun h => hp ((pair_iff o c).2 ⟨hc, h⟩)
    simp [this]
  · apply calc_bracket_error
    have e : o :: (a ++ '+' :: b) = o :: (a ++ '+' :: (b ++ [])) := by simp
    rw [e, lays_check, lays_check_loop_open _ _ _ ho, lays_check_loop_run _ _ _ ha,
      lays_check_loop_other _ _ _ (by decide) (by decide), lays_check_loop_run _ _ _ hb]
    rfl

/-- The texts `(1+2)`, `[1+2]` and `1+2` in curly brackets evaluate to 3;
`(1+2]`, `[1+2)` and `(1+2` fail with "error bracket". -/
theorem calc_bracket_families_witness :
    parser_calc Libm.zero 8 "(1+2)".toList = .ok 3 ∧
    parser_calc Libm.zero 8 "[1+2]".toList = .ok 3 ∧
    parser_calc Libm.zero 8 "\x7b1+2\x7d".toList = .ok 3 ∧
    parser_calc Libm.zero 8 "(1+2]".toList = .error .bracket ∧
    parser_calc Libm.zero 8 "[1+2)".toList = .error .bracket ∧
    parser_calc Libm.zero 8 "(1+2".toList = .error .bracket :=
  have h := calc_bracket_families Libm.zero "1".toList "2".toList 8 (by decide) (by decide)
    (le_refl _)
  have e : ((digits_value "1".toList : ℕ) : ℚ) + ((digits_value "2".toList : ℕ) : ℚ) = 3 := by
    rw [(by decide : digits_value "1".toList = 1), (by decide : digits_value "2".toList = 2)]
    norm_num
  have e1 : exact_double ((digits_value "1".toList : ℕ) : ℚ) = true :=
    exact_double_natCast _ (by decide)
  have e2 : exact_double ((digits_value "2".toList : ℕ) : ℚ) = true :=
    exact_double_natCast _ (by decide)
  have e3 : exact_double (((digits_value "1".toList : ℕ) : ℚ) + (digits_value "2".toList : ℕ))
      = true := by
    rw [e]
    simpa using exact_double_natCast 3 (by decide)
  ⟨e ▸ h.1 e1 e2 e3 '(' ')' (by decide), e ▸ h.1 e1 e2 e3 '[' ']' (by decide),
   e ▸ h.1 e1 e2 e3 '\x7b' '\x7d' (by decide),
   h.2.1 '(' ']' (by decide) (by decide) (by decide),
   h.2.1 '[' ')' (by decide) (by decide) (by decide),
   h.2.2 '(' (by decide)⟩

set_option maxRecDepth 100000 in
/-- C3 as stated fails.  With the run of 310 digits `beyond_double` for `a`, on
the text `(a+1)` the conversion `std::stod` throws `std::out_of_range`, and
with no amount of fuel does `calc` return a value.  And on the text
`(9007199254740993+0)`, where the claim promises the sum 9007199254740993,
`calc` returns a double, which that number, `2 ^ 53 + 1`, is not: the
conversion of the first literal rounds it. -/
theorem calc_bracketed_sum_beyond_double :
    is_digits beyond_double = true ∧
    (∀ (L : Libm) (fuel : Nat),
      parser_calc L (fuel + 4) ('(' :: (beyond_double ++ "+1)".toList)) = .error .range) ∧
    (∀ (L : Libm) (fuel : Nat) (v : ℚ),
      parser_calc L fuel ('(' :: (beyond_double ++ "+1)".toList)) ≠ .ok v) ∧
    (∀ (L : Libm) (fuel : Nat), ∃ r : ℚ,
      parser_calc L (fuel + 8) "(9007199254740993+0)".toList = .ok r ∧
        exact_double r = true) ∧
    (∀ (L : Libm) (fuel : Nat),
      parser_calc L fuel "(9007199254740993+0)".toList ≠ .ok (9007199254740993 + 0)) ∧
    exact_double (9007199254740993 + 0 : ℚ) = false := by
  have big : ∀ (L : Libm) (fuel : Nat),
      parser_calc L (fuel + 4) ('(' :: (beyond_double ++ "+1)".toList)) = .error .range :=
    fun _ _ => rfl
  have small : ∀ (L : Libm) (fuel : Nat), fuel < 4 →
      parser_calc L fuel ('(' :: (beyond_double ++ "+1)".toList)) = .error .fuel := by
    intro L fuel hlt
    interval_cases fuel <;> rfl
  have hd : ((digits_value "9007199254740993".toList : ℕ) : ℚ) = 9007199254740993 := by
    rw [(by decide : digits_value "9007199254740993".toList = 9007199254740993)]; rfl
  have d0 : ((digits_value "0".toList : ℕ) : ℚ) = 0 := by
    rw [(by decide : digits_value "0".toList = 0)]; rfl
  have hx : exact_double (9007199254740993 : ℚ) = false := by
    have e : (9007199254740993 : ℚ) = ((9007199254740993 : ℕ) : ℚ) := rfl
    rw [e, exact_double_natCast_eq]
    decide
  have hb : |(9007199254740993 : ℚ)| < overflow_bound := by
    have := abs_natCast_lt 9007199254740993 (by decide)
    simpa using this
  have run : ∀ (L : Libm) (fuel : Nat),
      parser_calc L (fuel + 8) "(9007199254740993+0)".toList =
        .ok (fl L 9007199254740993) := by
    intro L fuel
    rw [show "(9007199254740993+0)".toList =
        '(' :: ("9007199254740993".toList ++ '+' :: ("0".toList ++ [')'])) from rfl,
      calc_enter L _ _ (by decide) (by decide) (by decide), scan_zero_other _ _ _ (by rfl),
      scan_open _ _ _ _ _ _ _ (by decide) (by rfl),
      scan_convertible _ _ _ _ _ _ _ (by decide) (by rfl),
      scan_binary _ _ _ _ _ _ _ (by decide) (by rfl),
      reduce_prior_stop _ _ _ _ _ _ (by decide), ok_bind,
      scan_literal _ _ _ _ _ _ _ (by decide) (by rfl),
      scan_close _ _ _ _ _ _ _ (by decide),
      reduce_to_open_apply _ _ _ _ _ (by decide), exec_add, ok_bind,
      reduce_to_open_stop _ _ _ _ _ (by decide), ok_bind, scan_end, hd, d0, add_zero,
      fl_fl L _ hb]
    rfl
  have short : ∀ (L : Libm) (fuel : Nat), fuel < 8 →
      parser_calc L fuel "(9007199254740993+0)".toList = .error .fuel := by
    intro L fuel hlt
    interval_cases fuel <;> rfl
  refine ⟨beyond_double_digits.1, big, fun L fuel v h => ?_,
    fun L fuel => ⟨_, run L fuel, fl_double L _ hb⟩, fun L fuel h => ?_, ?_⟩
  · rcases Nat.lt_or_ge fuel 4 with hlt | hge
    · rw [small L fuel hlt] at h
      cases h
    · obtain ⟨m, rfl⟩ := Nat.exists_eq_add_of_le hge
      rw [Nat.add_comm 4 m, big L m] at h
      cases h
  · rw [add_zero] at h
    rcases Nat.lt_or_ge fuel 8 with hlt | hge
    · rw [short L fuel hlt] at h
      cases h
    · obtain ⟨m, rfl⟩ := Nat.exists_eq_add_of_le hge
      rw [Nat.add_comm 8 m, run L m] at h
      exact fl_ne L _ hb hx (Except.ok.inj h)
  · rw [add_zero]
    exact hx
/-- C4, as the code has it: for natural-number literals `a` and `n` and a sign
glyph `s`, when the value of `n` is a double `calc` returns the signed `n` on
the text `s n`, and on `(s n)` in any bracket family when the insertion of
the `0` after the open bracket leaves the iterator valid; it returns `a`
times the signed `n` on `a*s n` when `a` and `n` are not 0 and the value of
`a` and the product are doubles.  The rule behind it: a sign glyph that follows a digit, a dot, a
close bracket or `!` is pushed as the binary operator, after any other
character as the unary operator of precedence 4, which negates or keeps the
operand on top of the stack when it is applied; a leading sign, at the start
of the text or right after an open bracket, follows the inserted `0` and is
the binary operator.  For `s = '-'` the values are `-n`, `-n` and `a*(-n)`. -/
theorem calc_sign_handling (L : Libm) (a n : List Char) (s : Char) (fuel : Nat)
    (da : is_digits a = true) (dn : is_digits n = true) (hs : s = '+' ∨ s = '-')
    (en : exact_double (digits_value n : ℚ) = true) (hf : 8 ≤ fuel) :
    parser_calc L fuel (s :: n) = .ok (signed s (digits_value n)) ∧
    (∀ o c, (o, c) ∈ bracket_pairs → L.insert_in_place (o :: s :: (n ++ [c])) = true →
      parser_calc L fuel (o :: s :: (n ++ [c])) = .ok (signed s (digits_value n))) ∧
    (exact_double (digits_value a : ℚ) = true → 1 ≤ digits_value a → 1 ≤ digits_value n →
      exact_double ((digits_value a : ℚ) * digits_value n) = true →
      parser_calc L fuel (a ++ '*' :: s :: n) =
        .ok ((digits_value a : ℚ) * signed s (digits_value n))) ∧
    (∀ (p : Char) (rest : List Char) (oper : List Int) (stack : List ℚ),
      (isdigit p = true ∨ p = '.' ∨ close_brackets p = true ∨ p = '!' →
        scan L (fuel + 1) (some p) (s :: rest) oper stack =
          (reduce_prior L fuel (key s) oper stack >>= fun r =>
            scan L fuel (some s) rest (key s :: r.1) r.2)) ∧
      (¬ (isdigit p = true ∨ p = '.' ∨ close_brackets p = true ∨ p = '!') →
        scan L (fuel + 1) (some p) (s :: rest) oper stack =
          (reduce_prior L fuel (-key s) oper stack >>= fun r =>
            scan L fuel (some s) rest (-key s :: r.1) r.2))) ∧
    prior (-key s) = 4 ∧
    (∀ (f : Nat) (y : ℚ) (stack : List ℚ), y ≠ 0 →
      process_operation L f (y :: stack) (-key s) = .ok (signed s y :: stack)) := by
  have hn := double_is_literal n dn en
  obtain ⟨sop, sp, sup, sk, suk, ssign, sbeq⟩ := sign_class s hs
  obtain ⟨sno, snc, -⟩ := is_operation_not_bracket s sop
  obtain ⟨sal, ssp, snum⟩ := operation_allowed s sop
  have sn : exact_double (signed s (digits_value n : ℚ)) = true := by
    rw [exact_double_signed]; exact en
  refine ⟨?_, fun o c hp hi => ?_, fun ea _ _ ep => ?_, fun p rest oper stack => ⟨fun hp => ?_,
    fun hp => ?_⟩, sup, fun f y stack _ => exec_sign_unary L f s hs y stack⟩
  · obtain ⟨fuel, rfl⟩ := Nat.exists_eq_add_of_le hf
    rw [Nat.add_comm 8 fuel]
    have v1 : lays_check (s :: n) = true := by
      have e : s :: n = s :: (n ++ []) := by simp
      rw [e, lays_check, lays_check_loop_other _ _ _ sno snc, lays_check_loop_literal _ _ _ hn]
      rfl
    have v2 : incorrect_symbol (s :: n) = true := by
      rw [incorrect_symbol_cons _ _ sal, incorrect_symbol_literal _ hn]
    have v3 : (s :: n).filter (· != ' ') = s :: n := by
      rw [filter_space_cons _ _ ssp, filter_space_literal _ hn]
    rw [calc_enter L _ _ v1 v2 v3, scan_zero_other _ _ _ (snum _),
      scan_binary _ _ _ _ _ _ _ sop (by
        rw [(by decide : sign_is_unary (some '0') = false), Bool.and_false]),
      reduce_prior_nil, ok_bind, scan_literal_end _ _ _ _ _ _ hn, scan_end, reduce_all_cons,
      exec_sign_binary _ _ _ hs, ok_bind, reduce_all_nil, ok_bind, zero_add, fl_exact L _ sn]
  · obtain ⟨fuel, rfl⟩ := Nat.exists_eq_add_of_le hf
    rw [Nat.add_comm 8 fuel]
    obtain ⟨hc, ho⟩ := (pair_iff o c).1 hp
    have hoo : open_brackets o = true := by
      subst ho
      simp only [close_brackets, Bool.or_eq_true, beq_iff_eq] at hc
      rcases hc with (h | h) | h <;> subst h <;> decide
    have v1 : lays_check (o :: s :: (n ++ [c])) = true := by
      rw [lays_check, lays_check_loop_open _ _ _ hoo, lays_check_loop_other _ _ _ sno snc,
        lays_check_loop_literal _ _ _ hn, lays_check_loop_close _ _ _ hc]
      simp [ho, lays_check_loop]
    have v2 : incorrect_symbol (o :: s :: (n ++ [c])) = true := by
      rw [incorrect_symbol_cons _ _ (open_allowed o hoo).1, incorrect_symbol_cons _ _ sal,
        incorrect_symbol_append, incorrect_symbol_literal _ hn, (close_allowed c hc).1]
      rfl
    have v3 : (o :: s :: (n ++ [c])).filter (· != ' ') = o :: s :: (n ++ [c]) := by
      rw [filter_space_cons _ _ (open_allowed o hoo).2.1, filter_space_cons _ _ ssp,
        List.filter_append, filter_space_literal _ hn,
        filter_space_cons _ _ (close_allowed c hc).2.1, List.filter_nil]
    have e0 : '0' :: s :: (n ++ [c]) = ['0'] ++ s :: (n ++ [c]) := rfl
    have z : ((digits_value ['0'] : ℕ) : ℚ) = 0 := by
      rw [(by decide : digits_value ['0'] = 0)]; rfl
    rw [calc_enter L _ _ v1 v2 v3, scan_zero_other _ _ _ ((open_allowed o hoo).2.2 _),
      scan_open_sign _ _ _ _ _ _ _ hoo (ssign _) hi, e0,
      scan_literal _ _ _ _ _ _ _ (by decide) (snum _),
      scan_binary _ _ _ _ _ _ _ sop (binary_after_literal _ _ (by decide)),
      reduce_prior_stop _ _ _ _ _ _ (by rw [prior_open o hoo, sp]; decide), ok_bind,
      scan_literal _ _ _ _ _ _ _ hn ((close_allowed c hc).2.2 _),
      scan_close _ _ _ _ _ _ _ hc, reduce_to_open_apply _ _ _ _ _ sk,
      exec_sign_binary _ _ _ hs, ok_bind, reduce_to_open_stop _ _ _ _ _ (open_key_key o hoo),
      ok_bind, scan_end, z, zero_add, fl_exact L _ sn]
    rfl
  · obtain ⟨fuel, rfl⟩ := Nat.exists_eq_add_of_le hf
    rw [Nat.add_comm 8 fuel]
    have ha := double_is_literal a da ea
    have v1 : lays_check (a ++ '*' :: s :: n) = true := by
      have e : a ++ '*' :: s :: n = a ++ '*' :: s :: (n ++ []) := by simp
      rw [e, lays_check, lays_check_loop_literal _ _ _ ha,
        lays_check_loop_other _ _ _ (by decide) (by decide),
        lays_check_loop_other _ _ _ sno snc, lays_check_loop_literal _ _ _ hn]
      rfl
    have v2 : incorrect_symbol (a ++ '*' :: s :: n) = true := by
      rw [incorrect_symbol_append, incorrect_symbol_literal _ ha,
        incorrect_symbol_cons _ _ (by decide), incorrect_symbol_cons _ _ sal,
        incorrect_symbol_literal _ hn]
      rfl
    have v3 : (a ++ '*' :: s :: n).filter (· != ' ') = a ++ '*' :: s :: n := by
      rw [List.filter_append, filter_space_literal _ ha, filter_space_cons _ _ (by decide),
        filter_space_cons _ _ ssp, filter_space_literal _ hn]
    rw [calc_enter L _ _ v1 v2 v3, scan_zero_literal _ _ _ _ ha (by rfl),
      scan_binary _ _ _ _ _ _ _ (by decide) (binary_after_literal _ _ ha), reduce_prior_nil,
      ok_bind,
      scan_unary _ _ _ _ _ _ _ sop (by
        rw [sbeq, (by decide : sign_is_unary (some '*') = true)]; rfl),
      reduce_prior_stop _ _ _ _ _ _ (by rw [sup]; decide), ok_bind,
      scan_literal_end _ _ _ _ _ _ hn, scan_end, reduce_all_cons, exec_sign_unary _ _ _ hs,
      ok_bind, reduce_all_cons, exec_multiply, ok_bind, reduce_all_nil, ok_bind,
      fl_exact L _ (by rw [mul_signed, exact_double_signed]; exact ep)]
  · refine scan_binary L fuel (some p) s rest oper stack sop ?_
    have : sign_is_unary (some p) = false := by
      rcases hp with h | h | h | h <;> simp [sign_is_unary, h]
    rw [this, Bool.and_false]
  · refine scan_unary L fuel (some p) s rest oper stack sop ?_
    have : sign_is_unary (some p) = true := by
      simp only [not_or] at hp
      simp [sign_is_unary, hp.1, hp.2.1, hp.2.2.1, hp.2.2.2]
    rw [this, sbeq]
    rfl

/-- The texts `-5`, `(-3)` and `3*-2` evaluate to -5, -3 and -6. -/
theorem calc_sign_handling_witness :
    parser_calc Libm.zero 8 "-5".toList = .ok (-5) ∧
    parser_calc Libm.zero 8 "(-3)".toList = .ok (-3) ∧
    parser_calc Libm.zero 8 "3*-2".toList = .ok (-6) :=
  have d2 : ((digits_value "2".toList : ℕ) : ℚ) = 2 := by
    rw [(by decide : digits_value "2".toList = 2)]; rfl
  have d3 : ((digits_value "3".toList : ℕ) : ℚ) = 3 := by
    rw [(by decide : digits_value "3".toList = 3)]; rfl
  have d5 : ((digits_value "5".toList : ℕ) : ℚ) = 5 := by
    rw [(by decide : digits_value "5".toList = 5)]; rfl
  have s : ∀ x : ℚ, signed '-' x = -x := fun _ => rfl
  have x6 : exact_double (((digits_value "3".toList : ℕ) : ℚ) * (digits_value "2".toList : ℕ))
      = true := by
    rw [d3, d2]
    norm_num
    simpa using exact_double_natCast 6 (by decide)
  have h5 := (calc_sign_handling Libm.zero "3".toList "5".toList '-' 8 (by decide) (by decide)
    (by decide) (exact_double_natCast _ (by decide)) (le_refl _)).1
  have h3 := (calc_sign_handling Libm.zero "3".toList "3".toList '-' 8 (by decide) (by decide)
    (by decide) (exact_double_natCast _ (by decide)) (le_refl _)).2.1 '(' ')' (by decide) rfl
  have h2 := (calc_sign_handling Libm.zero "3".toList "2".toList '-' 8 (by decide) (by decide)
    (by decide) (exact_double_natCast _ (by decide)) (le_refl _)).2.2.1
    (exact_double_natCast _ (by decide)) (by decide) (by decide) x6
  ⟨by rw [s, d5] at h5; exact h5, by rw [s, d3] at h3; exact h3,
   by rw [s, d3, d2] at h2; norm_num at h2; exact h2⟩

set_option maxRecDepth 100000 in
/-- C4 as stated fails.  With the run of 310 digits `beyond_double` for `n`, on
the text `-n` the conversion `std::stod` throws `std::out_of_range` and with
no amount of fuel does `calc` return a value; on the text `(-12345678901)`,
when the string has no spare capacity for the `0` inserted after the open
bracket, the iterator of the loop is invalidated and its next use is
undefined behaviour; and on the text `-9007199254740993`, where the claim
promises -9007199254740993, `calc` returns a double, which that number,
`-(2 ^ 53 + 1)`, is not: the conversion of the literal rounds it. -/
theorem calc_sign_beyond_double :
    is_digits beyond_double = true ∧
    (∀ (L : Libm) (fuel : Nat),
      parser_calc L (fuel + 4) ('-' :: beyond_double) = .error .range) ∧
    (∀ (L : Libm) (fuel : Nat) (v : ℚ), parser_calc L fuel ('-' :: beyond_double) ≠ .ok v) ∧
    (∀ (L : Libm) (fuel : Nat), L.insert_in_place "(-12345678901)".toList = false →
      parser_calc L (fuel + 3) "(-12345678901)".toList = .error .undefined) ∧
    (∀ (L : Libm) (fuel : Nat), ∃ r : ℚ,
      parser_calc L (fuel + 5) "-9007199254740993".toList = .ok r ∧ exact_double r = true) ∧
    (∀ (L : Libm) (fuel : Nat),
      parser_calc L fuel "-9007199254740993".toList ≠ .ok (-9007199254740993)) ∧
    exact_double (-9007199254740993 : ℚ) = false := by
  have big : ∀ (L : Libm) (fuel : Nat),
      parser_calc L (fuel + 4) ('-' :: beyond_double) = .error .range :=
    fun _ _ => rfl
  have small : ∀ (L : Libm) (fuel : Nat), fuel < 4 →
      parser_calc L fuel ('-' :: beyond_double) = .error .fuel := by
    intro L fuel hlt
    interval_cases fuel <;> rfl
  have hd : ((digits_value "9007199254740993".toList : ℕ) : ℚ) = 9007199254740993 := by
    rw [(by decide : digits_value "9007199254740993".toList = 9007199254740993)]; rfl
  have hx : exact_double (9007199254740993 : ℚ) = false := by
    have e : (9007199254740993 : ℚ) = ((9007199254740993 : ℕ) : ℚ) := rfl
    rw [e, exact_double_natCast_eq]
    decide
  have hb : |(9007199254740993 : ℚ)| < overflow_bound := by
    have := abs_natCast_lt 9007199254740993 (by decide)
    simpa using this
  have run : ∀ (L : Libm) (fuel : Nat),
      parser_calc L (fuel + 5) "-9007199254740993".toList =
        .ok (-fl L 9007199254740993) := by
    intro L fuel
    rw [show "-9007199254740993".toList = '-' :: ("9007199254740993".toList ++ []) from rfl,
      calc_enter L _ _ (by decide) (by decide) (by decide), scan_zero_other _ _ _ (by rfl),
      scan_binary _ _ _ _ _ _ _ (by decide) (by rfl), reduce_prior_nil, ok_bind,
      scan_convertible _ _ _ _ _ _ _ (by decide) (by rfl), scan_end, reduce_all_cons,
      exec_subtract, ok_bind, reduce_all_nil, ok_bind, hd, zero_sub,
      fl_exact L _ (by rw [exact_double_neg]; exact fl_double L _ hb)]
  have short : ∀ (L : Libm) (fuel : Nat), fuel < 5 →
      parser_calc L fuel "-9007199254740993".toList = .error .fuel := by
    intro L fuel hlt
    interval_cases fuel <;> rfl
  refine ⟨beyond_double_digits.1, big, fun L fuel v h => ?_, fun L fuel hi => ?_,
    fun L fuel => ⟨_, run L fuel, by rw [exact_double_neg]; exact fl_double L _ hb⟩,
    fun L fuel h => ?_, by rw [exact_double_neg]; exact hx⟩
  · rcases Nat.lt_or_ge fuel 4 with hlt | hge
    · rw [small L fuel hlt] at h
      cases h
    · obtain ⟨m, rfl⟩ := Nat.exists_eq_add_of_le hge
      rw [Nat.add_comm 4 m, big L m] at h
      cases h
  · rw [calc_enter L _ _ (by decide) (by decide) (by decide), scan_zero_other _ _ _ (by rfl)]
    exact scan_open_sign_reallocated L fuel (some '0') '(' "-12345678901)".toList [] [0]
      (by decide) (by rfl) hi
  · rcases Nat.lt_or_ge fuel 5 with hlt | hge
    · rw [short L fuel hlt] at h
      cases h
    · obtain ⟨m, rfl⟩ := Nat.exists_eq_add_of_le hge
      rw [Nat.add_comm 5 m, run L m] at h
      exact fl_ne L _ hb hx (neg_injective (Except.ok.inj h))
/-- C5, as the code has it: for natural-number literals `a` and `b` whose
values are doubles, `calc` returns `a^b` on the text `pow(a,b)` (first-listed
argument the base, second the exponent) when the power is a double, the
smaller of the two on `min(a,b)` and the larger on `max(a,b)`; the argument
list may stand in any of the three bracket families. -/
theorem calc_binary_functions (L : Libm) (a b : List Char) (o c : Char) (fuel : Nat)
    (da : is_digits a = true) (db : is_digits b = true)
    (ea : exact_double (digits_value a : ℚ) = true)
    (eb : exact_double (digits_value b : ℚ) = true) (hp : (o, c) ∈ bracket_pairs)
    (hf : 11 ≤ fuel) :
    (exact_double ((digits_value a : ℚ) ^ digits_value b) = true →
      parser_calc L fuel ("pow".toList ++ o :: (a ++ ',' :: (b ++ [c]))) =
        .ok ((digits_value a : ℚ) ^ digits_value b)) ∧
    parser_calc L fuel ("min".toList ++ o :: (a ++ ',' :: (b ++ [c]))) =
      .ok (min (digits_value a : ℚ) (digits_value b)) ∧
    parser_calc L fuel ("max".toList ++ o :: (a ++ ',' :: (b ++ [c]))) =
      .ok (max (digits_value a : ℚ) (digits_value b)) := by
  have ha := double_is_literal a da ea
  have hb := double_is_literal b db eb
  obtain ⟨fuel, rfl⟩ := Nat.exists_eq_add_of_le hf
  rw [Nat.add_comm 11 fuel]
  obtain ⟨hc, ho⟩ := (pair_iff o c).1 hp
  have hoo : open_brackets o = true := by
    subst ho
    simp only [close_brackets, Bool.or_eq_true, beq_iff_eq] at hc
    rcases hc with (h | h) | h <;> subst h <;> decide
  have key_fact := calc_call2_literals L fuel a b o c ha hb hp
  have pw := key_fact 'p' 'o' 'w' (by decide) (by decide) (by decide) (by decide)
  have mn := key_fact 'm' 'i' 'n' (by decide) (by decide) (by decide) (by decide)
  have mx := key_fact 'm' 'a' 'x' (by decide) (by decide) (by decide) (by decide)
  refine ⟨fun ep => ?_, ?_, ?_⟩
  · have e : process_function2 L [0] (str_tolower ['p', 'o', 'w']) (digits_value b)
        (digits_value a) = .ok [pow L (digits_value a) (digits_value b), 0] := rfl
    rw [e, ok_bind, scan_end, reduce_all_nil, ok_bind, pow_natCast L _ _ ep] at pw
    exact pw
  · have e : process_function2 L [0] (str_tolower ['m', 'i', 'n']) (digits_value b)
        (digits_value a) =
        .ok [if (digits_value a : ℚ) < digits_value b then (digits_value a : ℚ)
          else digits_value b, 0] := rfl
    rw [e, ok_bind, scan_end, reduce_all_nil, ok_bind] at mn
    rw [show ("min".toList ++ o :: (a ++ ',' :: (b ++ [c]))) =
      ['m', 'i', 'n'] ++ o :: (a ++ ',' :: (b ++ [c])) from rfl, mn]
    rcases lt_or_le (digits_value a : ℚ) (digits_value b) with h | h
    · rw [if_pos h, min_eq_left h.le]
    · rw [if_neg (not_lt.2 h), min_eq_right h]
  · have e : process_function2 L [0] (str_tolower ['m', 'a', 'x']) (digits_value b)
        (digits_value a) =
        .ok [if (digits_value b : ℚ) < digits_value a then (digits_value a : ℚ)
          else digits_value b, 0] := rfl
    rw [e, ok_bind, scan_end, reduce_all_nil, ok_bind] at mx
    rw [show ("max".toList ++ o :: (a ++ ',' :: (b ++ [c]))) =
      ['m', 'a', 'x'] ++ o :: (a ++ ',' :: (b ++ [c])) from rfl, mx]
    rcases lt_or_le (digits_value b : ℚ) (digits_value a) with h | h
    · rw [if_pos h, max_eq_left h.le]
    · rw [if_neg (not_lt.2 h), max_eq_right h]

/-- The texts `pow(2,3)`, `min(3,5)` and `max(3,5)` evaluate to 8, 3 and 5. -/
theorem calc_binary_functions_witness :
    parser_calc Libm.zero 11 "pow(2,3)".toList = .ok 8 ∧
    parser_calc Libm.zero 11 "min(3,5)".toList = .ok 3 ∧
    parser_calc Libm.zero 11 "max(3,5)".toList = .ok 5 :=
  have d2 : ((digits_value "2".toList : ℕ) : ℚ) = 2 := by
    rw [(by decide : digits_value "2".toList = 2)]; rfl
  have d3 : ((digits_value "3".toList : ℕ) : ℚ) = 3 := by
    rw [(by decide : digits_value "3".toList = 3)]; rfl
  have d5 : ((digits_value "5".toList : ℕ) : ℚ) = 5 := by
    rw [(by decide : digits_value "5".toList = 5)]; rfl
  have x8 : exact_double (((digits_value "2".toList : ℕ) : ℚ) ^ digits_value "3".toList)
      = true := by
    rw [d2, (by decide : digits_value "3".toList = 3)]
    norm_num
    simpa using exact_double_natCast 8 (by decide)
  have h1 := (calc_binary_functions Libm.zero "2".toList "3".toList '(' ')' 11 (by decide)
    (by decide) (exact_double_natCast _ (by decide)) (exact_double_natCast _ (by decide))
    (by decide) (le_refl _)).1 x8
  have h2 := (calc_binary_functions Libm.zero "3".toList "5".toList '(' ')' 11 (by decide)
    (by decide) (exact_double_natCast _ (by decide)) (exact_double_natCast _ (by decide))
    (by decide) (le_refl _)).2
  ⟨by rw [d2, (by decide : digits_value "3".toList = 3)] at h1; norm_num at h1; exact h1,
   by have := h2.1; rw [d3, d5] at this; norm_num at this; exact this,
   by have := h2.2; rw [d3, d5] at this; norm_num at this; exact this⟩

set_option maxRecDepth 100000 in
/-- C5 as stated fails.  With the run of 310 digits `beyond_double` for `a`, on
the text `pow(a,1)` the conversion `std::stod` throws `std::out_of_range`, and
with no amount of fuel does `calc` return a value.  And on the text
`pow(3,40)`, where the claim promises the power `3 ^ 40`, `calc` returns a
double, which that number is not: `std::pow` rounds it. -/
theorem calc_pow_beyond_double :
    is_digits beyond_double = true ∧
    (∀ (L : Libm) (fuel : Nat),
      parser_calc L (fuel + 7) ("pow(".toList ++ (beyond_double ++ ",1)".toList)) =
        .error .range) ∧
    (∀ (L : Libm) (fuel : Nat) (v : ℚ),
      parser_calc L fuel ("pow(".toList ++ (beyond_double ++ ",1)".toList)) ≠ .ok v) ∧
    (∀ (L : Libm) (fuel : Nat), ∃ r : ℚ,
      parser_calc L (fuel + 11) "pow(3,40)".toList = .ok r ∧ exact_double r = true) ∧
    (∀ (L : Libm) (fuel : Nat), parser_calc L fuel "pow(3,40)".toList ≠ .ok (3 ^ 40)) ∧
    exact_double ((3 : ℚ) ^ 40) = false := by
  have big : ∀ (L : Libm) (fuel : Nat),
      parser_calc L (fuel + 7) ("pow(".toList ++ (beyond_double ++ ",1)".toList)) =
        .error .range :=
    fun _ _ => rfl
  have small : ∀ (L : Libm) (fuel : Nat), fuel < 7 →
      parser_calc L fuel ("pow(".toList ++ (beyond_double ++ ",1)".toList)) = .error .fuel := by
    intro L fuel hlt
    interval_cases fuel <;> rfl
  have d3 : ((digits_value "3".toList : ℕ) : ℚ) = 3 := by
    rw [(by decide : digits_value "3".toList = 3)]; rfl
  have d40 : ((digits_value "40".toList : ℕ) : ℚ) = 40 := by
    rw [(by decide : digits_value "40".toList = 40)]; rfl
  have run : ∀ (L : Libm) (fuel : Nat),
      parser_calc L (fuel + 11) "pow(3,40)".toList = .ok (L.powr 3 40) := by
    intro L fuel
    have h := calc_call2_literals L fuel "3".toList "40".toList '(' ')' (by decide) (by decide)
      (by decide) 'p' 'o' 'w' (by decide) (by decide) (by decide) (by decide)
    have e : process_function2 L [0] (str_tolower ['p', 'o', 'w']) (digits_value "40".toList)
        (digits_value "3".toList) =
        .ok [pow L (digits_value "3".toList) (digits_value "40".toList), 0] := rfl
    rw [e, ok_bind, scan_end, reduce_all_nil, ok_bind, d3, d40, (pow_rounded L).1] at h
    exact h
  have short : ∀ (L : Libm) (fuel : Nat), fuel < 11 →
      parser_calc L fuel "pow(3,40)".toList = .error .fuel := by
    intro L fuel hlt
    interval_cases fuel <;> rfl
  refine ⟨beyond_double_digits.1, big, fun L fuel v h => ?_,
    fun L fuel => ⟨_, run L fuel, (pow_rounded L).2.1⟩, fun L fuel h => ?_,
    (pow_rounded Libm.zero).2.2⟩
  · rcases Nat.lt_or_ge fuel 7 with hlt | hge
    · rw [small L fuel hlt] at h
      cases h
    · obtain ⟨m, rfl⟩ := Nat.exists_eq_add_of_le hge
      rw [Nat.add_comm 7 m, big L m] at h
      cases h
  · rcases Nat.lt_or_ge fuel 11 with hlt | hge
    · rw [short L fuel hlt] at h
      cases h
    · obtain ⟨m, rfl⟩ := Nat.exists_eq_add_of_le hge
      rw [Nat.add_comm 11 m, run L m] at h
      exact exact_ne _ _ (pow_rounded L).2.1 (pow_rounded L).2.2 (Except.ok.inj h)
/-- C6 (the code departs from it): on the texts `abs(max(1,2))` and
`abs(min(3,5))`, whose argument has a comma only inside an inner bracket pair,
`calc` does not apply the one-argument `abs`; it takes the two-argument path
and fails with the exception "unknow function". -/
theorem calc_unary_of_nested_call (L : Libm) (fuel : Nat) :
    parser_calc L (fuel + 15) "abs(max(1,2))".toList = .error .unknownFn ∧
    parser_calc L (fuel + 15) "abs(min(3,5))".toList = .error .unknownFn :=
  ⟨calc_abs_of_call2 L fuel 'm' 'a' 'x' "1".toList "2".toList "(max(1,2))".toList
      (if (digits_value "2".toList : ℚ) < digits_value "1".toList
        then (digits_value "1".toList : ℚ) else digits_value "2".toList)
      (by decide) (by decide) (by decide) (by decide) (by decide) (by decide)
      (fun _ => rfl) rfl (by decide) (by decide) (by decide) 9 rfl rfl rfl rfl,
   calc_abs_of_call2 L fuel 'm' 'i' 'n' "3".toList "5".toList "(min(3,5))".toList
      (if (digits_value "3".toList : ℚ) < digits_value "5".toList
        then (digits_value "3".toList : ℚ) else digits_value "5".toList)
      (by decide) (by decide) (by decide) (by decide) (by decide) (by decide)
      (fun _ => rfl) rfl (by decide) (by decide) (by decide) 9 rfl rfl rfl rfl⟩

/-- C7, as the code has it: for a run of decimal digits `n` with value from 1 to
22, the range in which every factorial is a double reached without rounding,
`calc` on the text `n!` returns the factorial of `n`. -/
theorem calc_factorial (L : Libm) (n : List Char) (fuel : Nat) (dn : is_digits n = true)
    (h1 : 1 ≤ digits_value n) (h22 : digits_value n ≤ 22) (hf : digits_value n + 5 ≤ fuel) :
    parser_calc L fuel (n ++ ['!']) = .ok ((digits_value n).factorial : ℚ) := by
  have hn := small_is_literal n dn (lt_of_le_of_lt h22 (by decide))
  obtain ⟨m, rfl⟩ := Nat.exists_eq_add_of_le hf
  have e : digits_value n + 5 + m = (digits_value n + m + 1) + 4 := by omega
  have v1 : lays_check (n ++ ['!']) = true := by
    rw [lays_check, lays_check_loop_literal _ _ _ hn]
    rfl
  have v2 : incorrect_symbol (n ++ ['!']) = true := by
    rw [incorrect_symbol_append, incorrect_symbol_literal _ hn]
    rfl
  have v3 : (n ++ ['!']).filter (· != ' ') = n ++ ['!'] := by
    rw [List.filter_append, filter_space_literal _ hn]
    rfl
  have pos : (digits_value n : ℚ) > 0 := by
    have : 0 < digits_value n := h1
    exact_mod_cast this
  rw [e, calc_enter L _ _ v1 v2 v3, scan_zero_literal _ _ _ _ hn (by rfl),
    scan_binary _ _ _ _ _ _ _ (by decide) (by rfl), reduce_prior_nil, ok_bind, scan_end,
    reduce_all_cons, exec_fact, if_pos pos, fact_of_le L _ _ h22 (by omega), ok_bind, ok_bind,
    reduce_all_nil, ok_bind]

/-- The text `5!` evaluates to 120. -/
theorem calc_factorial_witness : parser_calc Libm.zero 10 "5!".toList = .ok 120 :=
  have h := calc_factorial Libm.zero "5".toList 10 (by decide) (by decide) (by decide)
    (by decide)
  have e : (((digits_value "5".toList).factorial : ℕ) : ℚ) = 120 := by
    rw [(by decide : digits_value "5".toList = 5)]
    norm_num [Nat.factorial]
  e ▸ h

/-- C7 as stated fails.  With the run of 310 digits `beyond_double` for `n`, on
the text `n!` the conversion `std::stod` throws `std::out_of_range`, and with
no amount of fuel does `calc` return a value.  And on the text `23!`, where
the claim promises the factorial of 23, `calc` returns a double, which that
number is not: the last multiplication rounds it.  The factorial of 22 is a
double. -/
theorem calc_factorial_beyond_double :
    is_digits beyond_double = true ∧ 1 ≤ digits_value beyond_double ∧
    (∀ (L : Libm) (fuel : Nat),
      parser_calc L (fuel + 2) (beyond_double ++ ['!']) = .error .range) ∧
    (∀ (L : Libm) (fuel : Nat) (v : ℚ),
      parser_calc L fuel (beyond_double ++ ['!']) ≠ .ok v) ∧
    (∀ (L : Libm) (fuel : Nat), ∃ r : ℚ,
      parser_calc L (fuel + 28) "23!".toList = .ok r ∧ exact_double r = true) ∧
    (∀ (L : Libm) (fuel : Nat),
      parser_calc L fuel "23!".toList ≠ .ok ((digits_value "23".toList).factorial : ℚ)) ∧
    exact_double (((digits_value "23".toList).factorial : ℕ) : ℚ) = false ∧
    exact_double (((digits_value "22".toList).factorial : ℕ) : ℚ) = true := by
  have d23 : digits_value "23".toList = 23 := by decide
  have q23 : ((digits_value "23".toList : ℕ) : ℚ) = 23 := by rw [d23]; rfl
  have steps : ∀ (L : Libm) (m : Nat),
      parser_calc L (m + 4) "23!".toList =
        if 24 ≤ m then .ok (fl L ((Nat.factorial 23 : ℕ) : ℚ)) else .error .fuel := by
    intro L m
    rw [show "23!".toList = "23".toList ++ ['!'] from rfl,
      calc_enter L _ _ (by decide) (by decide) (by decide),
      scan_zero_literal _ _ _ _ (by decide) (by rfl),
      scan_binary _ _ _ _ _ _ _ (by decide) (by rfl), reduce_prior_nil, ok_bind, scan_end,
      reduce_all_cons, exec_fact, q23, if_pos (by norm_num), fact_rounded]
    by_cases h : 24 ≤ m
    · simp only [if_pos h]
      rfl
    · simp only [if_neg h]
      rfl
  have short : ∀ (L : Libm) (fuel : Nat), fuel < 4 →
      parser_calc L fuel "23!".toList = .error .fuel := by
    intro L fuel hlt
    interval_cases fuel <;> rfl
  refine ⟨beyond_double_digits.1, le_trans (by decide) beyond_double_digits.2,
    fun L fuel => calc_out_of_range L fuel _ _ beyond_double_digits.1 beyond_double_digits.2
      (by decide) (by decide) (by decide) (by decide),
    fun L fuel v => calc_out_of_range_never L fuel _ _ v beyond_double_digits.1
      beyond_double_digits.2 (by decide) (by decide) (by decide) (by decide),
    fun L fuel => ⟨_, by
      rw [show fuel + 28 = (fuel + 24) + 4 by omega, steps L (fuel + 24), if_pos (by omega)],
      (factorial_rounded L).1⟩,
    fun L fuel h => ?_,
    by rw [exact_double_natCast_eq]; decide,
    by rw [exact_double_natCast_eq]; decide⟩
  rw [d23] at h
  rcases Nat.lt_or_ge fuel 4 with hlt | hge
  · rw [short L fuel hlt] at h
    cases h
  · obtain ⟨m, rfl⟩ := Nat.exists_eq_add_of_le hge
    rw [Nat.add_comm 4 m, steps L m] at h
    by_cases h24 : 24 ≤ m
    · rw [if_pos h24] at h
      exact (factorial_rounded L).2 (Except.ok.inj h)
    · rw [if_neg h24] at h
      cases h
/-- C8 (the code departs from it): on the text `0!` the guard `assert(arg > 0)`
of `op_fact::exec` fails, although the helper `fact` returns 1 for 0. -/
theorem calc_factorial_zero (L : Libm) (fuel : Nat) :
    parser_calc L (fuel + 4) "0!".toList = .error .assertion ∧ fact L (fuel + 1) 0 = .ok 1 := by
  refine ⟨?_, by rw [fact]; simp⟩
  have z : ((digits_value "0".toList : ℕ) : ℚ) = 0 := by
    rw [(by decide : digits_value "0".toList = 0)]; rfl
  rw [show "0!".toList = "0".toList ++ ['!'] from rfl,
    calc_enter L _ _ (by decide) (by decide) (by decide),
    scan_zero_literal _ _ _ _ (by decide) (by rfl),
    scan_binary _ _ _ _ _ _ _ (by decide) (by rfl), reduce_prior_nil, ok_bind, scan_end,
    reduce_all_cons, exec_fact, z, if_neg (lt_irrefl 0)]
  rfl

/-- C9, as the code has it: for a run of decimal digits `n` with value from 1
to 22, the range in which every factorial is a double reached without
rounding, `calc` on the text `-n!` returns minus the factorial of `n`: the
factorial is applied to `n` before the leading sign, a subtraction from the
inserted `0`, and no assertion fails. -/
theorem calc_leading_minus_factorial (L : Libm) (n : List Char) (fuel : Nat)
    (dn : is_digits n = true) (h1 : 1 ≤ digits_value n) (h22 : digits_value n ≤ 22)
    (hf : digits_value n + 7 ≤ fuel) :
    parser_calc L fuel ('-' :: (n ++ ['!'])) = .ok (-((digits_value n).factorial : ℚ)) ∧
    parser_calc L fuel ('-' :: (n ++ ['!'])) ≠ .error .assertion := by
  have hn := small_is_literal n dn (lt_of_le_of_lt h22 (by decide))
  have h := calc_minus_factorial L n fuel hn h1 h22 hf
  refine ⟨h, ?_⟩
  rw [h]
  intro h'
  cases h'

/-- The text `-3!` evaluates to -6. -/
theorem calc_leading_minus_factorial_witness :
    parser_calc Libm.zero 10 "-3!".toList = .ok (-6) :=
  have h := (calc_leading_minus_factorial Libm.zero "3".toList 10 (by decide) (by decide)
    (by decide) (by decide)).1
  have e : (((digits_value "3".toList).factorial : ℕ) : ℚ) = 6 := by
    rw [(by decide : digits_value "3".toList = 3)]
    norm_num [Nat.factorial]
  e ▸ h

/-- C9 as stated fails: the text `-1!` evaluates to -1, and with no amount of
fuel does the evaluation end in a failed assertion.  The value returned is
minus the factorial only as far as the factorial is a double: on the text
`-23!` `calc` does not return minus the factorial of 23, which is not a
double. -/
theorem calc_minus_one_factorial :
    parser_calc Libm.zero 8 "-1!".toList = .ok (-1) ∧
    (∀ fuel, parser_calc Libm.zero fuel "-1!".toList ≠ .error .assertion) ∧
    (∀ (L : Libm) (fuel : Nat),
      parser_calc L fuel "-23!".toList ≠
        .ok (-(((digits_value "23".toList).factorial : ℕ) : ℚ))) ∧
    exact_double (-(((digits_value "23".toList).factorial : ℕ) : ℚ)) = false := by
  have main : parser_calc Libm.zero 8 "-1!".toList = .ok (-1) ∧
      ∀ fuel, parser_calc Libm.zero fuel "-1!".toList ≠ .error .assertion := by
    have e : (((digits_value "1".toList).factorial : ℕ) : ℚ) = 1 := by
      rw [(by decide : digits_value "1".toList = 1)]
      norm_num [Nat.factorial]
    have h : ∀ fuel, 8 ≤ fuel → parser_calc Libm.zero fuel "-1!".toList = .ok (-1) := by
      intro fuel hf
      have := calc_minus_factorial Libm.zero "1".toList fuel (by decide) (by decide) (by decide)
        hf
      rw [e] at this
      exact this
    refine ⟨h 8 (le_refl _), fun fuel => ?_⟩
    rcases Nat.lt_or_ge fuel 8 with hlt | hge
    · have hfuel : parser_calc Libm.zero fuel "-1!".toList = .error .fuel ∨
          parser_calc Libm.zero fuel "-1!".toList = .ok (-1) := by
        interval_cases fuel
        · exact Or.inl rfl
        · exact Or.inl rfl
        · exact Or.inl rfl
        · exact Or.inl rfl
        · exact Or.inl rfl
        · exact Or.inl rfl
        · left
          exact (calc_minus_factorial_steps Libm.zero "1".toList 0 (by decide) (by decide)).trans
            rfl
        · left
          have ne : ((digits_value "1".toList : ℕ) : ℚ) ≠ 0 := by
            rw [(by decide : digits_value "1".toList = 1)]
            norm_num
          refine (calc_minus_factorial_steps Libm.zero "1".toList 1 (by decide)
            (by decide)).trans ?_
          rw [fact, if_neg ne]
          rfl
      rcases hfuel with h' | h' <;> rw [h'] <;> intro h'' <;> cases h''
    · rw [h fuel hge]
      intro h'
      cases h'
  have d23 : digits_value "23".toList = 23 := by decide
  have q23 : ((digits_value "23".toList : ℕ) : ℚ) = 23 := by rw [d23]; rfl
  have short : ∀ (L : Libm) (fuel : Nat), fuel < 6 →
      parser_calc L fuel "-23!".toList = .error .fuel := by
    intro L fuel hlt
    interval_cases fuel <;> rfl
  refine ⟨main.1, main.2, fun L fuel h => ?_, ?_⟩
  · rw [d23] at h
    rcases Nat.lt_or_ge fuel 6 with hlt | hge
    · rw [short L fuel hlt] at h
      cases h
    · obtain ⟨m, rfl⟩ := Nat.exists_eq_add_of_le hge
      rw [Nat.add_comm 6 m, show "-23!".toList = '-' :: ("23".toList ++ ['!']) from rfl,
        calc_minus_factorial_steps L "23".toList m (by decide) (by decide), q23,
        fact_rounded] at h
      by_cases h24 : 24 ≤ m
      · simp only [if_pos h24, ok_bind, zero_sub] at h
        rw [fl_exact L _ (by rw [exact_double_neg]; exact (factorial_rounded L).1)] at h
        exact (factorial_rounded L).2 (neg_injective (Except.ok.inj h))
      · simp only [if_neg h24] at h
        cases h
  · rw [exact_double_neg, exact_double_natCast_eq]
    decide

/-- C10, as the code has it: for a run of decimal digits `a`, `calc` on the text
`a/0` ends in the failed assertion of `op_divide::exec` when the value of `a`
is below `overflow_bound`, so that `std::stod` converts it, and in the
exception `std::out_of_range` of `std::stod` from that bound on; the assertion
fails whenever the divisor popped from the top of the operand stack is 0. -/
theorem calc_division_by_zero (L : Libm) (a : List Char) (fuel : Nat)
    (ha : is_digits a = true) (hf : 5 ≤ fuel) :
    parser_calc L fuel (a ++ ['/', '0']) =
      (if overflow_bound ≤ digits_value a then .error .range else .error .assertion) ∧
    ∀ (f : Nat) (arg2 : ℚ) (stack : List ℚ),
      process_operation L f (0 :: arg2 :: stack) (key '/') = .error .assertion := by
  refine ⟨?_, fun f arg2 stack => by rw [exec_divide, if_pos rfl]⟩
  obtain ⟨fuel, rfl⟩ := Nat.exists_eq_add_of_le hf
  by_cases hb : overflow_bound ≤ digits_value a
  · rw [if_pos hb, show 5 + fuel = (fuel + 3) + 2 by omega]
    exact calc_out_of_range L _ a _ ha hb (by decide) (by decide) (by decide) (by decide)
  · rw [if_neg hb, Nat.add_comm 5 fuel]
    have hl : is_convertible a = true := by
      simp only [is_convertible, ha, Bool.true_and, decide_eq_true_eq]
      exact Nat.not_le.1 hb
    have v1 : lays_check (a ++ ['/', '0']) = true := by
      rw [lays_check, lays_check_loop_run _ _ _ ha]
      rfl
    have v2 : incorrect_symbol (a ++ ['/', '0']) = true := by
      rw [incorrect_symbol_append, incorrect_symbol_digits _ ha]
      rfl
    have v3 : (a ++ ['/', '0']).filter (· != ' ') = a ++ ['/', '0'] := by
      rw [List.filter_append, filter_space_digits _ ha]
      rfl
    have z : ((digits_value ['0'] : ℕ) : ℚ) = 0 := by
      rw [(by decide : digits_value ['0'] = 0)]; rfl
    rw [calc_enter L _ _ v1 v2 v3, scan_zero_convertible _ _ _ _ hl (by rfl),
      scan_binary _ _ _ _ _ _ _ (by decide) (by rfl), reduce_prior_nil, ok_bind,
      scan_literal_end _ _ _ _ _ _ (by decide), scan_end, reduce_all_cons, exec_divide, z,
      if_pos rfl]
    rfl

/-- The text `1/0` ends in the failed assertion. -/
theorem calc_division_by_zero_witness :
    parser_calc Libm.zero 5 "1/0".toList = .error .assertion :=
  (calc_division_by_zero Libm.zero "1".toList 5 (by decide) (le_refl _)).1.trans
    (if_neg (by decide))

/-- C10 as stated fails: with the run of 310 digits `beyond_double` for `a`, on
the text `a/0` the conversion `std::stod` throws `std::out_of_range` before
any division: with no amount of fuel does the evaluation end in the failed
assertion of `op_divide::exec`. -/
theorem calc_division_beyond_double :
    is_digits beyond_double = true ∧
    (∀ (L : Libm) (fuel : Nat),
      parser_calc L (fuel + 2) (beyond_double ++ ['/', '0']) = .error .range) ∧
    ∀ (L : Libm) (fuel : Nat),
      parser_calc L fuel (beyond_double ++ ['/', '0']) ≠ .error .assertion := by
  have big : ∀ (L : Libm) (fuel : Nat),
      parser_calc L (fuel + 2) (beyond_double ++ ['/', '0']) = .error .range :=
    fun L fuel => calc_out_of_range L fuel _ _ beyond_double_digits.1 beyond_double_digits.2
      (by decide) (by decide) (by decide) (by decide)
  refine ⟨beyond_double_digits.1, big, fun L fuel h => ?_⟩
  match fuel, h with
  | 0, h => cases h
  | 1, h =>
    have w1 : lays_check (beyond_double ++ ['/', '0']) = true := by
      rw [lays_check, lays_check_loop_digits _ _ _ (is_digits_all _ beyond_double_digits.1)]
      rfl
    have w2 : incorrect_symbol (beyond_double ++ ['/', '0']) = true := by
      rw [incorrect_symbol_append, incorrect_symbol_digits _ beyond_double_digits.1]
      rfl
    have w3 : (beyond_double ++ ['/', '0']).filter (· != ' ') = beyond_double ++ ['/', '0'] := by
      rw [List.filter_append, filter_space_digits _ beyond_double_digits.1]
      rfl
    rw [calc_enter L 0 _ w1 w2 w3] at h
    cases h
  | fuel + 2, h =>
    rw [big L fuel] at h
    cases h

/-- C11 (the code departs from it): `op_mod::exec` has no guard, so on the text
`5%0` `calc` returns the value of `std::fmod(5, 0)` instead of failing, and the
operation does so on every stack whose top is 0, while `op_divide::exec` on the
same stack ends in a failed assertion. -/
theorem calc_modulo_by_zero (L : Libm) (fuel : Nat) :
    parser_calc L (fuel + 5) "5%0".toList = .ok (L.fmodZero 5) ∧
    ∀ (f : Nat) (arg2 : ℚ) (stack : List ℚ),
      process_operation L f (0 :: arg2 :: stack) (key '%') = .ok (L.fmodZero arg2 :: stack) ∧
      process_operation L f (0 :: arg2 :: stack) (key '/') = .error .assertion := by
  have hop : ∀ (f : Nat) (arg2 : ℚ) (stack : List ℚ),
      process_operation L f (0 :: arg2 :: stack) (key '%') =
        .ok (L.fmodZero arg2 :: stack) := by
    intro f arg2 stack
    rw [exec_mod, fmod, if_pos rfl]
  refine ⟨?_, fun f arg2 stack => ⟨hop f arg2 stack, by rw [exec_divide, if_pos rfl]⟩⟩
  have z : ((digits_value ['0'] : ℕ) : ℚ) = 0 := by
    rw [(by decide : digits_value ['0'] = 0)]; rfl
  have d5 : ((digits_value "5".toList : ℕ) : ℚ) = 5 := by
    rw [(by decide : digits_value "5".toList = 5)]; rfl
  rw [show "5%0".toList = "5".toList ++ '%' :: ['0'] from rfl,
    calc_enter L _ _ (by decide) (by decide) (by decide),
    scan_zero_literal _ _ _ _ (by decide) (by rfl),
    scan_binary _ _ _ _ _ _ _ (by decide) (by rfl), reduce_prior_nil, ok_bind,
    scan_literal_end _ _ _ _ _ _ (by decide), scan_end, reduce_all_cons, z, d5, hop, ok_bind,
    reduce_all_nil, ok_bind]

/-- C12: on a text that passes the bracket validator and holds a character
that is not whitespace, a digit, an ASCII letter, an operator glyph, a bracket
glyph, a dot or a comma, `calc` throws "incorrect symbol"; it does so with the
single unit of fuel that the entry into `calc` uses, before any step of the
scan. -/
theorem calc_invalid_character (L : Libm) (text : List Char) (fuel : Nat)
    (h1 : lays_check text = true) (h2 : ∃ c ∈ text, allowed_char c = false)
    (hf : 1 ≤ fuel) :
    parser_calc L fuel text = .error .symbol := by
  obtain ⟨n, rfl⟩ := Nat.exists_eq_add_of_le hf
  rw [Nat.add_comm 1 n, parser_calc, h1, (incorrect_symbol_false_iff text).2 h2]
  rfl

/-- The texts `2#3` and `2@` fail with "incorrect symbol". -/
theorem calc_invalid_character_witness :
    parser_calc Libm.zero 1 "2#3".toList = .error .symbol ∧
    parser_calc Libm.zero 1 "2@".toList = .error .symbol :=
  ⟨calc_invalid_character Libm.zero "2#3".toList 1 (by decide) ⟨'#', by decide, by decide⟩
      (le_refl _),
   calc_invalid_character Libm.zero "2@".toList 1 (by decide) ⟨'@', by decide, by decide⟩
      (le_refl _)⟩

/-- C13, as the code has it: for an identifier of ASCII letters whose
lower-case form is none of the thirteen function names and none of the two
constant names, and a run of decimal digits `n`, `calc` on the text `name(n)`
throws "incorrect symbol" when the last letter of the identifier is `i` or
`e` in either case; when it is not, `std::stod` throws `std::out_of_range` if
the value of `n` is `overflow_bound` or more, and otherwise `calc` throws
"unknow function". -/
theorem calc_unknown_identifier (L : Libm) (name n : List Char) (o c last : Char) (fuel : Nat)
    (hname : ∀ ch ∈ name, isalpha ch = true) (hlast : name.getLast? = some last)
    (hfun : str_tolower name ∉ function_names) (hconst : str_tolower name ∉ constant_names)
    (hn : is_digits n = true) (hp : (o, c) ∈ bracket_pairs) (hf : 9 ≤ fuel) :
    parser_calc L fuel (name ++ o :: (n ++ [c])) =
      if last.toLower = 'i' ∨ last.toLower = 'e' then .error .symbol
      else if overflow_bound ≤ digits_value n then .error .range
      else .error .unknownFn := by
  obtain ⟨fuel, rfl⟩ := Nat.exists_eq_add_of_le hf
  rw [Nat.add_comm 9 fuel]
  by_cases hcase : last.toLower = 'i' ∨ last.toLower = 'e'
  · rw [if_pos hcase]
    obtain ⟨hc, ho⟩ := (pair_iff o c).1 hp
    have hoo : open_brackets o = true := by
      subst ho
      simp only [close_brackets, Bool.or_eq_true, beq_iff_eq] at hc
      rcases hc with (h | h) | h <;> subst h <;> decide
    have hoa : isalpha o = false := by
      simp only [open_brackets, Bool.or_eq_true, beq_iff_eq] at hoo
      rcases hoo with (h | h) | h <;> subst h <;> decide
    have v1 : lays_check (name ++ o :: (n ++ [c])) = true := by
      rw [lays_check, lays_check_loop_letters _ _ _ hname, lays_check_loop_open _ _ _ hoo,
        lays_check_loop_run _ _ _ hn, lays_check_loop_close _ _ _ hc]
      simp [ho, lays_check_loop]
    have v2 : incorrect_symbol (name ++ o :: (n ++ [c])) = true := by
      rw [incorrect_symbol_append, incorrect_symbol_letters _ hname,
        incorrect_symbol_cons _ _ (open_allowed o hoo).1, incorrect_symbol_append,
        incorrect_symbol_digits _ hn, (close_allowed c hc).1]
      rfl
    have v3 : (name ++ o :: (n ++ [c])).filter (· != ' ') = name ++ o :: (n ++ [c]) := by
      rw [List.filter_append, filter_space_letters _ hname,
        filter_space_cons _ _ (open_allowed o hoo).2.1, List.filter_append,
        filter_space_digits _ hn, filter_space_cons _ _ (close_allowed c hc).2.1,
        List.filter_nil]
    rw [calc_enter L _ _ v1 v2 v3,
      scan_zero_other _ _ _ (starts_number_letters name _ last hname hlast).1,
      scan_identifier_not_constant L _ _ name _ _ _ last hname hlast hcase
        (by simpa using hoa) hconst]
  · rw [if_neg hcase]
    by_cases hb : overflow_bound ≤ digits_value n
    · rw [if_pos hb]
      exact calc_call1_out_of_range L (fuel + 2) name n o c last hname hlast (not_or.1 hcase)
        hn hb hp
    · have hl : is_convertible n = true := by
        simp only [is_convertible, hn, Bool.true_and, decide_eq_true_eq]
        exact Nat.not_le.1 hb
      rw [if_neg hb, calc_call1_convertible L fuel name n o c last hname hlast
        (not_or.1 hcase) hl hp,
        process_function1_unknown L _ _ _ hfun (str_tolower_ne_cyrillic name hname), error_bind]

/-- The text `foo(1)` fails with "unknow function". -/
theorem calc_unknown_identifier_witness :
    parser_calc Libm.zero 9 "foo(1)".toList = .error .unknownFn :=
  (calc_unknown_identifier Libm.zero "foo".toList "1".toList '(' ')' 'o' 9 (by decide) rfl
    (by decide) (by decide) (by decide) (by decide) (le_refl _)).trans
    ((if_neg (by decide)).trans (if_neg (by decide)))

/-- C13 as stated fails: `foe` is neither a function name nor a constant, yet
the text `foe(1)` fails with "incorrect symbol", and with no amount of fuel
with "unknow function"; `ABS` is not one of the listed names, yet `ABS(1)`
returns 1. -/
theorem calc_identifier_ending_in_e :
    parser_calc Libm.zero 9 "foe(1)".toList = .error .symbol ∧
    (∀ fuel, parser_calc Libm.zero fuel "foe(1)".toList ≠ .error .unknownFn) ∧
    parser_calc Libm.zero 9 "ABS(1)".toList = .ok 1 := by
  have h : ∀ fuel, parser_calc Libm.zero (fuel + 3) "foe(1)".toList = .error .symbol := by
    intro fuel
    rw [calc_enter Libm.zero _ _ (by decide) (by decide) (by decide),
      scan_zero_other _ _ _ (by rfl)]
    exact scan_identifier_not_constant Libm.zero fuel _ "foe".toList "(1)".toList [] [0] 'e'
      (by decide) rfl (by decide) (by decide) (by decide)
  refine ⟨h 6, fun fuel => ?_, ?_⟩
  · rcases Nat.lt_or_ge fuel 3 with hlt | hge
    · have hfuel : parser_calc Libm.zero fuel "foe(1)".toList = .error .fuel := by
        interval_cases fuel <;> rfl
      rw [hfuel]
      intro h'
      cases h'
    · obtain ⟨m, rfl⟩ := Nat.exists_eq_add_of_le hge
      rw [Nat.add_comm 3 m, h m]
      intro h'
      cases h'
  · have e : |((digits_value "1".toList : ℕ) : ℚ)| = 1 := by
      rw [(by decide : digits_value "1".toList = 1)]
      norm_num
    have hcall := calc_call1_literal Libm.zero 0 "ABS".toList "1".toList '(' ')' 'S'
      (by decide) rfl (by decide) (by decide) (by decide)
    have hfun : process_function1 Libm.zero [0] (str_tolower "ABS".toList)
        (digits_value "1".toList) = .ok [|((digits_value "1".toList : ℕ) : ℚ)|, 0] := rfl
    rw [hfun, ok_bind, scan_end, reduce_all_nil, ok_bind, e] at hcall
    exact hcall


/-- C14, as the code has it: for a run of decimal digits `n` and a binary
operator glyph `op` among `+ - * / % ^ =`, on the text `n op` the conversion
`std::stod` throws `std::out_of_range` if the value of `n` is `overflow_bound`
or more; otherwise `calc` reaches the final reduction with one value on the
operand stack, and the operation reads the top of the then empty stack:
undefined behaviour, no exception. -/
theorem calc_missing_right_operand (L : Libm) (n : List Char) (op : Char) (fuel : Nat)
    (hn : is_digits n = true) (hop : op ∈ binary_operator_glyphs) (hf : 4 ≤ fuel) :
    parser_calc L fuel (n ++ [op]) =
      if overflow_bound ≤ digits_value n then .error .range else .error .undefined := by
  obtain ⟨fuel, rfl⟩ := Nat.exists_eq_add_of_le hf
  by_cases hb : overflow_bound ≤ digits_value n
  · obtain ⟨o1, -⟩ := exec_binary_underflow L fuel op 0 hop
    obtain ⟨n1, c1, -⟩ := is_operation_not_bracket op o1
    rw [if_pos hb, show 4 + fuel = (fuel + 2) + 2 by omega]
    refine calc_out_of_range L _ n _ hn hb ((operation_allowed op o1).2.2 _) ?_
      (operation_allowed op o1).1 ?_
    · rw [lays_check, lays_check_loop_other _ _ _ n1 c1]
      rfl
    · rw [filter_space_cons _ _ (operation_allowed op o1).2.1, List.filter_nil]
  · have hl : is_convertible n = true := by
      simp only [is_convertible, hn, Bool.true_and, decide_eq_true_eq]
      exact Nat.not_le.1 hb
    rw [if_neg hb, Nat.add_comm 4 fuel]
    exact calc_operator_at_end L fuel n op hl hop

/-- The text `2+` ends in the undefined read of the empty operand stack. -/
theorem calc_missing_right_operand_witness :
    parser_calc Libm.zero 4 "2+".toList = .error .undefined :=
  (calc_missing_right_operand Libm.zero "2".toList '+' 4 (by decide) (by decide)
    (le_refl _)).trans (if_neg (by decide))

/-- C14 as stated fails: on the text `2+` no exception is thrown; whatever the
fuel, the evaluation ends in the undefined read of the empty operand stack or
has not come that far. -/
theorem calc_two_plus_undefined :
    parser_calc Libm.zero 4 "2+".toList = .error .undefined ∧
    ∀ fuel, parser_calc Libm.zero fuel "2+".toList = .error .undefined ∨
      parser_calc Libm.zero fuel "2+".toList = .error .fuel := by
  have h : ∀ fuel, parser_calc Libm.zero (fuel + 4) "2+".toList = .error .undefined :=
    fun fuel => calc_operator_at_end Libm.zero fuel "2".toList '+' (by decide) (by decide)
  refine ⟨h 0, fun fuel => ?_⟩
  rcases Nat.lt_or_ge fuel 4 with hlt | hge
  · right
    interval_cases fuel <;> rfl
  · left
    obtain ⟨m, rfl⟩ := Nat.exists_eq_add_of_le hge
    rw [Nat.add_comm 4 m]
    exact h m

/-- C15 (the code departs from it): the dispatcher compares the name with a
string whose first letter is the Cyrillic `с`, so the ASCII name `ctg` is not
recognised: `process_function` with one argument throws "unknow function" for
it on every argument, and so does `calc` on the text `ctg(1)`. -/
theorem calc_cotangent_unrecognised (L : Libm) (fuel : Nat) :
    parser_calc L (fuel + 9) "ctg(1)".toList = .error .unknownFn ∧
    ∀ (stack : List ℚ) (arg : ℚ),
      process_function1 L stack "ctg".toList arg = .error .unknownFn := by
  have h : ∀ (stack : List ℚ) (arg : ℚ),
      process_function1 L stack "ctg".toList arg = .error .unknownFn := fun _ _ => rfl
  refine ⟨?_, h⟩
  have hcall := calc_call1_literal L fuel "ctg".toList "1".toList '(' ')' 'g'
    (by decide) rfl (by decide) (by decide) (by decide)
  rw [show str_tolower "ctg".toList = "ctg".toList from rfl, h, error_bind] at hcall
  exact hcall

/-- C17 (the code departs from it): on the text `0.5!` the operand 0.5 passes
the guard `assert(arg > 0)` and `fact` calls itself on 0.5 - 1, 0.5 - 2, ...
without ever meeting 0: with no amount of fuel does the evaluation return or
fail, it does not terminate. -/
theorem calc_factorial_of_half (L : Libm) (fuel : Nat) :
    parser_calc L fuel "0.5!".toList = .error .fuel := by
  have hv : stod L "00.5".toList =
      .ok (fl L ((digits_value "00".toList : ℚ) + (digits_value "5".toList : ℚ) / 10 ^ 1)) := rfl
  have hval : ((digits_value "00".toList : ℚ) + (digits_value "5".toList : ℚ) / 10 ^ 1) =
      1 / 2 := by
    rw [(by decide : digits_value "00".toList = 0), (by decide : digits_value "5".toList = 5)]
    norm_num
  have hpos : (1 / 2 : ℚ) > 0 := by norm_num
  rcases Nat.lt_or_ge fuel 4 with hlt | hge
  · interval_cases fuel <;> rfl
  · obtain ⟨m, rfl⟩ := Nat.exists_eq_add_of_le hge
    rw [Nat.add_comm 4 m, calc_enter L _ _ (by decide) (by decide) (by decide),
      show '0' :: "0.5!".toList = "00.5".toList ++ ['!'] from rfl,
      scan_number L _ none _ _ [] [] _ (by decide) (by decide) (by rfl) hv, hval,
      fl_exact L _ exact_double_half,
      scan_binary _ _ _ _ _ _ _ (by decide) (by rfl), reduce_prior_nil, ok_bind, scan_end,
      reduce_all_cons, exec_fact, if_pos hpos, fact_half L m]
    rfl

/-- C18, as the code has it: when `calc` succeeds, the value it returns is the
top of the operand stack at the moment it returns; the stack holds at least
that value and may hold more below it, no check is made. -/
theorem calc_returns_stack_top (L : Libm) (fuel : Nat) (text : List Char) (v : ℚ)
    (h : parser_calc L fuel text = .ok v) :
    ∃ below, calc_stack L fuel text = .ok (v :: below) := by
  rw [calc_eq_top] at h
  cases hs : calc_stack L fuel text with
  | error e => rw [hs] at h; cases h
  | ok st =>
    rw [hs] at h
    cases st with
    | nil => cases h
    | cons top below =>
      have e : top = v := by
        have h' : (Except.ok top : Res ℚ) = Except.ok v := h
        cases h'
        rfl
      exact ⟨below, by rw [e]⟩

/-- On the text `(1+2)`, where `calc` returns 3, the final operand stack has 3
on top. -/
theorem calc_returns_stack_top_witness :
    ∃ below, calc_stack Libm.zero 8 "(1+2)".toList = .ok (3 :: below) :=
  have e : ((digits_value "1".toList : ℕ) : ℚ) + ((digits_value "2".toList : ℕ) : ℚ) = 3 := by
    rw [(by decide : digits_value "1".toList = 1), (by decide : digits_value "2".toList = 2)]
    norm_num
  have x : exact_double
      (((digits_value "1".toList : ℕ) : ℚ) + ((digits_value "2".toList : ℕ) : ℚ)) = true := by
    rw [e]
    simpa using exact_double_natCast 3 (by decide)
  calc_returns_stack_top Libm.zero 8 "(1+2)".toList 3
    (e ▸ calc_bracketed_sum Libm.zero 0 '(' ')' "1".toList "2".toList (by decide) (by decide)
      (by decide) x)

/-- C18 as stated fails: on the text `(1+2)` `calc` returns 3 while the
operand stack holds the two values 3 and 0, and on `(2)(3)` it returns 3 while
the stack holds 3, 2 and 0. -/
theorem calc_returns_with_larger_stack :
    parser_calc Libm.zero 9 "(1+2)".toList = .ok 3 ∧
    calc_stack Libm.zero 9 "(1+2)".toList = .ok [3, 0] ∧
    parser_calc Libm.zero 9 "(2)(3)".toList = .ok 3 ∧
    calc_stack Libm.zero 9 "(2)(3)".toList = .ok [3, 2, 0] := by
  have d0 : ((digits_value ['0'] : ℕ) : ℚ) = 0 := by
    rw [(by decide : digits_value ['0'] = 0)]; rfl
  have d1 : ((digits_value "1".toList : ℕ) : ℚ) = 1 := by
    rw [(by decide : digits_value "1".toList = 1)]; rfl
  have d2 : ((digits_value "2".toList : ℕ) : ℚ) = 2 := by
    rw [(by decide : digits_value "2".toList = 2)]; rfl
  have d3 : ((digits_value "3".toList : ℕ) : ℚ) = 3 := by
    rw [(by decide : digits_value "3".toList = 3)]; rfl
  have f3 : fl Libm.zero (3 : ℚ) = 3 := by simpa using fl_natCast Libm.zero 3 (by decide)
  have s1 : calc_stack Libm.zero 9 "(1+2)".toList = .ok [3, 0] := by
    rw [calc_stack_enter Libm.zero 8 _ (by decide) (by decide) (by decide),
      show '0' :: "(1+2)".toList =
        ['0'] ++ '(' :: ("1".toList ++ '+' :: ("2".toList ++ [')'])) from rfl,
      scan_stack_literal _ _ _ _ _ _ _ (by decide) (by rfl),
      scan_stack_open _ _ _ _ _ _ _ (by decide) (by rfl),
      scan_stack_literal _ _ _ _ _ _ _ (by decide) (by rfl),
      scan_stack_binary _ _ _ _ _ _ _ (by decide) (by rfl),
      reduce_prior_stop _ _ _ _ _ _ (by decide), ok_bind,
      scan_stack_literal _ _ _ _ _ _ _ (by decide) (by rfl),
      scan_stack_close _ _ _ _ _ _ _ (by decide),
      reduce_to_open_apply _ _ _ _ _ (by decide), exec_add, ok_bind,
      reduce_to_open_stop _ _ _ _ _ (by decide), ok_bind, scan_stack_end, d0, d1, d2]
    norm_num [reduce_all, f3]
  have s2 : calc_stack Libm.zero 9 "(2)(3)".toList = .ok [3, 2, 0] := by
    rw [calc_stack_enter Libm.zero 8 _ (by decide) (by decide) (by decide),
      show '0' :: "(2)(3)".toList =
        ['0'] ++ '(' :: ("2".toList ++ ')' :: '(' :: ("3".toList ++ [')'])) from rfl,
      scan_stack_literal _ _ _ _ _ _ _ (by decide) (by rfl),
      scan_stack_open _ _ _ _ _ _ _ (by decide) (by rfl),
      scan_stack_literal _ _ _ _ _ _ _ (by decide) (by rfl),
      scan_stack_close _ _ _ _ _ _ _ (by decide),
      reduce_to_open_stop _ _ _ _ _ (by decide), ok_bind,
      scan_stack_open _ _ _ _ _ _ _ (by decide) (by rfl),
      scan_stack_literal _ _ _ _ _ _ _ (by decide) (by rfl),
      scan_stack_close _ _ _ _ _ _ _ (by decide),
      reduce_to_open_stop _ _ _ _ _ (by decide), ok_bind, scan_stack_end, d0, d2, d3]
    rfl
  refine ⟨?_, s1, ?_, s2⟩
  · rw [calc_eq_top, s1]; rfl
  · rw [calc_eq_top, s2]; rfl

/-- C19 (the code departs from it): on the text `(1=1)` the precedence loop
finds the marker `(` on top of the operator stack with the default precedence
0, not less than that of `=`, pops it and applies it as an operator, and
`create_object` throws "ops_factory: bad key"; the loop does so whenever `=`
meets a marker on top of the stack. -/
theorem calc_equality_in_brackets (L : Libm) (fuel : Nat) :
    parser_calc L (fuel + 5) "(1=1)".toList = .error .badKey ∧
    ∀ (f : Nat) (oper : List Int) (stack : List ℚ),
      reduce_prior L f (key '=') (key '(' :: oper) stack = .error .badKey := by
  have h : ∀ (f : Nat) (oper : List Int) (stack : List ℚ),
      reduce_prior L f (key '=') (key '(' :: oper) stack = .error .badKey := by
    intro f oper stack
    rw [reduce_prior_apply _ _ _ _ _ _ (by decide)]
    rfl
  refine ⟨?_, h⟩
  rw [calc_enter L _ _ (by decide) (by decide) (by decide),
    show '0' :: "(1=1)".toList = ['0'] ++ '(' :: ("1".toList ++ '=' :: "1)".toList) from rfl,
    scan_literal _ _ _ _ _ _ _ (by decide) (by rfl),
    scan_open _ _ _ _ _ _ _ (by decide) (by rfl),
    scan_literal _ _ _ _ _ _ _ (by decide) (by rfl),
    scan_binary _ _ _ _ _ _ _ (by decide) (by rfl), h, error_bind]

/-- C20 (the code departs from it): on the text `1+--2` the second prefix minus
makes the waiting one negate the operand 1 pushed before it, and `calc`
returns -1 + -2 = -3, not 3; on `1-+-2` the waiting prefix plus is applied
to 1 as well, which leaves it unchanged, and `calc` returns 3. -/
theorem calc_stacked_prefix_signs (L : Libm) (fuel : Nat) :
    parser_calc L (fuel + 7) "1+--2".toList = .ok (-3) ∧
    parser_calc L (fuel + 7) "1-+-2".toList = .ok 3 := by
  have d1 : ((digits_value "1".toList : ℕ) : ℚ) = 1 := by
    rw [(by decide : digits_value "1".toList = 1)]; rfl
  have d2 : ((digits_value "2".toList : ℕ) : ℚ) = 2 := by
    rw [(by decide : digits_value "2".toList = 2)]; rfl
  have sm : ∀ x : ℚ, signed '-' x = -x := fun _ => rfl
  have sp : ∀ x : ℚ, signed '+' x = x := fun _ => rfl
  have h1 := calc_stacked_signs L fuel "1".toList "2".toList '+' '-' '-' (by decide) (by decide)
    (by decide) (by decide) (by decide)
  have h2 := calc_stacked_signs L fuel "1".toList "2".toList '-' '+' '-' (by decide) (by decide)
    (by decide) (by decide) (by decide)
  rw [sm, sm, sp, d1, d2] at h1
  rw [sm, sm, sp, d1, d2] at h2
  norm_num at h1 h2
  exact ⟨h1, h2⟩


end ExprCalc
